import Mathlib

/-!
# High-precision unsigned integers (`prec.c`)

A shallow embedding of `src/prec.c`: little-endian arrays of 32-bit words with a
significant length `siz` and a capacity `alloc_size`.

Modelling conventions.

* Objects live in a heap indexed by pointers, so that a call whose arguments alias
  (for instance `precn_sub(remainder, remainder, divisor)` inside `precn_divmod`) is the
  same definition applied to equal pointers.
* The word buffer of an object is a list whose length is the size of the allocated block.
  A load or store outside the block is undefined behaviour in C; here it makes the
  operation return `none`.  Every theorem that says an operation returns `some _`
  therefore also says that all of its memory accesses were in bounds.
* `uint32_t` and `uint64_t` values are natural numbers; every place where the C code
  truncates or may wrap is an explicit `% 2 ^ 32` (`u32`) or `% 2 ^ 64` (`u64`).
  The `int64_t` arithmetic of `precn_sub` stays within `[-2^32, 2^32]` and is done in `Int`.
* The `int` fields `siz` and `alloc_size` and the loop counters are natural numbers:
  negative sizes and `int` overflow of sizes (buffers of 2^26 words and more) are not
  modelled.
* `malloc` never fails and returns the pointer it is given as a parameter, so no pointer
  is `NULL`; `realloc` keeps the old words and fills the new ones from an arbitrary
  function `junk`; `memcpy` is not checked for overlap.
-/

namespace Precn

/-! ## Data model -/

/-- Addresses of `struct __precn_struct` objects. -/
abbrev Ptr := Nat

/-- The C `struct __precn_struct`: `siz`, `alloc_size` and the block `a` points to. -/
structure precn_struct where
  siz : Nat
  alloc_size : Nat
  a : List Nat
deriving DecidableEq, Repr

/-- The memory: one object per pointer. -/
abbrev Heap := Ptr → precn_struct

/-- Conversion to `uint32_t`. -/
def u32 (x : Nat) : Nat := x % 2 ^ 32

/-- Conversion to `uint64_t` (wrap-around of 64-bit arithmetic). -/
def u64 (x : Nat) : Nat := x % 2 ^ 64

/-- Read `p->a[i]`; `none` outside the allocated block. -/
def load (h : Heap) (p : Ptr) (i : Nat) : Option Nat := (h p).a[i]?

/-- Write `p->a[i] = v`; `none` outside the allocated block. -/
def store (h : Heap) (p : Ptr) (i : Nat) (v : Nat) : Option Heap :=
  if i < (h p).a.length then
    some (Function.update h p { h p with a := (h p).a.set i v })
  else none

/-- Assignment `p->siz = s`. -/
def set_siz (h : Heap) (p : Ptr) (s : Nat) : Heap :=
  Function.update h p { h p with siz := s }

/-- The statement pair `p->a = realloc(p->a, n * sizeof(uint32_t)); p->alloc_size = n;`.
The first words of the block are kept, words that are new hold `junk`. -/
def grow (junk : Nat → Nat) (h : Heap) (p : Ptr) (n : Nat) : Heap :=
  Function.update h p
    { h p with
      alloc_size := n
      a := (List.range n).map (fun i => ((h p).a[i]?).getD (u32 (junk i))) }

/-- The C call `memset(p->a, 0, n * sizeof(uint32_t))`. -/
def memset0 (h : Heap) (p : Ptr) (n : Nat) : Option Heap :=
  if n ≤ (h p).a.length then
    some (Function.update h p { h p with a := List.replicate n 0 ++ (h p).a.drop n })
  else none

/-- The C call `memcpy(dst->a, src->a, n * sizeof(uint32_t))`. -/
def memcpy (h : Heap) (dst src : Ptr) (n : Nat) : Option Heap :=
  if n ≤ (h dst).a.length ∧ n ≤ (h src).a.length then
    some (Function.update h dst { h dst with a := (h src).a.take n ++ (h dst).a.drop n })
  else none

/-- A counting loop `for (i = i0; i < i0 + count; ++i) body`, threading the state. -/
def forUp {σ : Type} (body : Nat → σ → Option σ) : (count i : Nat) → σ → Option σ
  | 0, _, s => some s
  | n + 1, i, s => (body i s).bind (fun s1 => forUp body n (i + 1) s1)

/-- A descending loop `for (i = count - 1; i >= 0; --i) body`, threading the state. -/
def forDown {σ : Type} (body : Nat → σ → Option σ) : (count : Nat) → σ → Option σ
  | 0, s => some s
  | n + 1, s => (body n s).bind (fun s1 => forDown body n s1)

/-! ## The operations of `prec.c` -/

/-- `precn_new(size)`, the fresh object being placed at `p`. -/
def precn_new (h : Heap) (p : Ptr) (size : Int) : Heap :=
  let alloc_size := if size > 0 then size.toNat else 1
  Function.update h p ⟨0, alloc_size, List.replicate alloc_size 0⟩

/-- `precn_free(n)` for `n` not `NULL`: the block and the object are gone, no word of it
can be accessed. -/
def precn_free (h : Heap) (n : Ptr) : Heap :=
  Function.update h n ⟨0, 0, []⟩

/-- `precn_zero(n)`. -/
def precn_zero (h : Heap) (n : Ptr) : Option Heap := do
  let h ← memset0 h n (h n).alloc_size
  pure (set_siz h n 0)

/-- `precn_copy(dst, src)`. -/
def precn_copy (junk : Nat → Nat) (h : Heap) (dst src : Ptr) : Option Heap := do
  let h := if (h dst).alloc_size < (h src).siz then grow junk h dst (h src).siz else h
  let h ← memcpy h dst src (h src).siz
  pure (set_siz h dst (h src).siz)

/-- `precn_set_u32(n, val)`; `val` is a `uint32_t`, a number below `2^32`. -/
def precn_set_u32 (h : Heap) (n : Ptr) (val : Nat) : Option Heap := do
  let h ← precn_zero h n
  if val ≠ 0 then
    let h ← store h n 0 val
    pure (set_siz h n 1)
  else
    pure h

/-- The loop of `precn_normalize` on a block `a`, started with `siz = s`: the final `siz`. -/
def normalize_siz (a : List Nat) : Nat → Option Nat
  | 0 => some 0
  | s + 1 =>
    match a[s]? with
    | none => none
    | some w => if w = 0 then normalize_siz a s else some (s + 1)

/-- `precn_normalize(n)`. -/
def precn_normalize (h : Heap) (n : Ptr) : Option Heap :=
  (normalize_siz (h n).a (h n).siz).map (fun s => set_siz h n s)

/-- The loop of `precn_cmp`, `for (i = count - 1; i >= 0; --i)`, with its early returns. -/
def precn_cmp_loop (h : Heap) (a b : Ptr) : Nat → Option Int
  | 0 => some 0
  | i + 1 => do
    let x ← load h a i
    let y ← load h b i
    if x < y then pure (-1)
    else if x > y then pure 1
    else precn_cmp_loop h a b i

/-- `precn_cmp(a, b)`: the heap after the call (both operands normalized) and the result. -/
def precn_cmp (h : Heap) (a b : Ptr) : Option (Heap × Int) := do
  let h ← precn_normalize h a
  let h ← precn_normalize h b
  if (h a).siz < (h b).siz then pure (h, -1)
  else if (h a).siz > (h b).siz then pure (h, 1)
  else do
    let r ← precn_cmp_loop h a b (h a).siz
    pure (h, r)

/-- One column of `precn_add`; the state is the heap and the 64-bit `carry`. -/
def precn_add_body (res a b : Ptr) (i : Nat) (s : Heap × Nat) : Option (Heap × Nat) := do
  let av ← (if i < (s.1 a).siz then load s.1 a i else pure 0)
  let bv ← (if i < (s.1 b).siz then load s.1 b i else pure 0)
  let sum := u64 (u64 (av + bv) + s.2)
  let h ← store s.1 res i (u32 sum)
  pure (h, sum >>> 32)

/-- `precn_add(res, a, b)`. -/
def precn_add (junk : Nat → Nat) (h : Heap) (res a b : Ptr) : Option Heap := do
  let max := if (h a).siz > (h b).siz then (h a).siz else (h b).siz
  let h := if (h res).alloc_size < max + 1 then grow junk h res (max + 1) else h
  let s ← forUp (precn_add_body res a b) max 0 (h, 0)
  if s.2 ≠ 0 then
    let h ← store s.1 res max (u32 s.2)
    precn_normalize (set_siz h res (max + 1)) res
  else
    precn_normalize (set_siz s.1 res max) res

/-- One column of `precn_sub`; the state is the heap and the `int64_t` borrow. -/
def precn_sub_body (res big small : Ptr) (i : Nat) (s : Heap × Int) : Option (Heap × Int) := do
  let av ← (if i < (s.1 big).siz then load s.1 big i else pure 0)
  let bv ← (if i < (s.1 small).siz then load s.1 small i else pure 0)
  let diff : Int := (av : Int) - (bv : Int) - s.2
  let diff1 : Int := if diff < 0 then diff + 2 ^ 32 else diff
  let borrow : Int := if diff < 0 then 1 else 0
  let h ← store s.1 res i (diff1 % 2 ^ 32).toNat
  pure (h, borrow)

/-- `precn_sub(res, a, b)`. -/
def precn_sub (junk : Nat → Nat) (h : Heap) (res a b : Ptr) : Option Heap := do
  let c ← precn_cmp h a b
  let h := c.1
  let big := if c.2 ≥ 0 then a else b
  let small := if c.2 ≥ 0 then b else a
  let max := (h big).siz
  let h := if (h res).alloc_size < max then grow junk h res max else h
  let s ← forUp (precn_sub_body res big small) max 0 (h, 0)
  precn_normalize (set_siz s.1 res max) res

/-- One step of the inner loop of `precn_mul`; the state is the heap and the 64-bit `carry`. -/
def precn_mul_inner (res a b : Ptr) (i j : Nat) (s : Heap × Nat) : Option (Heap × Nat) := do
  let x ← load s.1 a i
  let y ← load s.1 b j
  let z ← load s.1 res (i + j)
  let prod := u64 (u64 (u64 (x * y) + z) + s.2)
  let h ← store s.1 res (i + j) (u32 prod)
  pure (h, prod >>> 32)

/-- One step of the outer loop of `precn_mul`, `m` being `b->siz` read on entry. -/
def precn_mul_outer (res a b : Ptr) (m i : Nat) (h : Heap) : Option Heap := do
  let s ← forUp (precn_mul_inner res a b i) m 0 (h, 0)
  store s.1 res (i + m) (u32 s.2)

/-- `precn_mul(res, a, b)`. -/
def precn_mul (junk : Nat → Nat) (h : Heap) (res a b : Ptr) : Option Heap := do
  let n := (h a).siz
  let m := (h b).siz
  let sz := n + m
  let h := if (h res).alloc_size < sz then grow junk h res sz else h
  let h ← memset0 h res sz
  let h ← forUp (precn_mul_outer res a b m) n 0 h
  precn_normalize (set_siz h res sz) res

/-- One word of the one-bit left shift of the remainder in `precn_divmod`; the state is
the heap and the `uint32_t` carry. -/
def precn_divmod_shift (remainder : Ptr) (j : Nat) (s : Heap × Nat) : Option (Heap × Nat) := do
  let w ← load s.1 remainder j
  let temp := u64 (w <<< 1) ||| s.2
  let h ← store s.1 remainder j (u32 temp)
  pure (h, u32 (temp >>> 32))

/-- The step "shift remainder left by 1" of the long-division loop: the word loop and
the append of the carry, which only happens when `siz < alloc_size`. -/
def precn_divmod_shl1 (remainder : Ptr) (h : Heap) : Option Heap := do
  let s ← forUp (precn_divmod_shift remainder) (h remainder).siz 0 (h, 0)
  if s.2 ≠ 0 then
    if (s.1 remainder).siz < (s.1 remainder).alloc_size then do
      let h1 ← store s.1 remainder (s.1 remainder).siz s.2
      pure (set_siz h1 remainder ((s.1 remainder).siz + 1))
    else pure s.1
  else pure s.1

/-- The step "get bit i from dividend" and "add bit to remainder" of the long-division
loop. -/
def precn_divmod_getbit (remainder dividend : Ptr) (i : Nat) (h : Heap) : Option Heap :=
  let word_idx := i / 32
  let bit_idx := i % 32
  if word_idx < (h dividend).siz then do
    let w ← load h dividend word_idx
    let bit := (w >>> bit_idx) &&& 1
    if bit ≠ 0 then
      if (h remainder).siz = 0 then do
        let h1 ← store h remainder 0 1
        pure (set_siz h1 remainder 1)
      else do
        let w0 ← load h remainder 0
        store h remainder 0 (w0 ||| 1)
    else pure h
  else pure h

/-- The step "if remainder >= divisor, subtract and set quotient bit" of the long-division
loop. -/
def precn_divmod_qbit (junk : Nat → Nat) (quotient remainder divisor : Ptr) (i : Nat)
    (h : Heap) : Option Heap := do
  let c ← precn_cmp h remainder divisor
  if c.2 ≥ 0 then do
    let h ← precn_sub junk c.1 remainder remainder divisor
    let q_word := i / 32
    let q_bit := i % 32
    if q_word < (h quotient).alloc_size then do
      let w ← load h quotient q_word
      let h1 ← store h quotient q_word (w ||| u32 (1 <<< q_bit))
      if q_word ≥ (h1 quotient).siz then pure (set_siz h1 quotient (q_word + 1))
      else pure h1
    else pure h
  else pure c.1

/-- One iteration (bit index `i`) of the long-division loop of `precn_divmod`. -/
def precn_divmod_body (junk : Nat → Nat) (quotient remainder dividend divisor : Ptr)
    (i : Nat) (h : Heap) : Option Heap := do
  let h ← precn_divmod_shl1 remainder h
  let h ← precn_divmod_getbit remainder dividend i h
  precn_divmod_qbit junk quotient remainder divisor i h

/-- `precn_divmod(quotient, remainder, dividend, divisor)`: the heap after the call and
the returned `int`. -/
def precn_divmod (junk : Nat → Nat) (h : Heap) (quotient remainder dividend divisor : Ptr) :
    Option (Heap × Int) := do
  if (h divisor).siz = 0 then pure (h, -1)
  else do
    let c ← precn_cmp h dividend divisor
    let h := c.1
    if c.2 < 0 then do
      let h ← precn_zero h quotient
      let h ← precn_copy junk h remainder dividend
      pure (h, 0)
    else do
      let h ← precn_zero h quotient
      let h ← precn_zero h remainder
      let h :=
        if (h quotient).alloc_size < (h dividend).siz then
          grow junk h quotient (h dividend).siz
        else h
      let h ← forDown (precn_divmod_body junk quotient remainder dividend divisor)
        ((h dividend).siz * 32) h
      let h ← precn_normalize h quotient
      let h ← precn_normalize h remainder
      pure (h, 0)

/-- `precn_div(quotient, dividend, divisor)`; `tmp` is the address `precn_new` returns. -/
def precn_div (junk : Nat → Nat) (h : Heap) (tmp quotient dividend divisor : Ptr) :
    Option (Heap × Int) := do
  let h := precn_new h tmp (h dividend).siz
  let r ← precn_divmod junk h quotient tmp dividend divisor
  pure (precn_free r.1 tmp, r.2)

/-- `precn_mod(remainder, dividend, divisor)`; `tmp` is the address `precn_new` returns. -/
def precn_mod (junk : Nat → Nat) (h : Heap) (tmp remainder dividend divisor : Ptr) :
    Option (Heap × Int) := do
  let h := precn_new h tmp (h dividend).siz
  let r ← precn_divmod junk h tmp remainder dividend divisor
  pure (precn_free r.1 tmp, r.2)

/-- One word of the bit-shifting loop of `precn_shl`; the state is the heap and the
`uint32_t` carry. -/
def precn_shl_body (res a : Ptr) (word_shift bit_shift i : Nat) (s : Heap × Nat) :
    Option (Heap × Nat) := do
  let w ← load s.1 a i
  let temp := u64 (w <<< bit_shift) ||| s.2
  let h ← store s.1 res (i + word_shift) (u32 temp)
  pure (h, u32 (temp >>> 32))

/-- One word of the word-shifting loop of `precn_shl`. -/
def precn_shl_word (res a : Ptr) (word_shift i : Nat) (h : Heap) : Option Heap := do
  let w ← load h a i
  store h res (i + word_shift) w

/-- The branch "simple word shift" of `precn_shl`. -/
def precn_shl_words (res a : Ptr) (word_shift : Nat) (h : Heap) : Option Heap :=
  forUp (precn_shl_word res a word_shift) (h a).siz 0 h

/-- The branch "bit shift with carry" of `precn_shl`. -/
def precn_shl_bits (res a : Ptr) (word_shift bit_shift : Nat) (h : Heap) : Option Heap := do
  let s ← forUp (precn_shl_body res a word_shift bit_shift) (h a).siz 0 (h, 0)
  if s.2 ≠ 0 then store s.1 res ((s.1 a).siz + word_shift) s.2
  else pure s.1

/-- `precn_shl(res, a, n)`. -/
def precn_shl (junk : Nat → Nat) (h : Heap) (res a : Ptr) (n : Nat) : Option Heap :=
  if n = 0 then precn_copy junk h res a
  else do
    let word_shift := n / 32
    let bit_shift := n % 32
    let new_size := (h a).siz + word_shift + (if bit_shift > 0 then 1 else 0)
    let h := if (h res).alloc_size < new_size then grow junk h res new_size else h
    let h ← memset0 h res new_size
    let h ← (if bit_shift = 0 then precn_shl_words res a word_shift h
      else precn_shl_bits res a word_shift bit_shift h)
    precn_normalize (set_siz h res new_size) res

/-! ## Values and invariants -/

/-- The number an object stands for: the sum of `a[i] * 2^(32*i)` over `i < siz`. -/
def value (x : precn_struct) : Nat :=
  ((List.range x.siz).map (fun i => x.a.getD i 0 * 2 ^ (32 * i))).sum

/-- Normalized form: `siz = 0` or the most significant word `a[siz-1]` is not zero. -/
def Normalized (x : precn_struct) : Prop :=
  x.siz = 0 ∨ x.a.getD (x.siz - 1) 0 ≠ 0

/-- Well-formed object: the block has `alloc_size ≥ 1` words, each a 32-bit word, and
`siz` of them are significant. -/
def Wf (x : precn_struct) : Prop :=
  x.a.length = x.alloc_size ∧ 1 ≤ x.alloc_size ∧ x.siz ≤ x.alloc_size ∧ ∀ w ∈ x.a, w < 2 ^ 32

instance (x : precn_struct) : Decidable (Wf x) := by
  unfold Wf; infer_instance

instance (x : precn_struct) : Decidable (Normalized x) := by
  unfold Normalized; infer_instance

/-- The heap that holds the listed objects at the addresses 0, 1, 2, ... (concrete examples). -/
def heapOf (l : List precn_struct) : Heap := fun p => l.getD p ⟨0, 1, [0]⟩

/-! ## Auxiliary notions used in the proofs -/

/-- Word `j` of an object, zero outside the block. -/
def wd (x : precn_struct) (j : Nat) : Nat := x.a.getD j 0

/-- The object with word `i` replaced by `v`. -/
def setWord (x : precn_struct) (i v : Nat) : precn_struct := { x with a := x.a.set i v }

/-- The object after `realloc` to `n` words and `alloc_size = n`. -/
def growObj (junk : Nat → Nat) (x : precn_struct) (n : Nat) : precn_struct :=
  { x with
    alloc_size := n
    a := (List.range n).map (fun i => (x.a[i]?).getD (u32 (junk i))) }

/-- The object after the guarded growth `if (alloc_size < n) { realloc; alloc_size = n; }`. -/
def ensureObj (junk : Nat → Nat) (x : precn_struct) (n : Nat) : precn_struct :=
  if x.alloc_size < n then growObj junk x n else x

/-- The object after `memset(a, 0, n * sizeof(uint32_t))`. -/
def clearObj (x : precn_struct) (n : Nat) : precn_struct :=
  { x with a := List.replicate n 0 ++ x.a.drop n }

/-- The destination object after `precn_copy` from a distinct source object `s`. -/
def copyObj (junk : Nat → Nat) (d s : precn_struct) : precn_struct :=
  { ensureObj junk d s.siz with
    siz := s.siz
    a := s.a.take s.siz ++ (ensureObj junk d s.siz).a.drop s.siz }

/-- Word `j` as the loops of `precn_add` and `precn_sub` read it: zero from `siz` on. -/
def wdz (x : precn_struct) (j : Nat) : Nat := if j < x.siz then wd x j else 0

/-- Relation between the heap `h0` on entry of a loop that writes the words of `res` in
ascending order and the heap `h` when the words below `k` have been written. -/
def RowInv (h0 : Heap) (res : Ptr) (k : Nat) (h : Heap) : Prop :=
  (∀ p, p ≠ res → h p = h0 p) ∧ (h res).siz = (h0 res).siz ∧
    (h res).alloc_size = (h0 res).alloc_size ∧ (h res).a.length = (h0 res).a.length ∧
    ∀ j, k ≤ j → wd (h res) j = wd (h0 res) j

/-- Relation between the heap `h0` on entry of a loop that only stores words of `res` and
the heap `h` later in the loop. -/
def Frame (h0 : Heap) (res : Ptr) (h : Heap) : Prop :=
  (∀ p, p ≠ res → h p = h0 p) ∧ (h res).siz = (h0 res).siz ∧
    (h res).alloc_size = (h0 res).alloc_size ∧ (h res).a.length = (h0 res).a.length

/-- Bit `i` of an object as the long division of `precn_divmod` reads it. -/
def bitAt (x : precn_struct) (i : Nat) : Nat :=
  if i / 32 < x.siz then (wd x (i / 32) >>> (i % 32)) &&& 1 else 0

/-- The sum of `f i * 2^(32*i)` over `i < n`. -/
def valN (f : Nat → Nat) : Nat → Nat
  | 0 => 0
  | n + 1 => valN f n + f n * 2 ^ (32 * n)

/-- The length left after trimming the zero words at the top of the first `s` words. -/
def normLen (f : Nat → Nat) : Nat → Nat
  | 0 => 0
  | s + 1 => if f s = 0 then normLen f s else s + 1

/-- The normalized length of an object: `siz` without the zero words at the top. -/
def nlen (x : precn_struct) : Nat := normLen (wd x) x.siz

/-- An object with its `siz` trimmed to the normalized length. -/
def nzObj (x : precn_struct) : precn_struct := { x with siz := normLen (wd x) x.siz }

/-- The heap in which the objects at `a` and `b` have been normalized. -/
def cmpHeap (h : Heap) (a b : Ptr) : Heap :=
  fun p => if p = a ∨ p = b then nzObj (h p) else h p

/-- Three-way comparison of two numbers, as an `int`. -/
def cmp3 (x y : Nat) : Int := if x < y then -1 else if x > y then 1 else 0

/-- What the long-division loop of `precn_divmod` keeps true of the heap `h`, started on
`h1`, whatever the capacities: only the quotient `q` and the remainder `r` change, both
stay well-formed and keep their capacity. -/
def DivFrame (h1 : Heap) (q r : Ptr) (h : Heap) : Prop :=
  (∀ p, p ≠ q → p ≠ r → h p = h1 p) ∧ Wf (h q) ∧ Wf (h r) ∧
    (h r).alloc_size = (h1 r).alloc_size ∧ (h q).alloc_size = (h1 q).alloc_size

/-- The arithmetic invariant of the long-division loop when the bits `n` and above of a
dividend of `L` words and value `va` have been processed, `vb` being the divisor: the
quotient words hold `2^n * Q` with no bit below `n` set and nothing above `siz`, and
`Q * vb + remainder` is the dividend shifted right by `n` bits. -/
def DivInv (q r : Ptr) (L va vb n : Nat) (h : Heap) : Prop :=
  (h q).siz ≤ L ∧ (∀ j, (h q).siz ≤ j → j < L → wd (h q) j = 0) ∧
    (∀ j, j < L → 2 ^ (min 32 (n - 32 * j)) ∣ wd (h q) j) ∧
    ∃ Q, valN (wd (h q)) L = 2 ^ n * Q ∧ Q * vb + value (h r) = va / 2 ^ n ∧
      value (h r) < vb

theorem value_eq_valN (x : precn_struct) : value x = valN (wd x) x.siz := by
  unfold value
  generalize x.siz = n
  induction n with
  | zero => simp [valN]
  | succ n ih =>
    simp only [List.range_succ, List.map_append, List.sum_append, List.map_cons, List.map_nil,
      List.sum_cons, List.sum_nil, valN, ih, wd, add_zero]

theorem valN_congr {f g : Nat → Nat} {n : Nat} (hfg : ∀ j, j < n → f j = g j) :
    valN f n = valN g n := by
  induction n with
  | zero => rfl
  | succ n ih =>
    simp only [valN]
    rw [ih (fun j hj => hfg j (Nat.lt_succ_of_lt hj)), hfg n (Nat.lt_succ_self n)]

theorem valN_lt {f : Nat → Nat} (hf : ∀ j, f j < 2 ^ 32) (n : Nat) :
    valN f n < 2 ^ (32 * n) := by
  induction n with
  | zero => simp [valN]
  | succ n ih =>
    simp only [valN]
    have h1 : f n + 1 ≤ 2 ^ 32 := hf n
    have h2 : (f n + 1) * 2 ^ (32 * n) ≤ 2 ^ 32 * 2 ^ (32 * n) :=
      Nat.mul_le_mul_right _ h1
    have h3 : 2 ^ (32 * (n + 1)) = 2 ^ 32 * 2 ^ (32 * n) := by
      rw [← pow_add]; congr 1; ring
    rw [h3]
    nlinarith

theorem wd_lt_of_Wf {x : precn_struct} (hx : Wf x) (j : Nat) : wd x j < 2 ^ 32 := by
  unfold wd
  by_cases hj : j < x.a.length
  · rw [List.getD_eq_getElem _ _ hj]
    exact hx.2.2.2 _ (List.getElem_mem hj)
  · rw [List.getD_eq_default _ _ (Nat.le_of_not_lt hj)]
    positivity

/-! ### Loads, stores and loops -/

theorem load_eq {h : Heap} {p : Ptr} {i : Nat} (hi : i < (h p).a.length) :
    load h p i = some (wd (h p) i) := by
  unfold load wd
  rw [List.getElem?_eq_getElem hi, List.getD_eq_getElem _ _ hi]

theorem store_eq {h : Heap} {p : Ptr} {i : Nat} (v : Nat) (hi : i < (h p).a.length) :
    store h p i v = some (Function.update h p (setWord (h p) i v)) := by
  unfold store setWord
  rw [if_pos hi]

theorem wd_setWord (x : precn_struct) (i v j : Nat) (hi : i < x.a.length) :
    wd (setWord x i v) j = if j = i then v else wd x j := by
  unfold wd setWord
  simp only [List.getD_eq_getElem?_getD]
  by_cases hji : j = i
  · subst hji
    simp [hi]
  · rw [if_neg hji, List.getElem?_set_ne (Ne.symm hji)]

theorem forUp_inv {σ : Type} (body : Nat → σ → Option σ) (I : Nat → σ → Prop) :
    ∀ (n i0 : Nat) (s0 : σ), I i0 s0 →
      (∀ i s, i0 ≤ i → i < i0 + n → I i s → ∃ s1, body i s = some s1 ∧ I (i + 1) s1) →
      ∃ s1, forUp body n i0 s0 = some s1 ∧ I (i0 + n) s1 := by
  intro n
  induction n with
  | zero => intro i0 s0 h0 _; exact ⟨s0, rfl, h0⟩
  | succ n ih =>
    intro i0 s0 h0 hstep
    obtain ⟨s1, hb, hI⟩ := hstep i0 s0 (Nat.le_refl _) (by omega) h0
    obtain ⟨s2, hf, hI2⟩ := ih (i0 + 1) s1 hI
      (fun i s hi1 hi2 hi => hstep i s (by omega) (by omega) hi)
    refine ⟨s2, ?_, ?_⟩
    · simp only [forUp, hb, Option.some_bind, hf]
    · have : i0 + (n + 1) = i0 + 1 + n := by omega
      rw [this]; exact hI2

theorem forDown_inv {σ : Type} (body : Nat → σ → Option σ) (I : Nat → σ → Prop) :
    ∀ (n : Nat) (s0 : σ), I n s0 →
      (∀ i s, i < n → I (i + 1) s → ∃ s1, body i s = some s1 ∧ I i s1) →
      ∃ s1, forDown body n s0 = some s1 ∧ I 0 s1 := by
  intro n
  induction n with
  | zero => intro s0 h0 _; exact ⟨s0, rfl, h0⟩
  | succ n ih =>
    intro s0 h0 hstep
    obtain ⟨s1, hb, hI⟩ := hstep n s0 (Nat.lt_succ_self n) h0
    obtain ⟨s2, hf, hI2⟩ := ih s1 hI (fun i s hi1 hi => hstep i s (by omega) hi)
    exact ⟨s2, by simp only [forDown, hb, Option.some_bind, hf], hI2⟩

/-! ### Normalization -/

theorem normLen_le (f : Nat → Nat) (s : Nat) : normLen f s ≤ s := by
  induction s with
  | zero => simp [normLen]
  | succ s ih =>
    simp only [normLen]
    split
    · omega
    · exact Nat.le_refl _

theorem valN_normLen (f : Nat → Nat) (s : Nat) : valN f (normLen f s) = valN f s := by
  induction s with
  | zero => simp [normLen]
  | succ s ih =>
    simp only [normLen]
    split
    · rename_i h0
      rw [ih]; simp [valN, h0]
    · rfl

theorem normLen_top (f : Nat → Nat) (s : Nat) :
    normLen f s = 0 ∨ f (normLen f s - 1) ≠ 0 := by
  induction s with
  | zero => simp [normLen]
  | succ s ih =>
    simp only [normLen]
    split
    · exact ih
    · rename_i h0
      right; simpa using h0

theorem normLen_of_top {f : Nat → Nat} {s : Nat} (hs : s = 0 ∨ f (s - 1) ≠ 0) :
    normLen f s = s := by
  cases s with
  | zero => rfl
  | succ s =>
    have h0 : f s ≠ 0 := by
      rcases hs with hs | hs
      · omega
      · simpa using hs
    simp [normLen, h0]

theorem normLen_above {f : Nat → Nat} {s : Nat} :
    ∀ j, normLen f s ≤ j → j < s → f j = 0 := by
  induction s with
  | zero => intro j _ hj; omega
  | succ s ih =>
    intro j h1 h2
    simp only [normLen] at h1
    split at h1
    · rename_i h0
      by_cases hjs : j = s
      · rw [hjs]; exact h0
      · exact ih j h1 (by omega)
    · omega

theorem normalize_siz_eq (a : List Nat) (s : Nat) (hs : s ≤ a.length) :
    normalize_siz a s = some (normLen (fun j => a.getD j 0) s) := by
  induction s with
  | zero => rfl
  | succ s ih =>
    have hlt : s < a.length := hs
    simp only [normalize_siz, normLen, List.getElem?_eq_getElem hlt,
      List.getD_eq_getElem _ _ hlt]
    split
    · exact ih (Nat.le_of_lt hlt)
    · rfl

theorem precn_normalize_eq (h : Heap) (n : Ptr) (hs : (h n).siz ≤ (h n).a.length) :
    precn_normalize h n = some (Function.update h n (nzObj (h n))) := by
  unfold precn_normalize
  rw [normalize_siz_eq _ _ hs]
  rfl

theorem wd_nzObj (x : precn_struct) : wd (nzObj x) = wd x := rfl

theorem value_nzObj (x : precn_struct) : value (nzObj x) = value x := by
  rw [value_eq_valN, value_eq_valN, wd_nzObj]
  exact valN_normLen _ _

theorem Normalized_nzObj (x : precn_struct) : Normalized (nzObj x) :=
  normLen_top (wd x) x.siz

theorem nzObj_of_Normalized {x : precn_struct} (hx : Normalized x) : nzObj x = x := by
  unfold nzObj
  have : normLen (wd x) x.siz = x.siz := normLen_of_top hx
  rw [this]

theorem Wf_nzObj {x : precn_struct} (hx : Wf x) : Wf (nzObj x) :=
  ⟨hx.1, hx.2.1, Nat.le_trans (normLen_le _ _) hx.2.2.1, hx.2.2.2⟩

/-! ### Comparison -/

theorem cmpHeap_left (h : Heap) (a b : Ptr) : cmpHeap h a b a = nzObj (h a) := by
  simp [cmpHeap]

theorem cmpHeap_right (h : Heap) (a b : Ptr) : cmpHeap h a b b = nzObj (h b) := by
  simp [cmpHeap]

theorem cmpHeap_other (h : Heap) {a b p : Ptr} (hpa : p ≠ a) (hpb : p ≠ b) :
    cmpHeap h a b p = h p := by
  simp [cmpHeap, hpa, hpb]

theorem pow32_le {m n : Nat} (hmn : m ≤ n) : 2 ^ (32 * m) ≤ 2 ^ (32 * n) :=
  Nat.pow_le_pow_right (by decide) (Nat.mul_le_mul_left 32 hmn)

theorem valN_top_le {f : Nat → Nat} {s : Nat} (hs : 0 < s) (h0 : f (s - 1) ≠ 0) :
    2 ^ (32 * (s - 1)) ≤ valN f s := by
  obtain ⟨t, rfl⟩ : ∃ t, s = t + 1 := ⟨s - 1, by omega⟩
  simp only [Nat.add_sub_cancel, valN] at *
  have h1 : 1 ≤ f t := Nat.pos_of_ne_zero h0
  have := Nat.mul_le_mul_right (2 ^ (32 * t)) h1
  omega

theorem value_lt_of_siz_lt {x y : precn_struct} (hx : Wf x) (hy : Normalized y)
    (hlt : x.siz < y.siz) : value x < value y := by
  rw [value_eq_valN, value_eq_valN]
  have h1 := valN_lt (wd_lt_of_Wf hx) x.siz
  have h2 : 2 ^ (32 * (y.siz - 1)) ≤ valN (wd y) y.siz := by
    apply valN_top_le (by omega)
    rcases hy with hy | hy
    · omega
    · exact hy
  have h3 : 2 ^ (32 * x.siz) ≤ 2 ^ (32 * (y.siz - 1)) := pow32_le (by omega)
  omega

theorem cmp3_add_right (x y c : Nat) : cmp3 (x + c) (y + c) = cmp3 x y := by
  unfold cmp3
  simp

theorem cmp3_of_lt {x y : Nat} (hxy : x < y) : cmp3 x y = -1 := by
  unfold cmp3; simp [hxy]

theorem cmp3_of_gt {x y : Nat} (hxy : y < x) : cmp3 x y = 1 := by
  unfold cmp3
  rw [if_neg (by omega), if_pos hxy]

theorem precn_cmp_loop_eq (h : Heap) (a b : Ptr)
    (ha : ∀ j, wd (h a) j < 2 ^ 32) (hb : ∀ j, wd (h b) j < 2 ^ 32) :
    ∀ n, n ≤ (h a).a.length → n ≤ (h b).a.length →
      precn_cmp_loop h a b n = some (cmp3 (valN (wd (h a)) n) (valN (wd (h b)) n)) := by
  intro n
  induction n with
  | zero => intro _ _; rfl
  | succ n ih =>
    intro hna hnb
    have hxa := valN_lt ha n
    have hxb := valN_lt hb n
    simp only [precn_cmp_loop, load_eq (show n < (h a).a.length from hna),
      load_eq (show n < (h b).a.length from hnb), Option.bind_eq_bind, Option.some_bind, valN]
    by_cases h1 : wd (h a) n < wd (h b) n
    · rw [if_pos h1]
      have : (wd (h a) n + 1) * 2 ^ (32 * n) ≤ wd (h b) n * 2 ^ (32 * n) :=
        Nat.mul_le_mul_right _ h1
      rw [cmp3_of_lt (by nlinarith)]
      rfl
    · rw [if_neg h1]
      by_cases h2 : wd (h a) n > wd (h b) n
      · rw [if_pos h2]
        have : (wd (h b) n + 1) * 2 ^ (32 * n) ≤ wd (h a) n * 2 ^ (32 * n) :=
          Nat.mul_le_mul_right _ h2
        rw [cmp3_of_gt (by nlinarith)]
        rfl
      · rw [if_neg h2]
        have heq : wd (h a) n = wd (h b) n := by omega
        rw [heq, cmp3_add_right]
        exact ih (Nat.le_of_lt hna) (Nat.le_of_lt hnb)

theorem normalize_twice (h : Heap) (a b : Ptr) :
    Function.update (Function.update h a (nzObj (h a))) b
      (nzObj (Function.update h a (nzObj (h a)) b)) = cmpHeap h a b := by
  funext p
  unfold cmpHeap
  by_cases hpb : p = b
  · subst hpb
    by_cases hpa : p = a
    · subst hpa
      simp only [Function.update_same, true_or, if_true]
      exact nzObj_of_Normalized (Normalized_nzObj _)
    · simp [Function.update_noteq hpa]
  · by_cases hpa : p = a
    · subst hpa
      simp [Function.update_noteq hpb]
    · simp [Function.update_noteq hpb, Function.update_noteq hpa, hpa, hpb]

theorem precn_cmp_eq (h : Heap) (a b : Ptr) (ha : Wf (h a)) (hb : Wf (h b)) :
    precn_cmp h a b = some (cmpHeap h a b, cmp3 (value (h a)) (value (h b))) := by
  have hna : precn_normalize h a = some (Function.update h a (nzObj (h a))) :=
    precn_normalize_eq h a (by rw [ha.1]; exact ha.2.2.1)
  have hwb : Wf (Function.update h a (nzObj (h a)) b) := by
    by_cases hba : b = a
    · subst hba; simpa using Wf_nzObj hb
    · simpa [Function.update_noteq hba] using hb
  have hnb := precn_normalize_eq (Function.update h a (nzObj (h a))) b
    (by rw [hwb.1]; exact hwb.2.2.1)
  rw [normalize_twice] at hnb
  unfold precn_cmp
  simp only [hna, hnb, Option.bind_eq_bind, Option.some_bind, cmpHeap_left, cmpHeap_right]
  have hva := value_nzObj (h a)
  have hvb := value_nzObj (h b)
  by_cases h1 : (nzObj (h a)).siz < (nzObj (h b)).siz
  · rw [if_pos h1]
    have := value_lt_of_siz_lt (Wf_nzObj ha) (Normalized_nzObj (h b)) h1
    rw [hva, hvb] at this
    rw [cmp3_of_lt this]; rfl
  · rw [if_neg h1]
    by_cases h2 : (nzObj (h a)).siz > (nzObj (h b)).siz
    · rw [if_pos h2]
      have := value_lt_of_siz_lt (Wf_nzObj hb) (Normalized_nzObj (h a)) h2
      rw [hva, hvb] at this
      rw [cmp3_of_gt this]; rfl
    · rw [if_neg h2]
      have heq : (nzObj (h a)).siz = (nzObj (h b)).siz := by omega
      have hl := precn_cmp_loop_eq (cmpHeap h a b) a b
        (by rw [cmpHeap_left]; exact wd_lt_of_Wf (Wf_nzObj ha))
        (by rw [cmpHeap_right]; exact wd_lt_of_Wf (Wf_nzObj hb))
        (nzObj (h a)).siz
        (by rw [cmpHeap_left, (Wf_nzObj ha).1]; exact (Wf_nzObj ha).2.2.1)
        (by rw [cmpHeap_right, (Wf_nzObj hb).1, heq]; exact (Wf_nzObj hb).2.2.1)
      rw [hl]
      simp only [Option.some_bind, cmpHeap_left, cmpHeap_right]
      rw [← hva, ← hvb, value_eq_valN, value_eq_valN, ← heq]
      rfl

/-! ### Growing, clearing and copying -/

theorem wd_lt_iff (x : precn_struct) : (∀ w ∈ x.a, w < 2 ^ 32) ↔ ∀ j, wd x j < 2 ^ 32 := by
  constructor
  · intro hx j
    unfold wd
    by_cases hj : j < x.a.length
    · rw [List.getD_eq_getElem _ _ hj]
      exact hx _ (List.getElem_mem hj)
    · rw [List.getD_eq_default _ _ (Nat.le_of_not_lt hj)]
      positivity
  · intro hx w hw
    obtain ⟨j, hj, rfl⟩ := List.getElem_of_mem hw
    have := hx j
    unfold wd at this
    rwa [List.getD_eq_getElem _ _ hj] at this

theorem Wf_of {x : precn_struct} (h1 : x.a.length = x.alloc_size) (h2 : 1 ≤ x.alloc_size)
    (h3 : x.siz ≤ x.alloc_size) (h4 : ∀ j, wd x j < 2 ^ 32) : Wf x :=
  ⟨h1, h2, h3, (wd_lt_iff x).2 h4⟩

theorem u32_lt (x : Nat) : u32 x < 2 ^ 32 := Nat.mod_lt _ (by positivity)

theorem grow_eq (junk : Nat → Nat) (h : Heap) (p : Ptr) (n : Nat) :
    grow junk h p n = Function.update h p (growObj junk (h p) n) := rfl

theorem ensure_eq (junk : Nat → Nat) (h : Heap) (p : Ptr) (n : Nat) :
    (if (h p).alloc_size < n then grow junk h p n else h) =
      Function.update h p (ensureObj junk (h p) n) := by
  unfold ensureObj
  split
  · rfl
  · simp

theorem growObj_length (junk : Nat → Nat) (x : precn_struct) (n : Nat) :
    (growObj junk x n).a.length = n := by
  simp [growObj]

theorem wd_growObj (junk : Nat → Nat) (x : precn_struct) (n j : Nat) :
    wd (growObj junk x n) j =
      if j < n then (if j < x.a.length then wd x j else u32 (junk j)) else 0 := by
  unfold wd growObj
  simp only [List.getD_eq_getElem?_getD]
  by_cases hj : j < n
  · rw [if_pos hj]
    rw [List.getElem?_map, List.getElem?_range hj]
    by_cases hl : j < x.a.length
    · simp [hl]
    · simp [hl, List.getElem?_eq_none (Nat.le_of_not_lt hl)]
  · rw [if_neg hj, List.getElem?_eq_none (by simpa using Nat.le_of_not_lt hj)]
    rfl

theorem ensureObj_siz (junk : Nat → Nat) (x : precn_struct) (n : Nat) :
    (ensureObj junk x n).siz = x.siz := by
  unfold ensureObj; split <;> rfl

theorem ensureObj_alloc (junk : Nat → Nat) (x : precn_struct) (n : Nat) :
    (ensureObj junk x n).alloc_size = max x.alloc_size n := by
  unfold ensureObj
  split
  · simp only [growObj]; omega
  · omega

theorem ensureObj_length (junk : Nat → Nat) (x : precn_struct) (n : Nat)
    (hx : x.a.length = x.alloc_size) :
    (ensureObj junk x n).a.length = (ensureObj junk x n).alloc_size := by
  unfold ensureObj
  split
  · rw [growObj_length]; rfl
  · exact hx

theorem ensureObj_le (junk : Nat → Nat) (x : precn_struct) (n : Nat)
    (hx : x.a.length = x.alloc_size) : n ≤ (ensureObj junk x n).a.length := by
  rw [ensureObj_length junk x n hx, ensureObj_alloc]
  exact Nat.le_max_right _ _

theorem wd_ensureObj (junk : Nat → Nat) (x : precn_struct) (n j : Nat)
    (hj : j < x.a.length) (hx : x.a.length = x.alloc_size) :
    wd (ensureObj junk x n) j = wd x j := by
  unfold ensureObj
  split
  · rw [wd_growObj, if_pos (by omega), if_pos hj]
  · rfl

theorem wd_ensureObj_lt (junk : Nat → Nat) (x : precn_struct) (n : Nat)
    (hx : ∀ j, wd x j < 2 ^ 32) : ∀ j, wd (ensureObj junk x n) j < 2 ^ 32 := by
  intro j
  unfold ensureObj
  split
  · rw [wd_growObj]
    split
    · split
      · exact hx j
      · exact u32_lt _
    · positivity
  · exact hx j

theorem Wf_ensureObj (junk : Nat → Nat) {x : precn_struct} (n : Nat) (hx : Wf x) :
    Wf (ensureObj junk x n) := by
  apply Wf_of (ensureObj_length junk x n hx.1)
  · rw [ensureObj_alloc]; exact Nat.le_trans hx.2.1 (Nat.le_max_left _ _)
  · rw [ensureObj_alloc, ensureObj_siz]; exact Nat.le_trans hx.2.2.1 (Nat.le_max_left _ _)
  · exact wd_ensureObj_lt junk x n (wd_lt_of_Wf hx)

theorem memset0_eq (h : Heap) (p : Ptr) (n : Nat) (hn : n ≤ (h p).a.length) :
    memset0 h p n = some (Function.update h p (clearObj (h p) n)) := by
  unfold memset0 clearObj
  rw [if_pos hn]

theorem clearObj_length (x : precn_struct) (n : Nat) (hn : n ≤ x.a.length) :
    (clearObj x n).a.length = x.a.length := by
  simp [clearObj]; omega

theorem wd_clearObj (x : precn_struct) (n j : Nat) :
    wd (clearObj x n) j = if j < n then 0 else wd x j := by
  unfold wd clearObj
  simp only [List.getD_eq_getElem?_getD]
  by_cases hj : j < n
  · rw [if_pos hj, List.getElem?_append_left (by simpa using hj)]
    simp [hj]
  · rw [if_neg hj, List.getElem?_append_right (by simpa using Nat.le_of_not_lt hj)]
    simp only [List.length_replicate, List.getElem?_drop]
    congr 2
    omega

theorem set_siz_eq (h : Heap) (p : Ptr) (s : Nat) :
    set_siz h p s = Function.update h p { h p with siz := s } := rfl

theorem precn_zero_eq (h : Heap) (n : Ptr) (hn : (h n).a.length = (h n).alloc_size) :
    precn_zero h n =
      some (Function.update h n { clearObj (h n) (h n).alloc_size with siz := 0 }) := by
  unfold precn_zero
  rw [memset0_eq h n _ (by omega)]
  simp [set_siz_eq]

theorem Wf_zero {x : precn_struct} (hx : Wf x) :
    Wf { clearObj x x.alloc_size with siz := 0 } := by
  apply Wf_of
  · show (clearObj x x.alloc_size).a.length = x.alloc_size
    rw [clearObj_length _ _ (by rw [hx.1]), hx.1]
  · exact hx.2.1
  · exact Nat.zero_le _
  · intro j
    show wd (clearObj x x.alloc_size) j < 2 ^ 32
    rw [wd_clearObj]
    split
    · positivity
    · exact wd_lt_of_Wf hx j

theorem wd_zero {x : precn_struct} (hx : x.a.length = x.alloc_size) (j : Nat) :
    wd { clearObj x x.alloc_size with siz := 0 } j = 0 := by
  show wd (clearObj x x.alloc_size) j = 0
  rw [wd_clearObj]
  split
  · rfl
  · unfold wd
    exact List.getD_eq_default _ _ (by omega)

theorem precn_copy_eq (junk : Nat → Nat) (h : Heap) (dst src : Ptr) (hne : dst ≠ src)
    (hd : Wf (h dst)) (hs : Wf (h src)) :
    precn_copy junk h dst src = some (Function.update h dst (copyObj junk (h dst) (h src))) := by
  unfold precn_copy
  simp only [ensure_eq]
  have hsrc : Function.update h dst (ensureObj junk (h dst) (h src).siz) src = h src :=
    Function.update_noteq (Ne.symm hne) _ _
  have hle := ensureObj_le junk (h dst) (h src).siz hd.1
  have hls : (h src).siz ≤ (h src).a.length := by rw [hs.1]; exact hs.2.2.1
  simp only [memcpy, hsrc, Function.update_same, hle, hls, and_self, if_true,
    Option.bind_eq_bind, Option.some_bind, set_siz_eq, Function.update_idem, Option.pure_def,
    Function.update_noteq (Ne.symm hne)]
  rfl

theorem copyObj_siz (junk : Nat → Nat) (d s : precn_struct) :
    (copyObj junk d s).siz = s.siz := rfl

theorem copyObj_alloc (junk : Nat → Nat) (d s : precn_struct) :
    (copyObj junk d s).alloc_size = max d.alloc_size s.siz := ensureObj_alloc junk d s.siz

theorem copyObj_length (junk : Nat → Nat) {d s : precn_struct} (hd : Wf d) (hs : Wf s) :
    (copyObj junk d s).a.length = (copyObj junk d s).alloc_size := by
  have hle := ensureObj_le junk d s.siz hd.1
  have hl := ensureObj_length junk d s.siz hd.1
  have hls : s.siz ≤ s.a.length := by rw [hs.1]; exact hs.2.2.1
  show (s.a.take s.siz ++ (ensureObj junk d s.siz).a.drop s.siz).length =
    (ensureObj junk d s.siz).alloc_size
  rw [List.length_append, List.length_take, List.length_drop]
  omega

theorem wd_copyObj (junk : Nat → Nat) {d s : precn_struct} (hs : Wf s) (j : Nat) :
    wd (copyObj junk d s) j = if j < s.siz then wd s j else wd (ensureObj junk d s.siz) j := by
  have hls : s.siz ≤ s.a.length := by rw [hs.1]; exact hs.2.2.1
  have hlen : (s.a.take s.siz).length = s.siz := by rw [List.length_take]; omega
  show (s.a.take s.siz ++ (ensureObj junk d s.siz).a.drop s.siz).getD j 0 = _
  simp only [List.getD_eq_getElem?_getD, wd]
  by_cases hj : j < s.siz
  · rw [if_pos hj, List.getElem?_append_left (by omega), List.getElem?_take_of_lt hj]
  · rw [if_neg hj, List.getElem?_append_right (by omega), hlen, List.getElem?_drop]
    congr 2
    omega

theorem Wf_copyObj (junk : Nat → Nat) {d s : precn_struct} (hd : Wf d) (hs : Wf s) :
    Wf (copyObj junk d s) := by
  apply Wf_of (copyObj_length junk hd hs)
  · rw [copyObj_alloc]; exact Nat.le_trans hd.2.1 (Nat.le_max_left _ _)
  · rw [copyObj_alloc, copyObj_siz]; exact Nat.le_max_right _ _
  · intro j
    rw [wd_copyObj junk hs]
    split
    · exact wd_lt_of_Wf hs j
    · exact wd_ensureObj_lt junk d _ (wd_lt_of_Wf hd) j

theorem value_copyObj (junk : Nat → Nat) {d s : precn_struct} (hs : Wf s) :
    value (copyObj junk d s) = value s := by
  rw [value_eq_valN, value_eq_valN, copyObj_siz]
  apply valN_congr
  intro j hj
  rw [wd_copyObj junk hs, if_pos hj]

/-! ### Row loops -/

@[simp] theorem setWord_siz (x : precn_struct) (i v : Nat) : (setWord x i v).siz = x.siz := rfl

@[simp] theorem setWord_alloc (x : precn_struct) (i v : Nat) :
    (setWord x i v).alloc_size = x.alloc_size := rfl

@[simp] theorem setWord_length (x : precn_struct) (i v : Nat) :
    (setWord x i v).a.length = x.a.length := by
  simp [setWord]

theorem valN_wdz {x : precn_struct} {n : Nat} (hn : x.siz ≤ n) :
    valN (wdz x) n = value x := by
  rw [value_eq_valN]
  induction n with
  | zero =>
    have : x.siz = 0 := by omega
    rw [this]
    rfl
  | succ n ih =>
    by_cases hs : x.siz = n + 1
    · rw [hs]
      apply valN_congr
      intro j hj
      simp [wdz, hs, hj]
    · simp only [valN]
      rw [ih (by omega)]
      simp [wdz, show ¬ n < x.siz by omega]

theorem wdz_lt {x : precn_struct} (hx : ∀ j, wd x j < 2 ^ 32) (j : Nat) : wdz x j < 2 ^ 32 := by
  unfold wdz
  split
  · exact hx j
  · positivity

theorem load_guard_eq {h : Heap} {p : Ptr} {i : Nat} (hl : (h p).siz ≤ (h p).a.length) :
    (if i < (h p).siz then load h p i else some 0) = some (wdz (h p) i) := by
  unfold wdz
  split
  · rename_i hi
    exact load_eq (by omega)
  · rfl

theorem RowInv_refl (h0 : Heap) (res : Ptr) (k : Nat) : RowInv h0 res k h0 :=
  ⟨fun _ _ => rfl, rfl, rfl, rfl, fun _ _ => rfl⟩

theorem RowInv_siz {h0 h : Heap} {res : Ptr} {k : Nat} (hI : RowInv h0 res k h) (p : Ptr) :
    (h p).siz = (h0 p).siz := by
  by_cases hp : p = res
  · rw [hp]; exact hI.2.1
  · rw [hI.1 p hp]

theorem RowInv_length {h0 h : Heap} {res : Ptr} {k : Nat} (hI : RowInv h0 res k h) (p : Ptr) :
    (h p).a.length = (h0 p).a.length := by
  by_cases hp : p = res
  · rw [hp]; exact hI.2.2.2.1
  · rw [hI.1 p hp]

theorem RowInv_wd {h0 h : Heap} {res : Ptr} {k : Nat} (hI : RowInv h0 res k h) (p : Ptr)
    {j : Nat} (hj : k ≤ j) : wd (h p) j = wd (h0 p) j := by
  by_cases hp : p = res
  · rw [hp]; exact hI.2.2.2.2 j hj
  · rw [hI.1 p hp]

theorem RowInv_wdz {h0 h : Heap} {res : Ptr} {k : Nat} (hI : RowInv h0 res k h) (p : Ptr)
    {j : Nat} (hj : k ≤ j) : wdz (h p) j = wdz (h0 p) j := by
  unfold wdz
  rw [RowInv_siz hI p, RowInv_wd hI p hj]

theorem RowInv_store {h0 h : Heap} {res : Ptr} {k : Nat} (hI : RowInv h0 res k h) (v : Nat)
    (hk : k < (h0 res).a.length) :
    ∃ h1, store h res k v = some h1 ∧ RowInv h0 res (k + 1) h1 ∧ wd (h1 res) k = v ∧
      ∀ j, j ≠ k → wd (h1 res) j = wd (h res) j := by
  have hk1 : k < (h res).a.length := by rw [hI.2.2.2.1]; exact hk
  refine ⟨_, store_eq v hk1, ⟨?_, ?_, ?_, ?_, ?_⟩, ?_, ?_⟩
  · intro p hp
    rw [Function.update_noteq hp]; exact hI.1 p hp
  · simp [hI.2.1]
  · simp [hI.2.2.1]
  · simp [hI.2.2.2.1]
  · intro j hj
    simp only [Function.update_same]
    rw [wd_setWord _ _ _ _ hk1, if_neg (by omega)]
    exact hI.2.2.2.2 j (by omega)
  · simp only [Function.update_same]
    rw [wd_setWord _ _ _ _ hk1, if_pos rfl]
  · intro j hj
    simp only [Function.update_same]
    rw [wd_setWord _ _ _ _ hk1, if_neg hj]

theorem pow32_succ (n : Nat) : 2 ^ (32 * (n + 1)) = 2 ^ 32 * 2 ^ (32 * n) := by
  rw [← pow_add]; congr 1; ring

/-! ### Addition -/

theorem add_column (av bv c : Nat) (hav : av < 2 ^ 32) (hbv : bv < 2 ^ 32) (hc : c ≤ 1) :
    u64 (u64 (av + bv) + c) = av + bv + c ∧ (av + bv + c) >>> 32 ≤ 1 ∧
      u32 (av + bv + c) + ((av + bv + c) >>> 32) * 2 ^ 32 = av + bv + c := by
  have h64 : (2 : Nat) ^ 64 = 18446744073709551616 := by norm_num
  have h32 : (2 : Nat) ^ 32 = 4294967296 := by norm_num
  rw [h32] at hav hbv
  refine ⟨?_, ?_, ?_⟩
  · unfold u64
    rw [h64, Nat.mod_eq_of_lt (by omega), Nat.mod_eq_of_lt (by omega)]
  · rw [Nat.shiftRight_eq_div_pow, h32]; omega
  · unfold u32
    rw [Nat.shiftRight_eq_div_pow, h32]; omega

theorem precn_add_loop (res a b : Ptr) (h0 : Heap) (n : Nat)
    (hla : (h0 a).siz ≤ (h0 a).a.length) (hlb : (h0 b).siz ≤ (h0 b).a.length)
    (hwa : ∀ j, wd (h0 a) j < 2 ^ 32) (hwb : ∀ j, wd (h0 b) j < 2 ^ 32)
    (hn : n ≤ (h0 res).a.length) :
    ∃ s, forUp (precn_add_body res a b) n 0 (h0, 0) = some s ∧ RowInv h0 res n s.1 ∧
      (∀ j, j < n → wd (s.1 res) j < 2 ^ 32) ∧ s.2 ≤ 1 ∧
      valN (wd (s.1 res)) n + s.2 * 2 ^ (32 * n) = valN (wdz (h0 a)) n + valN (wdz (h0 b)) n := by
  have key := forUp_inv (precn_add_body res a b)
    (fun i s => RowInv h0 res i s.1 ∧ (∀ j, j < i → wd (s.1 res) j < 2 ^ 32) ∧ s.2 ≤ 1 ∧
      valN (wd (s.1 res)) i + s.2 * 2 ^ (32 * i) = valN (wdz (h0 a)) i + valN (wdz (h0 b)) i)
    n 0 (h0, 0) ⟨RowInv_refl _ _ _, fun j hj => by omega, Nat.zero_le _, by simp [valN]⟩ ?_
  · simpa using key
  · rintro i ⟨h, c⟩ _ hi ⟨hI, hlt, hc, hv⟩
    simp only at hI hlt hc hv
    have hi' : i < n := by omega
    have e1 : (if i < (h a).siz then load h a i else some 0) = some (wdz (h0 a) i) := by
      rw [load_guard_eq (by rw [RowInv_siz hI, RowInv_length hI]; exact hla),
        RowInv_wdz hI a (Nat.le_refl i)]
    have e2 : (if i < (h b).siz then load h b i else some 0) = some (wdz (h0 b) i) := by
      rw [load_guard_eq (by rw [RowInv_siz hI, RowInv_length hI]; exact hlb),
        RowInv_wdz hI b (Nat.le_refl i)]
    obtain ⟨hc1, hc2, hc3⟩ := add_column _ _ c (wdz_lt hwa i) (wdz_lt hwb i) hc
    obtain ⟨h1, hst, hI1, hw1, hw2⟩ :=
      RowInv_store hI (u32 (wdz (h0 a) i + wdz (h0 b) i + c)) (by omega)
    refine ⟨(h1, (wdz (h0 a) i + wdz (h0 b) i + c) >>> 32), ?_, hI1, ?_, hc2, ?_⟩
    · simp only [precn_add_body, e1, e2, Option.bind_eq_bind, Option.some_bind, hc1, hst,
        Option.pure_def]
    · intro j hj
      by_cases hji : j = i
      · rw [hji, hw1]; exact u32_lt _
      · rw [hw2 j hji]; exact hlt j (by omega)
    · simp only [valN]
      rw [valN_congr (fun j hj => hw2 j (by omega)), hw1, pow32_succ]
      have h3 := congrArg (fun t => t * 2 ^ (32 * i)) hc3
      simp only at h3
      linarith [h3, hv]

theorem ensureObj_zero (junk : Nat → Nat) (x : precn_struct) : ensureObj junk x 0 = x := by
  unfold ensureObj
  rw [if_neg (Nat.not_lt_zero _)]

theorem ensure_at (junk : Nat → Nat) (h : Heap) (res : Ptr) (n : Nat) (p : Ptr) :
    ∃ m, Function.update h res (ensureObj junk (h res) n) p = ensureObj junk (h p) m := by
  by_cases hp : p = res
  · subst hp
    exact ⟨n, by simp⟩
  · exact ⟨0, by rw [Function.update_noteq hp, ensureObj_zero]⟩

theorem wdz_ensureObj (junk : Nat → Nat) {x : precn_struct} (n : Nat) (hx : Wf x) :
    wdz (ensureObj junk x n) = wdz x := by
  funext j
  unfold wdz
  rw [ensureObj_siz]
  split
  · rename_i hj
    have := hx.2.2.1
    exact wd_ensureObj junk x n j (by rw [hx.1]; omega) hx.1
  · rfl

theorem value_ensureObj (junk : Nat → Nat) {x : precn_struct} (n : Nat) (hx : Wf x) :
    value (ensureObj junk x n) = value x := by
  rw [← valN_wdz (Nat.le_refl _), ← valN_wdz (Nat.le_refl x.siz), wdz_ensureObj junk n hx,
    ensureObj_siz]

theorem Wf_siz_le {x : precn_struct} (hx : Wf x) : x.siz ≤ x.a.length := by
  rw [hx.1]; exact hx.2.2.1

theorem RowInv_update {h0 h : Heap} {res : Ptr} {k : Nat} (hI : RowInv h0 res k h)
    (o : precn_struct) : Function.update h res o = Function.update h0 res o := by
  funext p
  by_cases hp : p = res
  · subst hp; simp
  · rw [Function.update_noteq hp, Function.update_noteq hp]; exact hI.1 p hp

/-- Closing a row loop: `res->siz = s; precn_normalize(res);`. -/
theorem row_finish {h0 h : Heap} {res : Ptr} {k : Nat} (hI : RowInv h0 res k h)
    (hwf : Wf (h0 res)) (hlt : ∀ j, j < k → wd (h res) j < 2 ^ 32) (s : Nat)
    (hs : s ≤ (h0 res).alloc_size) :
    Wf { h res with siz := s } ∧
      precn_normalize (set_siz h res s) res =
        some (Function.update h0 res (nzObj { h res with siz := s })) := by
  have hlen : (h res).a.length = (h res).alloc_size := by
    rw [hI.2.2.2.1, hI.2.2.1]; exact hwf.1
  constructor
  · apply Wf_of
    · exact hlen
    · show 1 ≤ (h res).alloc_size
      rw [hI.2.2.1]; exact hwf.2.1
    · show s ≤ (h res).alloc_size
      rw [hI.2.2.1]; exact hs
    · intro j
      show wd (h res) j < 2 ^ 32
      by_cases hj : j < k
      · exact hlt j hj
      · rw [hI.2.2.2.2 j (by omega)]; exact wd_lt_of_Wf hwf j
  · rw [precn_normalize_eq]
    · simp only [set_siz_eq, Function.update_same, Function.update_idem]
      rw [RowInv_update hI]
    · simp only [set_siz_eq, Function.update_same]
      show s ≤ (h res).a.length
      rw [hlen, hI.2.2.1]; exact hs

/-- `precn_add` for well-formed operands, whatever the aliasing between them. -/
theorem precn_add_spec (junk : Nat → Nat) (h : Heap) (res a b : Ptr)
    (hr : Wf (h res)) (ha : Wf (h a)) (hb : Wf (h b)) :
    ∃ o, precn_add junk h res a b = some (Function.update h res o) ∧ Wf o ∧ Normalized o ∧
      value o = value (h a) + value (h b) ∧
      o.alloc_size = max (h res).alloc_size (max (h a).siz (h b).siz + 1) := by
  have hmax : (if (h a).siz > (h b).siz then (h a).siz else (h b).siz) =
      max (h a).siz (h b).siz := by
    split <;> omega
  unfold precn_add
  simp only [hmax, ensure_eq]
  generalize hM : max (h a).siz (h b).siz = M
  generalize hh1 : Function.update h res (ensureObj junk (h res) (M + 1)) = h1
  have h1res : h1 res = ensureObj junk (h res) (M + 1) := by rw [← hh1]; simp
  obtain ⟨ma, h1a⟩ := ensure_at junk h res (M + 1) a
  obtain ⟨mb, h1b⟩ := ensure_at junk h res (M + 1) b
  rw [hh1] at h1a h1b
  have hwr : Wf (h1 res) := by rw [h1res]; exact Wf_ensureObj junk _ hr
  have hwa : Wf (h1 a) := by rw [h1a]; exact Wf_ensureObj junk _ ha
  have hwb : Wf (h1 b) := by rw [h1b]; exact Wf_ensureObj junk _ hb
  have hva : valN (wdz (h1 a)) M = value (h a) := by
    rw [h1a, wdz_ensureObj junk _ ha]; exact valN_wdz (by omega)
  have hvb : valN (wdz (h1 b)) M = value (h b) := by
    rw [h1b, wdz_ensureObj junk _ hb]; exact valN_wdz (by omega)
  have hal : (h1 res).alloc_size = max (h res).alloc_size (M + 1) := by
    rw [h1res, ensureObj_alloc]
  have hM1 : M + 1 ≤ (h1 res).a.length := by
    rw [h1res]; exact ensureObj_le junk _ _ hr.1
  obtain ⟨⟨h2, c⟩, hloop, hI, hlt, hc, hv⟩ := precn_add_loop res a b h1 M (Wf_siz_le hwa)
    (Wf_siz_le hwb) (wd_lt_of_Wf hwa) (wd_lt_of_Wf hwb) (by omega)
  simp only at hI hlt hc hv
  rw [hva, hvb] at hv
  have hupd : ∀ o, Function.update h1 res o = Function.update h res o := by
    intro o; rw [← hh1, Function.update_idem]
  simp only [hloop, Option.bind_eq_bind, Option.some_bind]
  by_cases hc0 : c = 0
  · subst hc0
    obtain ⟨hwf, hnorm⟩ := row_finish hI hwr hlt M (by rw [← hwr.1]; omega)
    refine ⟨nzObj { h2 res with siz := M }, ?_, Wf_nzObj hwf, Normalized_nzObj _, ?_, ?_⟩
    · simp only [ne_eq, not_true_eq_false, if_false, hnorm, hupd]
    · rw [value_nzObj, value_eq_valN]
      simpa using hv
    · show (h2 res).alloc_size = _
      rw [hI.2.2.1, hal]
  · have hc1 : c = 1 := by omega
    subst hc1
    obtain ⟨h3, hst, hI3, hw3, hw3'⟩ := RowInv_store hI (u32 1) (by omega)
    have hlt3 : ∀ j, j < M + 1 → wd (h3 res) j < 2 ^ 32 := by
      intro j hj
      by_cases hjM : j = M
      · rw [hjM, hw3]; exact u32_lt _
      · rw [hw3' j hjM]; exact hlt j (by omega)
    obtain ⟨hwf, hnorm⟩ := row_finish hI3 hwr hlt3 (M + 1) (by rw [← hwr.1]; omega)
    refine ⟨nzObj { h3 res with siz := M + 1 }, ?_, Wf_nzObj hwf, Normalized_nzObj _, ?_, ?_⟩
    · simp only [ne_eq, one_ne_zero, not_false_eq_true, if_true, hst, Option.some_bind, hnorm,
        hupd]
    · rw [value_nzObj, value_eq_valN]
      show valN (wd (h3 res)) (M + 1) = _
      simp only [valN]
      rw [valN_congr (fun j hj => hw3' j (by omega)), hw3]
      have : u32 1 = 1 := by decide
      rw [this]
      linarith [hv]
    · show (h3 res).alloc_size = _
      rw [hI3.2.2.1, hal]

/-! ### Subtraction -/

theorem sub_column (av bv : Nat) (bo : Int) (hav : av < 2 ^ 32) (hbv : bv < 2 ^ 32)
    (hbo : bo = 0 ∨ bo = 1) :
    ((((if (av : Int) - (bv : Int) - bo < 0 then (av : Int) - (bv : Int) - bo + 2 ^ 32
          else (av : Int) - (bv : Int) - bo) % 2 ^ 32).toNat : Nat) : Int) -
        (if (av : Int) - (bv : Int) - bo < 0 then 1 else 0) * 2 ^ 32 =
      (av : Int) - (bv : Int) - bo ∧
    ((if (av : Int) - (bv : Int) - bo < 0 then (av : Int) - (bv : Int) - bo + 2 ^ 32
          else (av : Int) - (bv : Int) - bo) % 2 ^ 32).toNat < 2 ^ 32 := by
  have h32 : (2 : Int) ^ 32 = 4294967296 := by norm_num
  have h32n : (2 : Nat) ^ 32 = 4294967296 := by norm_num
  rw [h32n] at hav hbv
  rw [h32, h32n]
  rcases hbo with rfl | rfl <;> split <;> omega

theorem precn_sub_loop (res big small : Ptr) (h0 : Heap) (n : Nat)
    (hla : (h0 big).siz ≤ (h0 big).a.length) (hlb : (h0 small).siz ≤ (h0 small).a.length)
    (hwa : ∀ j, wd (h0 big) j < 2 ^ 32) (hwb : ∀ j, wd (h0 small) j < 2 ^ 32)
    (hn : n ≤ (h0 res).a.length) :
    ∃ s, forUp (precn_sub_body res big small) n 0 (h0, 0) = some s ∧ RowInv h0 res n s.1 ∧
      (∀ j, j < n → wd (s.1 res) j < 2 ^ 32) ∧ (s.2 = 0 ∨ s.2 = 1) ∧
      (valN (wd (s.1 res)) n : Int) - s.2 * 2 ^ (32 * n) =
        (valN (wdz (h0 big)) n : Int) - (valN (wdz (h0 small)) n : Int) := by
  have key := forUp_inv (precn_sub_body res big small)
    (fun i s => RowInv h0 res i s.1 ∧ (∀ j, j < i → wd (s.1 res) j < 2 ^ 32) ∧
      (s.2 = 0 ∨ s.2 = 1) ∧
      (valN (wd (s.1 res)) i : Int) - s.2 * 2 ^ (32 * i) =
        (valN (wdz (h0 big)) i : Int) - (valN (wdz (h0 small)) i : Int))
    n 0 (h0, 0) ⟨RowInv_refl _ _ _, fun j hj => by omega, Or.inl rfl, by simp [valN]⟩ ?_
  · simpa using key
  · rintro i ⟨h, bo⟩ _ hi ⟨hI, hlt, hbo, hv⟩
    simp only at hI hlt hbo hv
    have hi' : i < n := by omega
    have e1 : (if i < (h big).siz then load h big i else some 0) = some (wdz (h0 big) i) := by
      rw [load_guard_eq (by rw [RowInv_siz hI, RowInv_length hI]; exact hla),
        RowInv_wdz hI big (Nat.le_refl i)]
    have e2 : (if i < (h small).siz then load h small i else some 0) =
        some (wdz (h0 small) i) := by
      rw [load_guard_eq (by rw [RowInv_siz hI, RowInv_length hI]; exact hlb),
        RowInv_wdz hI small (Nat.le_refl i)]
    obtain ⟨hc1, hc2⟩ := sub_column _ _ bo (wdz_lt hwa i) (wdz_lt hwb i) hbo
    obtain ⟨h1, hst, hI1, hw1, hw2⟩ := RowInv_store hI
      ((if (wdz (h0 big) i : Int) - (wdz (h0 small) i : Int) - bo < 0 then
          (wdz (h0 big) i : Int) - (wdz (h0 small) i : Int) - bo + 2 ^ 32
        else (wdz (h0 big) i : Int) - (wdz (h0 small) i : Int) - bo) % 2 ^ 32).toNat (by omega)
    refine ⟨(h1, if (wdz (h0 big) i : Int) - (wdz (h0 small) i : Int) - bo < 0 then 1 else 0),
      ?_, hI1, ?_, ?_, ?_⟩
    · simp only [precn_sub_body, Option.pure_def, e1, e2, Option.bind_eq_bind,
        Option.some_bind, hst]
    · intro j hj
      by_cases hji : j = i
      · rw [hji, hw1]; exact hc2
      · rw [hw2 j hji]; exact hlt j (by omega)
    · simp only
      split
      · right; rfl
      · left; rfl
    · simp only [valN]
      rw [valN_congr (fun j hj => hw2 j (by omega))]
      have hp : (2 : Int) ^ (32 * (i + 1)) = 2 ^ 32 * 2 ^ (32 * i) := by
        rw [← pow_add]; congr 1; ring
      rw [← hw1] at hc1
      have h3 := congrArg (fun t => t * (2 : Int) ^ (32 * i)) hc1
      simp only at h3
      rw [hp]
      split_ifs at h3 ⊢ <;> push_cast <;> linarith [h3, hv]

theorem Wf_cmpHeap {h : Heap} (a b : Ptr) {p : Ptr} (hp : Wf (h p)) : Wf (cmpHeap h a b p) := by
  unfold cmpHeap
  split
  · exact Wf_nzObj hp
  · exact hp

theorem value_cmpHeap (h : Heap) (a b p : Ptr) : value (cmpHeap h a b p) = value (h p) := by
  unfold cmpHeap
  split
  · exact value_nzObj _
  · rfl

theorem alloc_cmpHeap (h : Heap) (a b p : Ptr) :
    (cmpHeap h a b p).alloc_size = (h p).alloc_size := by
  unfold cmpHeap
  split <;> rfl

theorem siz_le_of_value_le {x y : precn_struct} (hx : Wf x) (hy : Normalized y)
    (hle : value y ≤ value x) : y.siz ≤ x.siz := by
  by_contra hlt
  have := value_lt_of_siz_lt hx hy (by omega)
  omega

theorem cmp3_nonneg_iff (x y : Nat) : 0 ≤ cmp3 x y ↔ y ≤ x := by
  unfold cmp3
  by_cases h1 : x < y
  · rw [if_pos h1]; constructor
    · intro h; norm_num at h
    · intro h; omega
  · rw [if_neg h1]
    constructor
    · intro _; omega
    · intro _; split <;> norm_num

/-- `precn_sub` for well-formed operands, whatever the aliasing between them. -/
theorem precn_sub_spec (junk : Nat → Nat) (h : Heap) (res a b : Ptr)
    (hr : Wf (h res)) (ha : Wf (h a)) (hb : Wf (h b)) :
    ∃ o, precn_sub junk h res a b = some (Function.update (cmpHeap h a b) res o) ∧ Wf o ∧
      Normalized o ∧ (value o : Int) = |(value (h a) : Int) - (value (h b) : Int)| ∧
      o.alloc_size = max (h res).alloc_size (max (nzObj (h a)).siz (nzObj (h b)).siz) := by
  unfold precn_sub
  simp only [precn_cmp_eq h a b ha hb, Option.bind_eq_bind, Option.some_bind, ensure_eq, ge_iff_le,
    cmp3_nonneg_iff]
  generalize hbig : (if value (h b) ≤ value (h a) then a else b) = big
  generalize hsmall : (if value (h b) ≤ value (h a) then b else a) = small
  have hbs : (value (h small) ≤ value (h big)) ∧
      |(value (h a) : Int) - (value (h b) : Int)| = (value (h big) : Int) - value (h small) ∧
      max (nzObj (h a)).siz (nzObj (h b)).siz = (cmpHeap h a b big).siz ∧
      (cmpHeap h a b small).siz ≤ (cmpHeap h a b big).siz := by
    have hsa : (cmpHeap h a b a).siz = (nzObj (h a)).siz := by rw [cmpHeap_left]
    have hsb : (cmpHeap h a b b).siz = (nzObj (h b)).siz := by rw [cmpHeap_right]
    by_cases hle : value (h b) ≤ value (h a)
    · rw [if_pos hle] at hbig hsmall
      subst hbig hsmall
      have := siz_le_of_value_le (Wf_nzObj ha) (Normalized_nzObj (h b))
        (by rw [value_nzObj, value_nzObj]; exact hle)
      refine ⟨hle, ?_, ?_, ?_⟩
      · rw [abs_of_nonneg]; omega
      · rw [hsa]; omega
      · rw [hsa, hsb]; exact this
    · rw [if_neg hle] at hbig hsmall
      subst hbig hsmall
      have := siz_le_of_value_le (Wf_nzObj hb) (Normalized_nzObj (h a))
        (by rw [value_nzObj, value_nzObj]; omega)
      refine ⟨by omega, ?_, ?_, ?_⟩
      · rw [abs_of_nonpos (by omega)]; omega
      · rw [hsb]; omega
      · rw [hsa, hsb]; exact this
  obtain ⟨hle, habs, hmaxeq, hsizle⟩ := hbs
  have hbigwf : Wf (h big) := by
    rw [← hbig]; split
    · exact ha
    · exact hb
  have hsmallwf : Wf (h small) := by
    rw [← hsmall]; split
    · exact hb
    · exact ha
  generalize hhc : cmpHeap h a b = hc at *
  have hcwf : ∀ p, Wf (h p) → Wf (hc p) := fun p hp => by rw [← hhc]; exact Wf_cmpHeap a b hp
  have hcval : ∀ p, value (hc p) = value (h p) := fun p => by rw [← hhc]; exact value_cmpHeap h a b p
  generalize hM : (hc big).siz = M at *
  generalize hh1 : Function.update hc res (ensureObj junk (hc res) M) = h1
  have h1res : h1 res = ensureObj junk (hc res) M := by rw [← hh1]; simp
  obtain ⟨ma, h1a⟩ := ensure_at junk hc res M big
  obtain ⟨mb, h1b⟩ := ensure_at junk hc res M small
  rw [hh1] at h1a h1b
  have hwr : Wf (h1 res) := by rw [h1res]; exact Wf_ensureObj junk _ (hcwf _ hr)
  have hwa : Wf (h1 big) := by rw [h1a]; exact Wf_ensureObj junk _ (hcwf _ hbigwf)
  have hwb : Wf (h1 small) := by rw [h1b]; exact Wf_ensureObj junk _ (hcwf _ hsmallwf)
  have hva : valN (wdz (h1 big)) M = value (h big) := by
    rw [h1a, wdz_ensureObj junk _ (hcwf _ hbigwf), ← hcval]; exact valN_wdz (by omega)
  have hvb : valN (wdz (h1 small)) M = value (h small) := by
    rw [h1b, wdz_ensureObj junk _ (hcwf _ hsmallwf), ← hcval]; exact valN_wdz (by omega)
  have hal : (h1 res).alloc_size = max (h res).alloc_size M := by
    rw [h1res, ensureObj_alloc, ← hhc, alloc_cmpHeap]
  have hM1 : M ≤ (h1 res).a.length := by
    rw [h1res]; exact ensureObj_le junk _ _ (hcwf _ hr).1
  obtain ⟨⟨h2, bo⟩, hloop, hI, hlt, hbo, hv⟩ := precn_sub_loop res big small h1 M (Wf_siz_le hwa)
    (Wf_siz_le hwb) (wd_lt_of_Wf hwa) (wd_lt_of_Wf hwb) hM1
  simp only at hI hlt hbo hv
  rw [hva, hvb] at hv
  have hupd : ∀ o, Function.update h1 res o = Function.update hc res o := by
    intro o; rw [← hh1, Function.update_idem]
  simp only [hloop, Option.some_bind]
  obtain ⟨hwf, hnorm⟩ := row_finish hI hwr hlt M (by rw [← hwr.1]; exact hM1)
  have hres_lt : valN (wd (h2 res)) M < 2 ^ (32 * M) :=
    valN_lt (wd_lt_of_Wf (x := { h2 res with siz := M }) hwf) M
  have hbo0 : bo = 0 := by
    rcases hbo with h0 | h1
    · exact h0
    · exfalso
      rw [h1] at hv
      have : ((valN (wd (h2 res)) M : Nat) : Int) < 2 ^ (32 * M) := by exact_mod_cast hres_lt
      have h5 : (value (h small) : Int) ≤ value (h big) := by exact_mod_cast hle
      linarith
  rw [hbo0] at hv
  refine ⟨nzObj { h2 res with siz := M }, ?_, Wf_nzObj hwf, Normalized_nzObj _, ?_, ?_⟩
  · rw [hnorm, hupd]
  · rw [value_nzObj, value_eq_valN, habs]
    show ((valN (wd (h2 res)) M : Nat) : Int) = _
    linarith
  · show (h2 res).alloc_size = _
    rw [hI.2.2.1, hal, hmaxeq]

/-! ### Multiplication -/

theorem Frame_refl (h0 : Heap) (res : Ptr) : Frame h0 res h0 :=
  ⟨fun _ _ => rfl, rfl, rfl, rfl⟩

theorem Frame_store {h0 h : Heap} {res : Ptr} (hF : Frame h0 res h) (k v : Nat)
    (hk : k < (h0 res).a.length) :
    ∃ h1, store h res k v = some h1 ∧ Frame h0 res h1 ∧
      ∀ j, wd (h1 res) j = if j = k then v else wd (h res) j := by
  have hk1 : k < (h res).a.length := by rw [hF.2.2.2]; exact hk
  refine ⟨_, store_eq v hk1, ⟨?_, ?_, ?_, ?_⟩, ?_⟩
  · intro p hp
    rw [Function.update_noteq hp]; exact hF.1 p hp
  · simp [hF.2.1]
  · simp [hF.2.2.1]
  · simp [hF.2.2.2]
  · intro j
    simp only [Function.update_same]
    exact wd_setWord _ _ _ _ hk1

theorem Frame_update {h0 h : Heap} {res : Ptr} (hF : Frame h0 res h) (o : precn_struct) :
    Function.update h res o = Function.update h0 res o := by
  funext p
  by_cases hp : p = res
  · subst hp; simp
  · rw [Function.update_noteq hp, Function.update_noteq hp]; exact hF.1 p hp

theorem valN_update {f g : Nat → Nat} {k : Nat} (hfg : ∀ j, j ≠ k → g j = f j) :
    ∀ n, k < n → valN g n + f k * 2 ^ (32 * k) = valN f n + g k * 2 ^ (32 * k) := by
  intro n
  induction n with
  | zero => intro hk; omega
  | succ n ih =>
    intro hk
    simp only [valN]
    by_cases hkn : k = n
    · subst hkn
      rw [valN_congr (fun j hj => hfg j (by omega))]
      omega
    · rw [hfg n (fun h => hkn h.symm)]
      have := ih (by omega)
      omega

theorem pow32_add (i j : Nat) : 2 ^ (32 * (i + j)) = 2 ^ (32 * i) * 2 ^ (32 * j) := by
  rw [← pow_add]; congr 1; ring

theorem mul_column (x y z c : Nat) (hx : x < 2 ^ 32) (hy : y < 2 ^ 32) (hz : z < 2 ^ 32)
    (hc : c < 2 ^ 32) :
    u64 (u64 (u64 (x * y) + z) + c) = x * y + z + c ∧ (x * y + z + c) >>> 32 < 2 ^ 32 ∧
      u32 (x * y + z + c) + ((x * y + z + c) >>> 32) * 2 ^ 32 = x * y + z + c := by
  have h64 : (2 : Nat) ^ 64 = 18446744073709551616 := by norm_num
  have h32 : (2 : Nat) ^ 32 = 4294967296 := by norm_num
  rw [h32] at hx hy hz hc
  have hxy : x * y ≤ 4294967295 * 4294967295 := Nat.mul_le_mul (by omega) (by omega)
  refine ⟨?_, ?_, ?_⟩
  · unfold u64
    rw [h64, Nat.mod_eq_of_lt (by omega), Nat.mod_eq_of_lt (by omega),
      Nat.mod_eq_of_lt (by omega)]
  · rw [Nat.shiftRight_eq_div_pow, h32]; omega
  · unfold u32
    rw [Nat.shiftRight_eq_div_pow, h32]; omega

theorem precn_mul_inner_loop (res a b : Ptr) (h0 hs : Heap) (i m sz : Nat) (P : Nat)
    (hra : a ≠ res) (hrb : b ≠ res)
    (hF : Frame h0 res hs)
    (hia : i < (h0 a).a.length) (hmb : m ≤ (h0 b).a.length)
    (hwa : ∀ j, wd (h0 a) j < 2 ^ 32) (hwb : ∀ j, wd (h0 b) j < 2 ^ 32)
    (hsz : i + m < sz) (hlen : sz ≤ (h0 res).a.length)
    (hws : ∀ j, wd (hs res) j < 2 ^ 32)
    (hzero : ∀ k, i + m ≤ k → k < sz → wd (hs res) k = 0)
    (hval : valN (wd (hs res)) (i + m) = P) :
    ∃ s, forUp (precn_mul_inner res a b i) m 0 (hs, 0) = some s ∧ Frame h0 res s.1 ∧
      (∀ j, wd (s.1 res) j < 2 ^ 32) ∧ s.2 < 2 ^ 32 ∧
      (∀ k, i + m ≤ k → k < sz → wd (s.1 res) k = 0) ∧
      valN (wd (s.1 res)) (i + m) + s.2 * 2 ^ (32 * (i + m)) =
        P + wd (h0 a) i * 2 ^ (32 * i) * valN (wd (h0 b)) m := by
  have key := forUp_inv (precn_mul_inner res a b i)
    (fun j s => Frame h0 res s.1 ∧ (∀ k, wd (s.1 res) k < 2 ^ 32) ∧ s.2 < 2 ^ 32 ∧
      (∀ k, i + m ≤ k → k < sz → wd (s.1 res) k = 0) ∧
      valN (wd (s.1 res)) (i + m) + s.2 * 2 ^ (32 * (i + j)) =
        P + wd (h0 a) i * 2 ^ (32 * i) * valN (wd (h0 b)) j)
    m 0 (hs, 0) ⟨hF, hws, by positivity, hzero, by simp [valN, hval]⟩ ?_
  · simpa using key
  · rintro j ⟨h, c⟩ _ hj ⟨hFh, hw, hc, hz, hv⟩
    simp only at hFh hw hc hz hv
    have hj' : j < m := by omega
    have e1 : load h a i = some (wd (h0 a) i) := by
      rw [load_eq (by rw [hFh.1 a hra]; exact hia), hFh.1 a hra]
    have e2 : load h b j = some (wd (h0 b) j) := by
      rw [load_eq (by rw [hFh.1 b hrb]; omega), hFh.1 b hrb]
    have e3 : load h res (i + j) = some (wd (h res) (i + j)) :=
      load_eq (by rw [hFh.2.2.2]; omega)
    obtain ⟨hc1, hc2, hc3⟩ := mul_column _ _ _ c (hwa i) (hwb j) (hw (i + j)) hc
    obtain ⟨h1, hst, hF1, hw1⟩ := Frame_store hFh (i + j)
      (u32 (wd (h0 a) i * wd (h0 b) j + wd (h res) (i + j) + c)) (by omega)
    refine ⟨(h1, (wd (h0 a) i * wd (h0 b) j + wd (h res) (i + j) + c) >>> 32), ?_, hF1, ?_,
      hc2, ?_, ?_⟩
    · simp only [precn_mul_inner, e1, e2, e3, Option.bind_eq_bind, Option.some_bind, hc1, hst,
        Option.pure_def]
    · intro k
      rw [hw1 k]
      split
      · exact u32_lt _
      · exact hw k
    · intro k hk1 hk2
      rw [hw1 k, if_neg (by omega)]
      exact hz k hk1 hk2
    · have hupd := valN_update (f := wd (h res)) (g := wd (h1 res)) (k := i + j)
        (fun k hk => by rw [hw1 k, if_neg hk]) (i + m) (by omega)
      rw [hw1 (i + j), if_pos rfl] at hupd
      simp only [valN]
      have hp1 : 2 ^ (32 * (i + (j + 1))) = 2 ^ 32 * 2 ^ (32 * (i + j)) := by
        rw [← pow_add]; congr 1; ring
      have hp2 := pow32_add i j
      have h3 := congrArg (fun t => t * 2 ^ (32 * (i + j))) hc3
      simp only at h3
      rw [hp1]
      rw [hp2] at hupd h3 hv ⊢
      generalize u32 (wd (h0 a) i * wd (h0 b) j + wd (h res) (i + j) + c) = W at *
      generalize (wd (h0 a) i * wd (h0 b) j + wd (h res) (i + j) + c) >>> 32 = C at *
      linarith [h3, hv, hupd]

/-- Closing a loop that stored words of `res`: `res->siz = s; precn_normalize(res);`. -/
theorem frame_finish {h0 h : Heap} {res : Ptr} (hF : Frame h0 res h)
    (hlen : (h0 res).a.length = (h0 res).alloc_size) (hpos : 1 ≤ (h0 res).alloc_size)
    (hw : ∀ j, wd (h res) j < 2 ^ 32) (s : Nat) (hs : s ≤ (h0 res).alloc_size) :
    Wf { h res with siz := s } ∧
      precn_normalize (set_siz h res s) res =
        some (Function.update h0 res (nzObj { h res with siz := s })) := by
  have hlen1 : (h res).a.length = (h res).alloc_size := by
    rw [hF.2.2.2, hF.2.2.1]; exact hlen
  constructor
  · apply Wf_of
    · exact hlen1
    · show 1 ≤ (h res).alloc_size
      rw [hF.2.2.1]; exact hpos
    · show s ≤ (h res).alloc_size
      rw [hF.2.2.1]; exact hs
    · exact hw
  · rw [precn_normalize_eq]
    · simp only [set_siz_eq, Function.update_same, Function.update_idem]
      rw [Frame_update hF]
    · simp only [set_siz_eq, Function.update_same]
      show s ≤ (h res).a.length
      rw [hlen1, hF.2.2.1]; exact hs

theorem valN_zero {f : Nat → Nat} {n : Nat} (hf : ∀ j, j < n → f j = 0) : valN f n = 0 := by
  induction n with
  | zero => rfl
  | succ n ih =>
    simp only [valN]
    rw [ih (fun j hj => hf j (by omega)), hf n (by omega)]
    simp

theorem u32_of_lt {x : Nat} (hx : x < 2 ^ 32) : u32 x = x := Nat.mod_eq_of_lt hx

theorem precn_mul_outer_loop (res a b : Ptr) (h0 : Heap) (n m : Nat)
    (hra : a ≠ res) (hrb : b ≠ res)
    (hna : n ≤ (h0 a).a.length) (hmb : m ≤ (h0 b).a.length)
    (hwa : ∀ j, wd (h0 a) j < 2 ^ 32) (hwb : ∀ j, wd (h0 b) j < 2 ^ 32)
    (hlen : n + m ≤ (h0 res).a.length)
    (hws : ∀ j, wd (h0 res) j < 2 ^ 32)
    (hzero : ∀ k, k < n + m → wd (h0 res) k = 0) :
    ∃ h1, forUp (precn_mul_outer res a b m) n 0 h0 = some h1 ∧ Frame h0 res h1 ∧
      (∀ j, wd (h1 res) j < 2 ^ 32) ∧
      valN (wd (h1 res)) (n + m) = valN (wd (h0 a)) n * valN (wd (h0 b)) m := by
  have hv0 : valN (wd (h0 res)) m = 0 := valN_zero (fun j hj => hzero j (by omega))
  have key := forUp_inv (precn_mul_outer res a b m)
    (fun i h => Frame h0 res h ∧ (∀ k, wd (h res) k < 2 ^ 32) ∧
      (∀ k, i + m ≤ k → k < n + m → wd (h res) k = 0) ∧
      valN (wd (h res)) (i + m) = valN (wd (h0 a)) i * valN (wd (h0 b)) m)
    n 0 h0 ⟨Frame_refl _ _, hws, fun k _ hk => hzero k hk, by simp [valN, hv0]⟩ ?_
  · obtain ⟨h1, hl, hF, hw, _, hv⟩ := key
    rw [Nat.zero_add] at hv
    exact ⟨h1, hl, hF, hw, hv⟩
  · rintro i h _ hi ⟨hF, hw, hz, hv⟩
    have hi' : i < n := by omega
    obtain ⟨⟨h1, c⟩, hl, hF1, hw1, hc, hz1, hv1⟩ := precn_mul_inner_loop res a b h0 h i m (n + m)
      _ hra hrb hF (by omega) hmb hwa hwb (by omega) hlen hw hz hv
    simp only at hF1 hw1 hc hz1 hv1
    obtain ⟨h2, hst, hF2, hw2⟩ := Frame_store hF1 (i + m) (u32 c) (by omega)
    rw [u32_of_lt hc] at hw2
    refine ⟨h2, ?_, hF2, ?_, ?_, ?_⟩
    · simp only [precn_mul_outer, hl, Option.bind_eq_bind, Option.some_bind, hst]
    · intro k
      rw [hw2 k]
      split
      · exact hc
      · exact hw1 k
    · intro k hk1 hk2
      rw [hw2 k, if_neg (by omega)]
      exact hz1 k (by omega) hk2
    · have e : i + 1 + m = (i + m) + 1 := by omega
      rw [e]
      simp only [valN]
      rw [valN_congr (g := wd (h1 res)) (fun j hj => by rw [hw2 j, if_neg (by omega)]),
        hw2 (i + m), if_pos rfl, hv1]
      ring

/-- `precn_mul` for well-formed operands and a result object distinct from both. -/
theorem precn_mul_spec (junk : Nat → Nat) (h : Heap) (res a b : Ptr)
    (hra : res ≠ a) (hrb : res ≠ b)
    (hr : Wf (h res)) (ha : Wf (h a)) (hb : Wf (h b)) :
    ∃ o, precn_mul junk h res a b = some (Function.update h res o) ∧ Wf o ∧ Normalized o ∧
      value o = value (h a) * value (h b) ∧
      o.alloc_size = max (h res).alloc_size ((h a).siz + (h b).siz) := by
  unfold precn_mul
  simp only [ensure_eq]
  generalize hsz : (h a).siz + (h b).siz = sz
  have hwe := Wf_ensureObj junk sz hr
  have hle := ensureObj_le junk (h res) sz hr.1
  rw [memset0_eq _ _ _ (by simpa using hle)]
  simp only [Function.update_same, Function.update_idem, Option.bind_eq_bind, Option.some_bind]
  generalize hh2 : Function.update h res (clearObj (ensureObj junk (h res) sz) sz) = h2
  have h2res : h2 res = clearObj (ensureObj junk (h res) sz) sz := by rw [← hh2]; simp
  have h2a : h2 a = h a := by rw [← hh2]; exact Function.update_noteq (Ne.symm hra) _ _
  have h2b : h2 b = h b := by rw [← hh2]; exact Function.update_noteq (Ne.symm hrb) _ _
  have h2len : (h2 res).a.length = (ensureObj junk (h res) sz).a.length := by
    rw [h2res]; exact clearObj_length _ _ hle
  have h2alloc : (h2 res).alloc_size = max (h res).alloc_size sz := by
    rw [h2res]; exact ensureObj_alloc junk _ _
  have h2w : ∀ j, wd (h2 res) j < 2 ^ 32 := by
    intro j
    rw [h2res, wd_clearObj]
    split
    · positivity
    · exact wd_lt_of_Wf hwe j
  obtain ⟨h3, hl, hF, hw, hv⟩ := precn_mul_outer_loop res a b h2 (h a).siz (h b).siz
    (Ne.symm hra) (Ne.symm hrb) (by rw [h2a]; exact Wf_siz_le ha) (by rw [h2b]; exact Wf_siz_le hb)
    (by rw [h2a]; exact wd_lt_of_Wf ha) (by rw [h2b]; exact wd_lt_of_Wf hb)
    (by rw [h2len, hsz]; exact hle) h2w
    (by intro k hk; rw [h2res, wd_clearObj, if_pos (by omega)])
  rw [hsz, h2a, h2b] at hv
  obtain ⟨hwf, hnorm⟩ := frame_finish hF (by rw [h2len, h2alloc, hwe.1, ensureObj_alloc])
    (by rw [h2alloc]; exact Nat.le_trans hr.2.1 (Nat.le_max_left _ _)) hw sz
    (by rw [h2alloc]; exact Nat.le_max_right _ _)
  have hupd : ∀ o, Function.update h2 res o = Function.update h res o := by
    intro o; rw [← hh2, Function.update_idem]
  refine ⟨nzObj { h3 res with siz := sz }, ?_, Wf_nzObj hwf, Normalized_nzObj _, ?_, ?_⟩
  · rw [hl]
    simp only [Option.some_bind, hnorm, hupd]
  · rw [value_nzObj, value_eq_valN, value_eq_valN, value_eq_valN]
    exact hv
  · show (h3 res).alloc_size = _
    rw [hF.2.2.1, h2alloc]

/-! ### Left shift -/

theorem clear_ensure (junk : Nat → Nat) {x : precn_struct} (sz : Nat) (hx : Wf x) :
    Wf (clearObj (ensureObj junk x sz) sz) ∧
    (clearObj (ensureObj junk x sz) sz).alloc_size = max x.alloc_size sz ∧
    sz ≤ (clearObj (ensureObj junk x sz) sz).a.length ∧
    (∀ k, k < sz → wd (clearObj (ensureObj junk x sz) sz) k = 0) := by
  have hle := ensureObj_le junk x sz hx.1
  have hwe := Wf_ensureObj junk sz hx
  have hlen : (clearObj (ensureObj junk x sz) sz).a.length = (ensureObj junk x sz).a.length :=
    clearObj_length _ _ hle
  refine ⟨?_, ensureObj_alloc junk _ _, by rw [hlen]; exact hle, ?_⟩
  · apply Wf_of
    · rw [hlen]; exact hwe.1
    · exact hwe.2.1
    · exact hwe.2.2.1
    · intro j
      rw [wd_clearObj]
      split
      · positivity
      · exact wd_lt_of_Wf hwe j
  · intro k hk
    rw [wd_clearObj, if_pos hk]

theorem shl_column (w c bs : Nat) (hw : w < 2 ^ 32) (hbs : bs < 32) (hc : c < 2 ^ bs) :
    u32 (u64 (w <<< bs) ||| c) + u32 ((u64 (w <<< bs) ||| c) >>> 32) * 2 ^ 32 = w * 2 ^ bs + c ∧
      u32 ((u64 (w <<< bs) ||| c) >>> 32) < 2 ^ bs := by
  have hpb : 2 ^ bs * 2 ^ (32 - bs) = 2 ^ 32 := by
    rw [← pow_add]; congr 1; omega
  have hbpos : 0 < 2 ^ bs := by positivity
  have h1 : w * 2 ^ bs < 2 ^ 32 * 2 ^ bs := Nat.mul_lt_mul_of_pos_right hw hbpos
  have h3232 : (2 : Nat) ^ 32 * 2 ^ 32 = 2 ^ 64 := by norm_num
  have hbs32 : 2 ^ bs ≤ 2 ^ 32 := Nat.pow_le_pow_right (by decide) (by omega)
  have h2 : w * 2 ^ bs < 2 ^ 64 := by
    have : 2 ^ 32 * 2 ^ bs ≤ 2 ^ 32 * 2 ^ 32 := Nat.mul_le_mul_left _ hbs32
    omega
  have e1 : u64 (w <<< bs) ||| c = w * 2 ^ bs + c := by
    unfold u64
    rw [Nat.shiftLeft_eq, Nat.mod_eq_of_lt h2, Nat.mul_comm w, Nat.mul_add_lt_is_or hc]
  rw [e1, Nat.shiftRight_eq_div_pow]
  have h4 : w * 2 ^ bs + c < 2 ^ 32 * 2 ^ bs := by
    have : (w + 1) * 2 ^ bs ≤ 2 ^ 32 * 2 ^ bs := Nat.mul_le_mul_right _ hw
    have e : (w + 1) * 2 ^ bs = w * 2 ^ bs + 2 ^ bs := by ring
    omega
  have h5 : (w * 2 ^ bs + c) / 2 ^ 32 < 2 ^ bs := by
    rw [Nat.div_lt_iff_lt_mul (by positivity), Nat.mul_comm (2 ^ bs) (2 ^ 32)]
    exact h4
  have h6 : u32 ((w * 2 ^ bs + c) / 2 ^ 32) = (w * 2 ^ bs + c) / 2 ^ 32 :=
    u32_of_lt (by omega)
  rw [h6]
  refine ⟨?_, h5⟩
  unfold u32
  have := Nat.mod_add_div (w * 2 ^ bs + c) (2 ^ 32)
  rw [Nat.mul_comm (2 ^ 32)] at this
  exact this

theorem precn_shl_words_loop (res a : Ptr) (h0 : Heap) (ws n : Nat) (hra : a ≠ res)
    (hna : n ≤ (h0 a).a.length) (hwa : ∀ j, wd (h0 a) j < 2 ^ 32)
    (hlen : n + ws ≤ (h0 res).a.length) (hzero : ∀ k, k < ws → wd (h0 res) k = 0) :
    ∃ h1, forUp (precn_shl_word res a ws) n 0 h0 = some h1 ∧ RowInv h0 res (n + ws) h1 ∧
      (∀ j, j < n + ws → wd (h1 res) j < 2 ^ 32) ∧
      valN (wd (h1 res)) (n + ws) = valN (wd (h0 a)) n * 2 ^ (32 * ws) := by
  have hv0 : valN (wd (h0 res)) ws = 0 := valN_zero hzero
  have key := forUp_inv (precn_shl_word res a ws)
    (fun i h => RowInv h0 res (i + ws) h ∧ (∀ j, j < i + ws → wd (h res) j < 2 ^ 32) ∧
      valN (wd (h res)) (i + ws) = valN (wd (h0 a)) i * 2 ^ (32 * ws))
    n 0 h0 ⟨RowInv_refl _ _ _, fun j hj => by rw [hzero j (by omega)]; positivity,
      by simp [valN, hv0]⟩ ?_
  · simpa using key
  · rintro i h _ hi ⟨hI, hlt, hv⟩
    have hi' : i < n := by omega
    have e1 : load h a i = some (wd (h0 a) i) := by
      rw [load_eq (by rw [hI.1 a hra]; omega), hI.1 a hra]
    obtain ⟨h1, hst, hI1, hw1, hw2⟩ := RowInv_store hI (wd (h0 a) i) (by omega)
    have e : i + 1 + ws = (i + ws) + 1 := by omega
    refine ⟨h1, ?_, ?_, ?_, ?_⟩
    · simp only [precn_shl_word, e1, Option.bind_eq_bind, Option.some_bind, hst]
    · rw [e]; exact hI1
    · intro j hj
      by_cases hji : j = i + ws
      · rw [hji, hw1]; exact hwa i
      · rw [hw2 j hji]; exact hlt j (by omega)
    · rw [e]
      simp only [valN]
      rw [valN_congr (fun j hj => hw2 j (by omega)), hw1, hv, pow32_add]
      ring

theorem precn_shl_bits_loop (res a : Ptr) (h0 : Heap) (ws bs n : Nat) (hra : a ≠ res)
    (hbs : bs < 32)
    (hna : n ≤ (h0 a).a.length) (hwa : ∀ j, wd (h0 a) j < 2 ^ 32)
    (hlen : n + ws ≤ (h0 res).a.length) (hzero : ∀ k, k < ws → wd (h0 res) k = 0) :
    ∃ s, forUp (precn_shl_body res a ws bs) n 0 (h0, 0) = some s ∧
      RowInv h0 res (n + ws) s.1 ∧
      (∀ j, j < n + ws → wd (s.1 res) j < 2 ^ 32) ∧ s.2 < 2 ^ bs ∧
      valN (wd (s.1 res)) (n + ws) + s.2 * 2 ^ (32 * (n + ws)) =
        valN (wd (h0 a)) n * 2 ^ bs * 2 ^ (32 * ws) := by
  have hv0 : valN (wd (h0 res)) ws = 0 := valN_zero hzero
  have key := forUp_inv (precn_shl_body res a ws bs)
    (fun i s => RowInv h0 res (i + ws) s.1 ∧ (∀ j, j < i + ws → wd (s.1 res) j < 2 ^ 32) ∧
      s.2 < 2 ^ bs ∧
      valN (wd (s.1 res)) (i + ws) + s.2 * 2 ^ (32 * (i + ws)) =
        valN (wd (h0 a)) i * 2 ^ bs * 2 ^ (32 * ws))
    n 0 (h0, 0) ⟨RowInv_refl _ _ _, fun j hj => by rw [hzero j (by omega)]; positivity,
      by positivity, by simp [valN, hv0]⟩ ?_
  · simpa using key
  · rintro i ⟨h, c⟩ _ hi ⟨hI, hlt, hc, hv⟩
    simp only at hI hlt hc hv
    have hi' : i < n := by omega
    have e1 : load h a i = some (wd (h0 a) i) := by
      rw [load_eq (by rw [hI.1 a hra]; omega), hI.1 a hra]
    obtain ⟨hc1, hc2⟩ := shl_column (wd (h0 a) i) c bs (hwa i) hbs hc
    obtain ⟨h1, hst, hI1, hw1, hw2⟩ :=
      RowInv_store hI (u32 (u64 (wd (h0 a) i <<< bs) ||| c)) (by omega)
    have e : i + 1 + ws = (i + ws) + 1 := by omega
    refine ⟨(h1, u32 ((u64 (wd (h0 a) i <<< bs) ||| c) >>> 32)), ?_, ?_, ?_, hc2, ?_⟩
    · simp only [precn_shl_body, e1, Option.bind_eq_bind, Option.some_bind, hst,
        Option.pure_def]
    · rw [e]; exact hI1
    · intro j hj
      by_cases hji : j = i + ws
      · rw [hji, hw1]; exact u32_lt _
      · rw [hw2 j hji]; exact hlt j (by omega)
    · simp only
      rw [e]
      simp only [valN]
      rw [valN_congr (fun j hj => hw2 j (by omega)), hw1, pow32_succ]
      have hp := pow32_add i ws
      have h3 := congrArg (fun t => t * 2 ^ (32 * (i + ws))) hc1
      simp only at h3
      rw [hp] at h3 hv ⊢
      generalize u32 (u64 (wd (h0 a) i <<< bs) ||| c) = W at *
      generalize u32 ((u64 (wd (h0 a) i <<< bs) ||| c) >>> 32) = C at *
      linarith [h3, hv]

theorem pow_bits (n : Nat) : 2 ^ n = 2 ^ (n % 32) * 2 ^ (32 * (n / 32)) := by
  rw [← pow_add]
  congr 1
  omega

theorem Normalized_copyObj (junk : Nat → Nat) {d s : precn_struct} (hs : Wf s)
    (hn : Normalized s) : Normalized (copyObj junk d s) := by
  unfold Normalized at hn ⊢
  rw [copyObj_siz]
  by_cases hz : s.siz = 0
  · exact Or.inl hz
  · right
    have h0 : s.a.getD (s.siz - 1) 0 ≠ 0 := by
      rcases hn with h | h
      · exact absurd h hz
      · exact h
    have := wd_copyObj junk (d := d) hs (s.siz - 1)
    rw [if_pos (by omega)] at this
    unfold wd at this
    rw [this]
    exact h0

/-- `precn_shl` for a well-formed operand and a result object distinct from it. -/
theorem precn_shl_spec (junk : Nat → Nat) (h : Heap) (res a : Ptr) (n : Nat)
    (hra : res ≠ a) (hr : Wf (h res)) (ha : Wf (h a)) :
    ∃ o, precn_shl junk h res a n = some (Function.update h res o) ∧ Wf o ∧
      (n ≠ 0 ∨ Normalized (h a) → Normalized o) ∧ value o = value (h a) * 2 ^ n ∧
      (n = 0 → o = copyObj junk (h res) (h a)) ∧
      o.alloc_size = max (h res).alloc_size
        (if n = 0 then (h a).siz else (h a).siz + n / 32 + (if n % 32 > 0 then 1 else 0)) := by
  unfold precn_shl
  by_cases hn : n = 0
  · subst hn
    rw [if_pos rfl, precn_copy_eq junk h res a hra hr ha]
    refine ⟨_, rfl, Wf_copyObj junk hr ha, ?_, by rw [value_copyObj junk ha]; simp, fun _ => rfl,
      by rw [copyObj_alloc, if_pos rfl]⟩
    intro hnorm
    rcases hnorm with hnorm | hnorm
    · exact absurd rfl hnorm
    · exact Normalized_copyObj junk ha hnorm
  · rw [if_neg hn]
    simp only [ensure_eq]
    generalize hsz : (h a).siz + n / 32 + (if n % 32 > 0 then 1 else 0) = sz
    obtain ⟨c1, c2, c3, c4⟩ := clear_ensure junk sz hr
    rw [memset0_eq _ _ _ (by simpa using ensureObj_le junk (h res) sz hr.1)]
    simp only [Function.update_same, Function.update_idem, Option.bind_eq_bind,
      Option.some_bind]
    generalize hh2 : Function.update h res (clearObj (ensureObj junk (h res) sz) sz) = h2
    have h2res : h2 res = clearObj (ensureObj junk (h res) sz) sz := by rw [← hh2]; simp
    have h2a : h2 a = h a := by rw [← hh2]; exact Function.update_noteq (Ne.symm hra) _ _
    rw [← h2res] at c1 c2 c3 c4
    have hupd : ∀ o, Function.update h2 res o = Function.update h res o := by
      intro o; rw [← hh2, Function.update_idem]
    have hszle : sz ≤ (h2 res).alloc_size := by rw [c2]; exact Nat.le_max_right _ _
    by_cases hbs : n % 32 = 0
    · rw [if_pos hbs]
      have hsz' : (h a).siz + n / 32 = sz := by rw [← hsz, hbs]; simp
      obtain ⟨h3, hl, hI, hlt, hv⟩ := precn_shl_words_loop res a h2 (n / 32) (h a).siz
        (Ne.symm hra) (by rw [h2a]; exact Wf_siz_le ha) (by rw [h2a]; exact wd_lt_of_Wf ha)
        (by omega) (fun k hk => c4 k (by omega))
      rw [h2a] at hv
      rw [hsz'] at hv hI hlt
      obtain ⟨hwf, hnorm⟩ := row_finish hI c1 hlt sz hszle
      refine ⟨nzObj { h3 res with siz := sz }, ?_, Wf_nzObj hwf, fun _ => Normalized_nzObj _,
        ?_, fun h0 => absurd h0 hn, ?_⟩
      · unfold precn_shl_words
        rw [h2a, hl]
        simp only [Option.some_bind, hnorm, hupd]
      · rw [value_nzObj, value_eq_valN, value_eq_valN]
        show valN (wd (h3 res)) sz = _
        rw [hv, pow_bits n, hbs]
        simp
      · show (h3 res).alloc_size = _
        rw [hI.2.2.1, c2, if_neg hn]
    · rw [if_neg hbs]
      have hsz' : (h a).siz + n / 32 + 1 = sz := by
        rw [← hsz, if_pos (by omega)]
      obtain ⟨⟨h3, c⟩, hl, hI, hlt, hc, hv⟩ := precn_shl_bits_loop res a h2 (n / 32) (n % 32)
        (h a).siz (Ne.symm hra) (Nat.mod_lt _ (by decide)) (by rw [h2a]; exact Wf_siz_le ha)
        (by rw [h2a]; exact wd_lt_of_Wf ha) (by omega) (fun k hk => c4 k (by omega))
      simp only at hI hlt hc hv
      rw [h2a] at hv
      have hc32 : c < 2 ^ 32 :=
        Nat.lt_of_lt_of_le hc (Nat.pow_le_pow_right (by decide)
          (Nat.le_of_lt (Nat.mod_lt _ (by decide))))
      have h3a : h3 a = h a := by rw [hI.1 a (Ne.symm hra), h2a]
      -- the word at index `siz + n / 32` ends up holding the carry in both branches
      have hfin : ∃ h4, (if c ≠ 0 then store h3 res ((h3 a).siz + n / 32) c else pure h3) =
          some h4 ∧ RowInv h2 res sz h4 ∧ (∀ j, j < sz → wd (h4 res) j < 2 ^ 32) ∧
          valN (wd (h4 res)) sz = valN (wd (h a)) (h a).siz * 2 ^ (n % 32) * 2 ^ (32 * (n / 32)) := by
        by_cases hc0 : c = 0
        · subst hc0
          refine ⟨h3, by simp, ?_, ?_, ?_⟩
          · refine ⟨hI.1, hI.2.1, hI.2.2.1, hI.2.2.2.1, fun j hj => hI.2.2.2.2 j (by omega)⟩
          · intro j hj
            by_cases hj' : j < (h a).siz + n / 32
            · exact hlt j hj'
            · rw [hI.2.2.2.2 j (by omega)]; exact wd_lt_of_Wf c1 j
          · rw [← hsz']
            simp only [valN]
            rw [hI.2.2.2.2 _ (Nat.le_refl _), c4 _ (by omega)]
            simpa using hv
        · obtain ⟨h4, hst, hI4, hw4, hw4'⟩ := RowInv_store hI c (by omega)
          rw [hsz'] at hI4
          refine ⟨h4, by rw [if_pos hc0, h3a]; exact hst, hI4, ?_, ?_⟩
          · intro j hj
            by_cases hj' : j = (h a).siz + n / 32
            · rw [hj', hw4]; exact hc32
            · rw [hw4' j hj']; exact hlt j (by omega)
          · rw [← hsz']
            simp only [valN]
            rw [valN_congr (fun j hj => hw4' j (by omega)), hw4]
            exact hv
      obtain ⟨h4, hst, hI4, hlt4, hv4⟩ := hfin
      obtain ⟨hwf, hnorm⟩ := row_finish hI4 c1 hlt4 sz hszle
      refine ⟨nzObj { h4 res with siz := sz }, ?_, Wf_nzObj hwf, fun _ => Normalized_nzObj _,
        ?_, fun h0 => absurd h0 hn, ?_⟩
      · unfold precn_shl_bits
        rw [h2a, hl]
        simp only [Option.bind_eq_bind, Option.some_bind, hst, hnorm, hupd]
      · rw [value_nzObj, value_eq_valN, value_eq_valN]
        show valN (wd (h4 res)) sz = _
        rw [hv4, pow_bits n]
        ring
      · show (h4 res).alloc_size = _
        rw [hI4.2.2.1, c2, if_neg hn]

/-! ### Long division: the steps of one iteration -/

theorem precn_divmod_shift_loop (r : Ptr) (h0 : Heap) (n : Nat)
    (hn : n ≤ (h0 r).a.length) (hw : ∀ j, wd (h0 r) j < 2 ^ 32) :
    ∃ s, forUp (precn_divmod_shift r) n 0 (h0, 0) = some s ∧ RowInv h0 r n s.1 ∧
      (∀ j, j < n → wd (s.1 r) j < 2 ^ 32) ∧ s.2 ≤ 1 ∧
      valN (wd (s.1 r)) n + s.2 * 2 ^ (32 * n) = 2 * valN (wd (h0 r)) n ∧
      (0 < n → wd (s.1 r) 0 % 2 = 0) ∧ (n = 0 → s.2 = 0) := by
  have key := forUp_inv (precn_divmod_shift r)
    (fun i s => RowInv h0 r i s.1 ∧ (∀ j, j < i → wd (s.1 r) j < 2 ^ 32) ∧ s.2 ≤ 1 ∧
      valN (wd (s.1 r)) i + s.2 * 2 ^ (32 * i) = 2 * valN (wd (h0 r)) i ∧
      (0 < i → wd (s.1 r) 0 % 2 = 0) ∧ (i = 0 → s.2 = 0))
    n 0 (h0, 0) ⟨RowInv_refl _ _ _, fun j hj => by omega, Nat.zero_le _, by simp [valN],
      fun h => by omega, fun _ => rfl⟩ ?_
  · simpa using key
  · rintro i ⟨h, c⟩ _ hi ⟨hI, hlt, hc, hv, hev, hc0⟩
    simp only at hI hlt hc hv hev hc0
    have hi' : i < n := by omega
    have e1 : load h r i = some (wd (h0 r) i) := by
      rw [load_eq (by rw [RowInv_length hI]; omega), RowInv_wd hI r (Nat.le_refl i)]
    obtain ⟨hc1, hc2⟩ := shl_column (wd (h0 r) i) c 1 (hw i) (by decide) (by omega)
    obtain ⟨h1, hst, hI1, hw1, hw2⟩ :=
      RowInv_store hI (u32 (u64 (wd (h0 r) i <<< 1) ||| c)) (by omega)
    refine ⟨(h1, u32 ((u64 (wd (h0 r) i <<< 1) ||| c) >>> 32)), ?_, hI1, ?_, ?_, ?_, ?_, ?_⟩
    · simp only [precn_divmod_shift, e1, Option.bind_eq_bind, Option.some_bind, hst,
        Option.pure_def]
    · intro j hj
      by_cases hji : j = i
      · rw [hji, hw1]; exact u32_lt _
      · rw [hw2 j hji]; exact hlt j (by omega)
    · simp only
      omega
    · simp only [valN]
      rw [valN_congr (fun j hj => hw2 j (by omega)), hw1, pow32_succ]
      have h3 := congrArg (fun t => t * 2 ^ (32 * i)) hc1
      simp only at h3
      generalize u32 (u64 (wd (h0 r) i <<< 1) ||| c) = W at *
      generalize u32 ((u64 (wd (h0 r) i <<< 1) ||| c) >>> 32) = C at *
      linarith [h3, hv]
    · intro _
      by_cases hi0 : i = 0
      · subst hi0
        rw [hw1]
        have hcz := hc0 rfl
        subst hcz
        have h32 : (2 : Nat) ^ 32 = 4294967296 := by norm_num
        rw [h32] at hc1
        generalize u32 (u64 (wd (h0 r) 0 <<< 1) ||| 0) = W at *
        omega
      · rw [hw2 0 (by omega)]; exact hev (by omega)
    · intro hcontra
      omega

/-- The step "shift remainder left by 1": the value doubles unless the carry out of the
top word is dropped because `siz = alloc_size`. -/
theorem precn_divmod_shl1_spec (r : Ptr) (h : Heap) (hr : Wf (h r)) :
    ∃ o, precn_divmod_shl1 r h = some (Function.update h r o) ∧ Wf o ∧
      o.alloc_size = (h r).alloc_size ∧ (0 < o.siz → wd o 0 % 2 = 0) ∧
      (2 * value (h r) < 2 ^ (32 * (h r).alloc_size) → value o = 2 * value (h r)) := by
  obtain ⟨⟨h1, c⟩, hl, hI, hlt, hc, hv, hev, hc0⟩ :=
    precn_divmod_shift_loop r h (h r).siz (Wf_siz_le hr) (wd_lt_of_Wf hr)
  simp only at hI hlt hc hv hev hc0
  rw [← value_eq_valN] at hv
  have hw1 : ∀ j, wd (h1 r) j < 2 ^ 32 := by
    intro j
    by_cases hj : j < (h r).siz
    · exact hlt j hj
    · rw [hI.2.2.2.2 j (by omega)]; exact wd_lt_of_Wf hr j
  have hwf1 : Wf (h1 r) :=
    Wf_of (by rw [hI.2.2.2.1, hI.2.2.1]; exact hr.1) (by rw [hI.2.2.1]; exact hr.2.1)
      (by rw [hI.2.1, hI.2.2.1]; exact hr.2.2.1) hw1
  have hval1 : value (h1 r) = valN (wd (h1 r)) (h r).siz := by
    rw [value_eq_valN, hI.2.1]
  unfold precn_divmod_shl1
  simp only [hl, Option.bind_eq_bind, Option.some_bind]
  by_cases hcz : c = 0
  · subst hcz
    refine ⟨h1 r, ?_, hwf1, hI.2.2.1, ?_, ?_⟩
    · simp only [ne_eq, not_true_eq_false, if_false, Option.pure_def]
      rw [← RowInv_update hI, Function.update_eq_self]
    · intro hpos
      rw [hI.2.1] at hpos
      exact hev hpos
    · intro _
      rw [hval1]
      simpa using hv
  · have hc1 : c = 1 := by omega
    subst hc1
    simp only [ne_eq, one_ne_zero, not_false_eq_true, if_true]
    by_cases hcap : (h1 r).siz < (h1 r).alloc_size
    · rw [if_pos hcap]
      rw [hI.2.1, hI.2.2.1] at hcap
      obtain ⟨h2, hst, hI2, hw2, hw2'⟩ := RowInv_store hI 1 (by rw [hr.1]; exact hcap)
      rw [hI.2.1, hst]
      simp only [Option.some_bind, Option.pure_def, set_siz_eq]
      rw [RowInv_update hI2]
      refine ⟨_, rfl, ?_, ?_, ?_, ?_⟩
      · apply Wf_of
        · show (h2 r).a.length = (h2 r).alloc_size
          rw [hI2.2.2.2.1, hI2.2.2.1]; exact hr.1
        · show 1 ≤ (h2 r).alloc_size
          rw [hI2.2.2.1]; exact hr.2.1
        · show (h r).siz + 1 ≤ (h2 r).alloc_size
          rw [hI2.2.2.1]; exact hcap
        · intro j
          show wd (h2 r) j < 2 ^ 32
          by_cases hj : j = (h r).siz
          · rw [hj, hw2]; norm_num
          · rw [hw2' j hj]; exact hw1 j
      · show (h2 r).alloc_size = _
        exact hI2.2.2.1
      · intro _
        show wd (h2 r) 0 % 2 = 0
        by_cases hs0 : (h r).siz = 0
        · exfalso
          have := hc0 hs0
          omega
        · rw [hw2' 0 (by omega)]; exact hev (by omega)
      · intro _
        rw [value_eq_valN]
        show valN (wd (h2 r)) ((h r).siz + 1) = _
        simp only [valN]
        rw [valN_congr (fun j hj => hw2' j (by omega)), hw2]
        linarith [hv]
    · rw [if_neg hcap]
      refine ⟨h1 r, ?_, hwf1, hI.2.2.1, ?_, ?_⟩
      · simp only [Option.pure_def]
        rw [← RowInv_update hI, Function.update_eq_self]
      · intro hpos
        rw [hI.2.1] at hpos
        exact hev hpos
      · intro hlt2
        exfalso
        rw [hI.2.1, hI.2.2.1] at hcap
        have hsz : (h r).siz = (h r).alloc_size := by
          have := hr.2.2.1; omega
        rw [← hsz] at hlt2
        have := valN_lt hw1 (h r).siz
        omega

theorem or_one_of_even {w : Nat} (hw : w % 2 = 0) : w ||| 1 = w + 1 := by
  have h1 := Nat.mul_add_lt_is_or (i := 1) (b := 1) (by decide) (w / 2)
  have h2 : 2 ^ 1 * (w / 2) = w := by omega
  rw [h2] at h1
  exact h1.symm

theorem bitAt_le (x : precn_struct) (i : Nat) : bitAt x i ≤ 1 := by
  unfold bitAt
  split
  · rw [Nat.and_one_is_mod]; omega
  · omega

/-- The step "get bit i from dividend, add bit to remainder": the value of the remainder
grows by the bit, provided its lowest word is even. -/
theorem precn_divmod_getbit_spec (r a : Ptr) (i : Nat) (h : Heap)
    (hr : Wf (h r)) (ha : Wf (h a)) (hev : 0 < (h r).siz → wd (h r) 0 % 2 = 0) :
    ∃ o, precn_divmod_getbit r a i h = some (Function.update h r o) ∧ Wf o ∧
      o.alloc_size = (h r).alloc_size ∧ value o = value (h r) + bitAt (h a) i := by
  have hself : Function.update h r (h r) = h := Function.update_eq_self _ _
  unfold precn_divmod_getbit bitAt
  simp only
  by_cases hidx : i / 32 < (h a).siz
  · rw [if_pos hidx, if_pos hidx, load_eq (by have := Wf_siz_le ha; omega)]
    simp only [Option.bind_eq_bind, Option.some_bind]
    have hb : (wd (h a) (i / 32) >>> (i % 32)) &&& 1 ≤ 1 := by
      rw [Nat.and_one_is_mod]; omega
    by_cases hbit : (wd (h a) (i / 32) >>> (i % 32)) &&& 1 = 0
    · rw [hbit]
      simp only [ne_eq, not_true_eq_false, if_false, Option.pure_def, Nat.add_zero]
      exact ⟨h r, by rw [hself], hr, rfl, rfl⟩
    · have hbit1 : (wd (h a) (i / 32) >>> (i % 32)) &&& 1 = 1 := by omega
      rw [hbit1]
      simp only [ne_eq, one_ne_zero, not_false_eq_true, if_true]
      have hlen : 0 < (h r).a.length := by rw [hr.1]; exact hr.2.1
      by_cases hs0 : (h r).siz = 0
      · rw [if_pos hs0, store_eq 1 hlen]
        simp only [Option.bind_eq_bind, Option.some_bind, Option.pure_def, set_siz_eq,
          Function.update_same, Function.update_idem]
        refine ⟨_, rfl, ?_, rfl, ?_⟩
        · apply Wf_of
          · show (setWord (h r) 0 1).a.length = _
            rw [setWord_length]; exact hr.1
          · exact hr.2.1
          · exact hr.2.1
          · intro j
            show wd (setWord (h r) 0 1) j < 2 ^ 32
            rw [wd_setWord _ _ _ _ hlen]
            split
            · norm_num
            · exact wd_lt_of_Wf hr j
        · rw [value_eq_valN, value_eq_valN, hs0]
          show valN (wd (setWord (h r) 0 1)) 1 = _
          simp [valN, wd_setWord _ _ _ _ hlen]
      · rw [if_neg hs0, load_eq hlen]
        simp only [Option.bind_eq_bind, Option.some_bind]
        have hev0 := hev (by omega)
        rw [or_one_of_even hev0, store_eq _ hlen]
        have hw0 := wd_lt_of_Wf hr 0
        have h32 : (2 : Nat) ^ 32 = 4294967296 := by norm_num
        refine ⟨_, rfl, ?_, rfl, ?_⟩
        · apply Wf_of
          · rw [setWord_length]; exact hr.1
          · exact hr.2.1
          · exact hr.2.2.1
          · intro j
            rw [wd_setWord _ _ _ _ hlen]
            split
            · rw [h32] at hw0 ⊢; omega
            · exact wd_lt_of_Wf hr j
        · rw [value_eq_valN, value_eq_valN]
          show valN (wd (setWord (h r) 0 (wd (h r) 0 + 1))) (h r).siz = _
          have hupd := valN_update (f := wd (h r)) (g := wd (setWord (h r) 0 (wd (h r) 0 + 1)))
            (k := 0) (fun j hj => by rw [wd_setWord _ _ _ _ hlen, if_neg hj]) (h r).siz
            (by omega)
          rw [wd_setWord _ _ _ _ hlen, if_pos rfl] at hupd
          simp only [Nat.mul_zero, pow_zero, Nat.mul_one] at hupd
          omega
  · rw [if_neg hidx, if_neg hidx]
    exact ⟨h r, by rw [hself]; rfl, hr, rfl, rfl⟩

theorem cmpHeap_of_Normalized (h : Heap) (r b : Ptr) (hnb : Normalized (h b)) :
    cmpHeap h r b = Function.update h r (nzObj (h r)) := by
  funext p
  unfold cmpHeap
  by_cases hpr : p = r
  · subst hpr; simp
  · rw [Function.update_noteq hpr]
    by_cases hpb : p = b
    · subst hpb
      simp only [or_true, if_true]
      exact nzObj_of_Normalized hnb
    · simp [hpr, hpb]

theorem u32_one_shiftLeft (k : Nat) (hk : k < 32) : u32 (1 <<< k) = 2 ^ k := by
  rw [Nat.one_shiftLeft]
  exact u32_of_lt (Nat.pow_lt_pow_right (by decide) hk)

/-- The step "if remainder >= divisor, subtract and set quotient bit". -/
theorem precn_divmod_qbit_spec (junk : Nat → Nat) (q r b : Ptr) (i : Nat) (h : Heap)
    (hqr : q ≠ r) (hrb : r ≠ b) (hq : Wf (h q)) (hr : Wf (h r)) (hb : Wf (h b))
    (hnb : Normalized (h b)) :
    ∃ o oq, precn_divmod_qbit junk q r b i h =
        some (Function.update (Function.update h r o) q oq) ∧
      Wf o ∧ Wf oq ∧ Normalized o ∧ o.alloc_size = (h r).alloc_size ∧
      oq.alloc_size = (h q).alloc_size ∧
      (value (h r) < value (h b) → value o = value (h r) ∧ oq = h q) ∧
      (value (h b) ≤ value (h r) → value o + value (h b) = value (h r) ∧
        (i / 32 < (h q).alloc_size →
          oq = { setWord (h q) (i / 32) (wd (h q) (i / 32) ||| 2 ^ (i % 32)) with
                 siz := max (h q).siz (i / 32 + 1) }) ∧
        (¬ i / 32 < (h q).alloc_size → oq = h q)) := by
  have hqself : ∀ g : Heap, g q = h q → Function.update g q (h q) = g := by
    intro g hg; rw [← hg]; exact Function.update_eq_self _ _
  unfold precn_divmod_qbit
  rw [precn_cmp_eq h r b hr hb, cmpHeap_of_Normalized h r b hnb]
  simp only [Option.bind_eq_bind, Option.some_bind, ge_iff_le, cmp3_nonneg_iff]
  by_cases hle : value (h b) ≤ value (h r)
  · rw [if_pos hle]
    generalize hhc : Function.update h r (nzObj (h r)) = hc
    have hcr : hc r = nzObj (h r) := by rw [← hhc]; simp
    have hcb : hc b = h b := by rw [← hhc]; exact Function.update_noteq (Ne.symm hrb) _ _
    have hcq : hc q = h q := by rw [← hhc]; exact Function.update_noteq hqr _ _
    obtain ⟨o, hs, hwo, hno, hvo, hao⟩ := precn_sub_spec junk hc r r b
      (by rw [hcr]; exact Wf_nzObj hr) (by rw [hcr]; exact Wf_nzObj hr) (by rw [hcb]; exact hb)
    have hcc : cmpHeap hc r b = hc := by
      rw [cmpHeap_of_Normalized hc r b (by rw [hcb]; exact hnb), hcr,
        nzObj_of_Normalized (Normalized_nzObj _), ← hcr]
      exact Function.update_eq_self _ _
    rw [hcc] at hs
    have hupd : Function.update hc r o = Function.update h r o := by
      rw [← hhc, Function.update_idem]
    rw [hupd] at hs
    rw [hs]
    simp only [Option.some_bind]
    have h2q : Function.update h r o q = h q := Function.update_noteq hqr _ _
    rw [hcr, hcb, value_nzObj] at hvo
    have hval : value o + value (h b) = value (h r) := by
      rw [abs_of_nonneg (by omega)] at hvo
      omega
    have halloc : o.alloc_size = (h r).alloc_size := by
      rw [hao, hcr, hcb]
      have h1 : (nzObj (nzObj (h r))).siz ≤ (h r).alloc_size :=
        (Wf_nzObj (Wf_nzObj hr)).2.2.1
      have h2 : (nzObj (h b)).siz ≤ (nzObj (nzObj (h r))).siz :=
        siz_le_of_value_le (Wf_nzObj (Wf_nzObj hr)) (Normalized_nzObj _)
          (by rw [value_nzObj, value_nzObj, value_nzObj]; exact hle)
      show max (h r).alloc_size _ = _
      omega
    by_cases hcap : i / 32 < (h q).alloc_size
    · have hlen : i / 32 < (h q).a.length := by rw [hq.1]; exact hcap
      have hlen2 : i / 32 < (Function.update h r o q).a.length := by rw [h2q]; exact hlen
      simp only [h2q, if_pos hcap, load_eq hlen2, Option.some_bind, store_eq _ hlen2,
        Function.update_same, setWord_siz, u32_one_shiftLeft _ (Nat.mod_lt i (by decide)),
        Option.pure_def, set_siz_eq, Function.update_idem]
      have hwfq : ∀ s, s ≤ (h q).alloc_size →
          Wf { setWord (h q) (i / 32) (wd (h q) (i / 32) ||| 2 ^ (i % 32)) with siz := s } := by
        intro s hs
        apply Wf_of
        · show (setWord (h q) _ _).a.length = _
          rw [setWord_length]; exact hq.1
        · exact hq.2.1
        · exact hs
        · intro j
          show wd (setWord (h q) _ _) j < 2 ^ 32
          rw [wd_setWord _ _ _ _ hlen]
          split
          · exact Nat.or_lt_two_pow (wd_lt_of_Wf hq _)
              (Nat.pow_lt_pow_right (by decide) (Nat.mod_lt i (by decide)))
          · exact wd_lt_of_Wf hq j
      by_cases hsz : i / 32 ≥ (h q).siz
      · rw [if_pos hsz]
        have hmax : max (h q).siz (i / 32 + 1) = i / 32 + 1 := by omega
        refine ⟨o, _, rfl, hwo, hwfq _ (by omega), hno, halloc, rfl,
          fun hlt => absurd hle (by omega), fun _ => ⟨hval, fun _ => ?_, fun hn => absurd hcap hn⟩⟩
        rw [hmax]
      · rw [if_neg hsz]
        have hmax : max (h q).siz (i / 32 + 1) = (h q).siz := by omega
        refine ⟨o, setWord (h q) (i / 32) (wd (h q) (i / 32) ||| 2 ^ (i % 32)), rfl, hwo,
          hwfq _ hq.2.2.1, hno, halloc, rfl,
          fun hlt => absurd hle (by omega), fun _ => ⟨hval, fun _ => ?_, fun hn => absurd hcap hn⟩⟩
        rw [hmax]
        rfl
    · simp only [h2q, if_neg hcap, Option.pure_def]
      refine ⟨o, h q, by rw [hqself _ h2q], hwo, hq, hno, halloc, rfl,
        fun hlt => absurd hle (by omega), fun _ => ⟨hval, fun hc => absurd hc hcap, fun _ => rfl⟩⟩
  · rw [if_neg hle]
    refine ⟨nzObj (h r), h q, ?_, Wf_nzObj hr, hq, Normalized_nzObj _, rfl, rfl,
      fun _ => ⟨value_nzObj _, rfl⟩, fun hc => absurd hc hle⟩
    rw [hqself _ (Function.update_noteq hqr _ _)]
    rfl

/-! ### Bits of a value -/

theorem valN_split (f : Nat → Nat) (k : Nat) :
    ∀ n, k < n → ∃ H, valN f n = valN f k + 2 ^ (32 * k) * (f k + 2 ^ 32 * H) := by
  intro n
  induction n with
  | zero => intro hk; omega
  | succ n ih =>
    intro hk
    by_cases hkn : k = n
    · subst hkn
      exact ⟨0, by simp only [valN]; ring⟩
    · obtain ⟨H, hH⟩ := ih (by omega)
      refine ⟨H + f n * 2 ^ (32 * (n - k - 1)), ?_⟩
      simp only [valN]
      rw [hH]
      have hp : 2 ^ (32 * n) = 2 ^ (32 * k) * (2 ^ 32 * 2 ^ (32 * (n - k - 1))) := by
        rw [← pow_add, ← pow_add]; congr 1; omega
      rw [hp]
      ring

theorem bit_of_value {x : precn_struct} (hx : Wf x) (i : Nat) :
    value x / 2 ^ i = 2 * (value x / 2 ^ (i + 1)) + bitAt x i := by
  have hdd : value x / 2 ^ (i + 1) = value x / 2 ^ i / 2 := by
    rw [Nat.div_div_eq_div_mul, pow_succ]
  have hmod : value x / 2 ^ i % 2 = bitAt x i := by
    unfold bitAt
    by_cases hk : i / 32 < x.siz
    · rw [if_pos hk, Nat.and_one_is_mod, Nat.shiftRight_eq_div_pow, value_eq_valN]
      obtain ⟨H, hH⟩ := valN_split (wd x) (i / 32) x.siz hk
      have hlow := valN_lt (wd_lt_of_Wf hx) (i / 32)
      have hpi : 2 ^ i = 2 ^ (32 * (i / 32)) * 2 ^ (i % 32) := by
        rw [← pow_add]; congr 1; omega
      have h1 : valN (wd x) x.siz / 2 ^ (32 * (i / 32)) = wd x (i / 32) + 2 ^ 32 * H := by
        rw [hH, Nat.add_mul_div_left _ _ (by positivity), Nat.div_eq_of_lt hlow, Nat.zero_add]
      have hp32 : 2 ^ 32 = 2 ^ (i % 32) * (2 * 2 ^ (31 - i % 32)) := by
        rw [← pow_succ', ← pow_add]; congr 1; omega
      rw [hpi, ← Nat.div_div_eq_div_mul, h1, hp32, Nat.mul_assoc,
        Nat.add_mul_div_left _ _ (by positivity), Nat.mul_assoc, Nat.add_mul_mod_self_left]
    · rw [if_neg hk, value_eq_valN]
      have h1 := valN_lt (wd_lt_of_Wf hx) x.siz
      have h2 : 2 ^ (32 * x.siz) ≤ 2 ^ i :=
        Nat.pow_le_pow_right (by decide) (by omega)
      rw [Nat.div_eq_of_lt (by omega)]
  rw [hdd]
  omega

theorem or_pow_of_dvd {w r : Nat} (hw : 2 ^ (r + 1) ∣ w) : w ||| 2 ^ r = w + 2 ^ r := by
  obtain ⟨m, rfl⟩ := hw
  exact (Nat.mul_add_lt_is_or (Nat.pow_lt_pow_right (by decide) (Nat.lt_succ_self r)) m).symm

theorem valN_extend {f : Nat → Nat} {s n : Nat} (hsn : s ≤ n)
    (hz : ∀ j, s ≤ j → j < n → f j = 0) : valN f n = valN f s := by
  induction n with
  | zero =>
    have : s = 0 := by omega
    rw [this]
  | succ n ih =>
    by_cases hs : s = n + 1
    · rw [hs]
    · simp only [valN]
      rw [hz n (by omega) (by omega), ih (by omega) (fun j h1 h2 => hz j h1 (by omega))]
      simp

/-- One iteration of the long-division loop. The remainder and the quotient stay
well-formed in every case; when doubling the remainder cannot overflow its capacity, the
new remainder is `2 * R + bit`, minus the divisor when that is possible, and the quotient
gets bit `i` exactly in that case. -/
theorem precn_divmod_body_spec (junk : Nat → Nat) (q r a b : Ptr) (i : Nat) (h : Heap)
    (hqr : q ≠ r) (hra : r ≠ a) (hrb : r ≠ b)
    (hq : Wf (h q)) (hr : Wf (h r)) (ha : Wf (h a)) (hb : Wf (h b))
    (hnb : Normalized (h b)) :
    ∃ o oq, precn_divmod_body junk q r a b i h =
        some (Function.update (Function.update h r o) q oq) ∧
      Wf o ∧ Wf oq ∧ Normalized o ∧ o.alloc_size = (h r).alloc_size ∧
      oq.alloc_size = (h q).alloc_size ∧
      (2 * value (h r) < 2 ^ (32 * (h r).alloc_size) →
        (2 * value (h r) + bitAt (h a) i < value (h b) →
          value o = 2 * value (h r) + bitAt (h a) i ∧ oq = h q) ∧
        (value (h b) ≤ 2 * value (h r) + bitAt (h a) i →
          value o + value (h b) = 2 * value (h r) + bitAt (h a) i ∧
          (i / 32 < (h q).alloc_size →
            oq = { setWord (h q) (i / 32) (wd (h q) (i / 32) ||| 2 ^ (i % 32)) with
                   siz := max (h q).siz (i / 32 + 1) }) ∧
          (¬ i / 32 < (h q).alloc_size → oq = h q))) := by
  obtain ⟨o1, e1, hw1, ha1, hev1, hv1⟩ := precn_divmod_shl1_spec r h hr
  generalize hh1 : Function.update h r o1 = h1 at e1
  have h1r : h1 r = o1 := by rw [← hh1]; simp
  have h1a : h1 a = h a := by rw [← hh1]; exact Function.update_noteq (Ne.symm hra) _ _
  obtain ⟨o2, e2, hw2, ha2, hv2⟩ := precn_divmod_getbit_spec r a i h1
    (by rw [h1r]; exact hw1) (by rw [h1a]; exact ha) (by rw [h1r]; exact hev1)
  have hu2 : Function.update h1 r o2 = Function.update h r o2 := by
    rw [← hh1, Function.update_idem]
  rw [hu2] at e2
  generalize hh2 : Function.update h r o2 = h2 at e2
  have h2r : h2 r = o2 := by rw [← hh2]; simp
  have h2b : h2 b = h b := by rw [← hh2]; exact Function.update_noteq (Ne.symm hrb) _ _
  have h2q : h2 q = h q := by rw [← hh2]; exact Function.update_noteq hqr _ _
  obtain ⟨o3, oq, e3, hw3, hwq, hn3, ha3, haq, hlt3, hge3⟩ :=
    precn_divmod_qbit_spec junk q r b i h2 hqr hrb (by rw [h2q]; exact hq)
      (by rw [h2r]; exact hw2) (by rw [h2b]; exact hb) (by rw [h2b]; exact hnb)
  have hu3 : Function.update h2 r o3 = Function.update h r o3 := by
    rw [← hh2, Function.update_idem]
  rw [hu3] at e3
  rw [h2r, h2b, h2q] at hlt3 hge3
  rw [h1r, h1a] at hv2
  refine ⟨o3, oq, ?_, hw3, hwq, hn3, ?_, ?_, ?_⟩
  · simp only [precn_divmod_body, e1, e2, e3, Option.bind_eq_bind, Option.some_bind]
  · rw [ha3, h2r, ha2, h1r, ha1]
  · rw [haq, h2q]
  · intro hcap
    have hv := hv1 hcap
    rw [hv] at hv2
    rw [hv2] at hlt3 hge3
    exact ⟨hlt3, hge3⟩

/-! ### Long division: the loop -/

theorem DivInv_step_keep {q r : Ptr} {L va vb i : Nat} {h h2 : Heap} {bit : Nat}
    (hI : DivInv q r L va vb (i + 1) h) (hq : h2 q = h q)
    (hbit : va / 2 ^ i = 2 * (va / 2 ^ (i + 1)) + bit)
    (hv : value (h2 r) = 2 * value (h r) + bit) (hlt : value (h2 r) < vb) :
    DivInv q r L va vb i h2 := by
  obtain ⟨h1, h2', h3, Q, hQ, hQR, _⟩ := hI
  refine ⟨by rw [hq]; exact h1, by rw [hq]; exact h2', ?_, 2 * Q, ?_, ?_, hlt⟩
  · intro j hj
    rw [hq]
    exact dvd_trans (pow_dvd_pow 2 (by omega)) (h3 j hj)
  · rw [hq, hQ, pow_succ]; ring
  · rw [hv, hbit, ← hQR]; ring

theorem DivInv_step_set {q r : Ptr} {L va vb i : Nat} {h h2 : Heap} {bit : Nat}
    (hI : DivInv q r L va vb (i + 1) h) (hwq : Wf (h q)) (hiL : i / 32 < L)
    (hcap : i / 32 < (h q).alloc_size)
    (hq : h2 q = { setWord (h q) (i / 32) (wd (h q) (i / 32) ||| 2 ^ (i % 32)) with
                   siz := max (h q).siz (i / 32 + 1) })
    (hbit : va / 2 ^ i = 2 * (va / 2 ^ (i + 1)) + bit)
    (hv : value (h2 r) + vb = 2 * value (h r) + bit) (hbit1 : bit ≤ 1) :
    DivInv q r L va vb i h2 := by
  obtain ⟨h1, h2', h3, Q, hQ, hQR, hR⟩ := hI
  have hlen : i / 32 < (h q).a.length := by rw [hwq.1]; exact hcap
  have hdvd : 2 ^ (i % 32 + 1) ∣ wd (h q) (i / 32) := by
    have := h3 (i / 32) hiL
    have e : min 32 (i + 1 - 32 * (i / 32)) = i % 32 + 1 := by omega
    rwa [e] at this
  have hsiz : (h2 q).siz = max (h q).siz (i / 32 + 1) := by rw [hq]
  have hwd : ∀ j, wd (h2 q) j =
      if j = i / 32 then wd (h q) (i / 32) + 2 ^ (i % 32) else wd (h q) j := by
    intro j
    rw [hq]
    show wd (setWord (h q) (i / 32) (wd (h q) (i / 32) ||| 2 ^ (i % 32))) j = _
    rw [wd_setWord _ _ _ _ hlen, or_pow_of_dvd hdvd]
  refine ⟨by rw [hsiz]; omega, ?_, ?_, 2 * Q + 1, ?_, ?_, by omega⟩
  · intro j hj1 hj2
    rw [hsiz] at hj1
    rw [hwd j, if_neg (by omega)]
    exact h2' j (by omega) hj2
  · intro j hj
    rw [hwd j]
    split
    · rename_i hjk
      have e : min 32 (i - 32 * j) = i % 32 := by rw [hjk]; omega
      rw [e]
      exact dvd_add (dvd_trans (pow_dvd_pow 2 (Nat.le_succ _)) hdvd) (dvd_refl _)
    · exact dvd_trans (pow_dvd_pow 2 (by omega)) (h3 j hj)
  · have hupd := valN_update (f := wd (h q)) (g := wd (h2 q)) (k := i / 32)
      (fun j hj => by rw [hwd j, if_neg hj]) L hiL
    rw [hwd (i / 32), if_pos rfl] at hupd
    have hpi : 2 ^ i = 2 ^ (i % 32) * 2 ^ (32 * (i / 32)) := pow_bits i
    have hps : 2 ^ (i + 1) = 2 * 2 ^ i := by rw [pow_succ]; ring
    rw [hQ, hps] at hupd
    rw [hpi] at hupd ⊢
    generalize 2 ^ (i % 32) = X at *
    generalize 2 ^ (32 * (i / 32)) = Y at *
    generalize valN (wd (h2 q)) L = V at *
    generalize wd (h q) (i / 32) = W at *
    have e1 : (W + X) * Y = W * Y + X * Y := by ring
    have e2 : X * Y * (2 * Q + 1) = 2 * (X * Y) * Q + X * Y := by ring
    rw [e1] at hupd
    rw [e2]
    omega
  · rw [hbit, ← hQR]
    have e : (2 * Q + 1) * vb = 2 * (Q * vb) + vb := by ring
    rw [e]
    omega

theorem pow32_cap {R s c : Nat} (hR : 2 * R < 2 ^ (32 * s)) (hsc : s ≤ c) :
    2 * R < 2 ^ (32 * c) :=
  Nat.lt_of_lt_of_le hR (pow32_le hsc)

/-- The long-division loop of `precn_divmod`, run for the bit indices below `n`. It
always returns, and the quotient and the remainder stay well-formed; under the condition
`C` (the capacities suffice) the arithmetic invariant holds for every bit index. -/
theorem precn_divmod_loop (junk : Nat → Nat) (q r a b : Ptr) (h1 : Heap) (C : Prop)
    (hqr : q ≠ r) (hqa : q ≠ a) (hqb : q ≠ b) (hra : r ≠ a) (hrb : r ≠ b)
    (ha : Wf (h1 a)) (hb : Wf (h1 b)) (hnb : Normalized (h1 b))
    (hcq : C → (h1 a).siz ≤ (h1 q).alloc_size)
    (hcr : C → (h1 a).siz ≤ (h1 r).alloc_size ∨ (h1 b).siz + 1 ≤ (h1 r).alloc_size) :
    ∀ n, n ≤ 32 * (h1 a).siz → ∀ h, DivFrame h1 q r h →
      (C → DivInv q r (h1 a).siz (value (h1 a)) (value (h1 b)) n h) →
      ∃ h2, forDown (precn_divmod_body junk q r a b) n h = some h2 ∧ DivFrame h1 q r h2 ∧
        (C → DivInv q r (h1 a).siz (value (h1 a)) (value (h1 b)) 0 h2) := by
  intro n hn h hF hD
  have key := forDown_inv (precn_divmod_body junk q r a b)
    (fun i h => DivFrame h1 q r h ∧
      (C → DivInv q r (h1 a).siz (value (h1 a)) (value (h1 b)) i h)) n h ⟨hF, hD⟩ ?_
  · exact key
  · rintro i g hi ⟨⟨hfr, hwq, hwr, har, haq⟩, hDg⟩
    have hga : g a = h1 a := hfr a (Ne.symm hqa) (Ne.symm hra)
    have hgb : g b = h1 b := hfr b (Ne.symm hqb) (Ne.symm hrb)
    obtain ⟨o, oq, he, hwo, hwoq, _, hao, haoq, hfun⟩ :=
      precn_divmod_body_spec junk q r a b i g hqr hra hrb hwq hwr (by rw [hga]; exact ha)
        (by rw [hgb]; exact hb) (by rw [hgb]; exact hnb)
    have hnq : Function.update (Function.update g r o) q oq q = oq := by simp
    have hnr : Function.update (Function.update g r o) q oq r = o := by
      rw [Function.update_noteq (Ne.symm hqr)]; simp
    refine ⟨_, he, ⟨?_, ?_, ?_, ?_, ?_⟩, ?_⟩
    · intro p hpq hpr
      rw [Function.update_noteq hpq, Function.update_noteq hpr]
      exact hfr p hpq hpr
    · rw [hnq]; exact hwoq
    · rw [hnr]; exact hwo
    · rw [hnr, hao, har]
    · rw [hnq, haoq, haq]
    · intro hC
      have hI := hDg hC
      obtain ⟨_, _, _, Q, hQ, hQR, hR⟩ := hI
      have hbit := bit_of_value ha i
      have hb1 := bitAt_le (h1 a) i
      have hiL : i / 32 < (h1 a).siz := by omega
      -- doubling the remainder cannot overflow its capacity
      have hcap : 2 * value (g r) < 2 ^ (32 * (g r).alloc_size) := by
        rw [har]
        rcases hcr hC with hc | hc
        · have h1' : value (h1 a) < 2 ^ (32 * (h1 a).siz) := by
            rw [value_eq_valN]; exact valN_lt (wd_lt_of_Wf ha) _
          have h2' : value (h1 a) / 2 ^ i ≤ value (h1 a) := Nat.div_le_self _ _
          have h3' : Q * value (h1 b) + value (g r) = value (h1 a) / 2 ^ (i + 1) := hQR
          exact pow32_cap (by omega) hc
        · have h1' : value (h1 b) < 2 ^ (32 * (h1 b).siz) := by
            rw [value_eq_valN]; exact valN_lt (wd_lt_of_Wf hb) _
          have h2' := pow32_succ (h1 b).siz
          exact pow32_cap (s := (h1 b).siz + 1) (by omega) hc
      obtain ⟨hlt, hge⟩ := hfun hcap
      rw [hga, hgb] at hlt hge
      by_cases hcmp : 2 * value (g r) + bitAt (h1 a) i < value (h1 b)
      · obtain ⟨hvo, hoq⟩ := hlt hcmp
        exact DivInv_step_keep (hDg hC) (by rw [hnq, hoq]) hbit (by rw [hnr]; exact hvo)
          (by rw [hnr, hvo]; exact hcmp)
      · obtain ⟨hvo, hoq, _⟩ := hge (by omega)
        have hq_cap : i / 32 < (g q).alloc_size := by
          rw [haq]; exact Nat.lt_of_lt_of_le hiL (hcq hC)
        exact DivInv_step_set (hDg hC) hwq hiL hq_cap (by rw [hnq]; exact hoq hq_cap) hbit
          (by rw [hnr]; exact hvo) hb1

/-! ### Long division: the whole function -/

theorem value_zero_siz {x : precn_struct} (hx : x.siz = 0) : value x = 0 := by
  rw [value_eq_valN, hx]; rfl

theorem value_lt_pow {x : precn_struct} (hx : Wf x) : value x < 2 ^ (32 * x.siz) := by
  rw [value_eq_valN]; exact valN_lt (wd_lt_of_Wf hx) _

theorem Normalized_zero (x : precn_struct) (n : Nat) :
    Normalized { clearObj x n with siz := 0 } := Or.inl rfl

/-- `precn_divmod` for well-formed operands, a divisor with `siz ≠ 0` and quotient and
remainder objects distinct from each other and from the operands: the call returns 0,
leaves the dividend and the divisor normalized and the quotient and the remainder
well-formed and normalized; when the capacities suffice, the quotient and the
remainder are those of the Euclidean division. -/
theorem precn_divmod_spec (junk : Nat → Nat) (h : Heap) (q r a b : Ptr)
    (hqr : q ≠ r) (hqa : q ≠ a) (hqb : q ≠ b) (hra : r ≠ a) (hrb : r ≠ b)
    (hq : Wf (h q)) (hr : Wf (h r)) (ha : Wf (h a)) (hb : Wf (h b))
    (hsiz : (h b).siz ≠ 0) :
    ∃ h2, precn_divmod junk h q r a b = some (h2, 0) ∧
      (∀ p, p ≠ q → p ≠ r → h2 p = cmpHeap h a b p) ∧
      Wf (h2 q) ∧ Wf (h2 r) ∧ Normalized (h2 q) ∧ Normalized (h2 r) ∧
      (h2 q).alloc_size = max (h q).alloc_size (if value (h a) < value (h b) then 0 else nlen (h a)) ∧
      (h2 r).alloc_size = max (h r).alloc_size (if value (h a) < value (h b) then nlen (h a) else 0) ∧
      (value (h a) < value (h b) →
        h2 q = { clearObj (h q) (h q).alloc_size with siz := 0 } ∧
        h2 r = copyObj junk (h r) (nzObj (h a))) ∧
      (value (h b) ≠ 0 → nlen (h a) ≤ (h q).alloc_size →
        (nlen (h a) ≤ (h r).alloc_size ∨ nlen (h b) + 1 ≤ (h r).alloc_size) →
        value (h2 q) * value (h b) + value (h2 r) = value (h a) ∧
          value (h2 r) < value (h b)) := by
  unfold precn_divmod
  rw [if_neg hsiz, precn_cmp_eq h a b ha hb]
  simp only [Option.bind_eq_bind, Option.some_bind]
  generalize hhc : cmpHeap h a b = hc
  have hcq : hc q = h q := by rw [← hhc]; exact cmpHeap_other h hqa hqb
  have hcr : hc r = h r := by rw [← hhc]; exact cmpHeap_other h hra hrb
  have hca : hc a = nzObj (h a) := by rw [← hhc]; exact cmpHeap_left h a b
  have hcb : hc b = nzObj (h b) := by rw [← hhc]; exact cmpHeap_right h a b
  rw [precn_zero_eq hc q (by rw [hcq]; exact hq.1), hcq]
  simp only [Option.some_bind]
  generalize hzq : ({ clearObj (h q) (h q).alloc_size with siz := 0 } : precn_struct) = zq
  have hwzq : Wf zq := by rw [← hzq]; exact Wf_zero hq
  have hzq_siz : zq.siz = 0 := by rw [← hzq]
  have hzq_alloc : zq.alloc_size = (h q).alloc_size := by rw [← hzq]; rfl
  have hzq_wd : ∀ j, wd zq j = 0 := by intro j; rw [← hzq]; exact wd_zero hq.1 j
  generalize hhz : Function.update hc q zq = hz
  have hzr : hz r = h r := by rw [← hhz, Function.update_noteq (Ne.symm hqr), hcr]
  have hza : hz a = nzObj (h a) := by rw [← hhz, Function.update_noteq (Ne.symm hqa), hca]
  have hzb : hz b = nzObj (h b) := by rw [← hhz, Function.update_noteq (Ne.symm hqb), hcb]
  have hzqq : hz q = zq := by rw [← hhz]; simp
  by_cases hlt : value (h a) < value (h b)
  · -- the fast path
    rw [cmp3_of_lt hlt, if_pos (by norm_num)]
    rw [precn_copy_eq junk hz r a hra (by rw [hzr]; exact hr) (by rw [hza]; exact Wf_nzObj ha),
      hzr, hza]
    simp only [Option.some_bind, Option.pure_def]
    have h2q : Function.update hz r (copyObj junk (h r) (nzObj (h a))) q = zq := by
      rw [Function.update_noteq hqr, hzqq]
    have h2r : Function.update hz r (copyObj junk (h r) (nzObj (h a))) r =
        copyObj junk (h r) (nzObj (h a)) := by simp
    have hvr : value (copyObj junk (h r) (nzObj (h a))) = value (h a) := by
      rw [value_copyObj junk (Wf_nzObj ha), value_nzObj]
    refine ⟨_, rfl, ?_, ?_, ?_, ?_, ?_, ?_, ?_, ?_, ?_⟩
    · intro p hpq hpr
      rw [Function.update_noteq hpr, ← hhz, Function.update_noteq hpq]
    · rw [h2q]; exact hwzq
    · rw [h2r]; exact Wf_copyObj junk hr (Wf_nzObj ha)
    · rw [h2q]; exact Or.inl hzq_siz
    · rw [h2r]; exact Normalized_copyObj junk (Wf_nzObj ha) (Normalized_nzObj _)
    · rw [h2q, if_pos hlt, hzq_alloc]; simp
    · rw [h2r, if_pos hlt, copyObj_alloc]; rfl
    · intro _; exact ⟨h2q, h2r⟩
    · intro _ _ _
      rw [h2q, h2r, value_zero_siz hzq_siz, hvr]
      exact ⟨by simp, hlt⟩
  · -- the long division
    have hcmp : ¬ cmp3 (value (h a)) (value (h b)) < 0 := by
      have := (cmp3_nonneg_iff (value (h a)) (value (h b))).2 (by omega)
      omega
    rw [if_neg hcmp]
    rw [precn_zero_eq hz r (by rw [hzr]; exact hr.1), hzr]
    simp only [Option.some_bind, ensure_eq]
    generalize hzr' : ({ clearObj (h r) (h r).alloc_size with siz := 0 } : precn_struct) = zr
    have hwzr : Wf zr := by rw [← hzr']; exact Wf_zero hr
    have hzr_siz : zr.siz = 0 := by rw [← hzr']
    have hzr_alloc : zr.alloc_size = (h r).alloc_size := by rw [← hzr']; rfl
    have hy : ∀ p, Function.update hz r zr p = if p = r then zr else hz p := by
      intro p
      by_cases hp : p = r
      · subst hp; simp
      · rw [Function.update_noteq hp, if_neg hp]
    rw [hy q, if_neg hqr, hy a, if_neg (Ne.symm hra), hzqq, hza]
    generalize hL : (nzObj (h a)).siz = L
    have hLn : nlen (h a) = L := hL
    generalize hh1 : Function.update (Function.update hz r zr) q (ensureObj junk zq L) = h1
    have h1q : h1 q = ensureObj junk zq L := by rw [← hh1]; simp
    have h1r : h1 r = zr := by rw [← hh1, Function.update_noteq (Ne.symm hqr)]; simp
    have h1o : ∀ p, p ≠ q → p ≠ r → h1 p = hc p := by
      intro p hpq hpr
      rw [← hh1, Function.update_noteq hpq, Function.update_noteq hpr, ← hhz,
        Function.update_noteq hpq]
    have h1a : h1 a = nzObj (h a) := by rw [h1o a (Ne.symm hqa) (Ne.symm hra), hca]
    have h1b : h1 b = nzObj (h b) := by rw [h1o b (Ne.symm hqb) (Ne.symm hrb), hcb]
    have hC : (value (h b) ≠ 0 ∧ nlen (h a) ≤ (h q).alloc_size ∧
        (nlen (h a) ≤ (h r).alloc_size ∨ nlen (h b) + 1 ≤ (h r).alloc_size)) →
        DivInv q r (h1 a).siz (value (h1 a)) (value (h1 b)) (32 * (h1 a).siz) h1 := by
      rintro ⟨hvb, hcapq, _⟩
      have hq1 : h1 q = zq := by
        rw [h1q]; unfold ensureObj
        rw [if_neg (by rw [hzq_alloc]; omega)]
      rw [h1a, h1b, value_nzObj, value_nzObj, hL]
      refine ⟨by rw [hq1, hzq_siz]; exact Nat.zero_le _, fun j _ _ => by rw [hq1]; exact hzq_wd j,
        fun j _ => by rw [hq1, hzq_wd j]; exact dvd_zero _, 0, ?_, ?_, ?_⟩
      · rw [hq1, valN_zero (fun j _ => hzq_wd j)]; simp
      · rw [h1r, value_zero_siz hzr_siz]
        have := value_lt_pow (Wf_nzObj ha)
        rw [value_nzObj, hL] at this
        rw [Nat.div_eq_of_lt this]
        simp
      · rw [h1r, value_zero_siz hzr_siz]; omega
    obtain ⟨h2, hloop, ⟨hfr, hwq2, hwr2, har2, haq2⟩, hD⟩ :=
      precn_divmod_loop junk q r a b h1
        (value (h b) ≠ 0 ∧ nlen (h a) ≤ (h q).alloc_size ∧
          (nlen (h a) ≤ (h r).alloc_size ∨ nlen (h b) + 1 ≤ (h r).alloc_size))
        hqr hqa hqb hra hrb (by rw [h1a]; exact Wf_nzObj ha) (by rw [h1b]; exact Wf_nzObj hb)
        (by rw [h1b]; exact Normalized_nzObj _)
        (fun _ => by
          rw [h1a, h1q, ensureObj_alloc, hL]; exact Nat.le_max_right _ _)
        (fun hc' => by
          rw [h1a, h1b, h1r, hzr_alloc, hL]
          rcases hc'.2.2 with h' | h'
          · left; rw [← hLn]; exact h'
          · right; exact h')
        (32 * (h1 a).siz) (Nat.le_refl _) h1
        ⟨fun _ _ _ => rfl, by rw [h1q]; exact Wf_ensureObj junk L hwzq, by rw [h1r]; exact hwzr,
          rfl, rfl⟩ hC
    rw [h1a, hL] at hloop
    rw [h1a, hL, Nat.mul_comm L 32, hloop]
    simp only [Option.some_bind]
    rw [precn_normalize_eq h2 q (Wf_siz_le hwq2)]
    simp only [Option.some_bind]
    rw [precn_normalize_eq _ r (by
      rw [Function.update_noteq (Ne.symm hqr)]; exact Wf_siz_le hwr2)]
    simp only [Option.some_bind, Option.pure_def, Function.update_noteq (Ne.symm hqr)]
    have h4q : Function.update (Function.update h2 q (nzObj (h2 q))) r (nzObj (h2 r)) q =
        nzObj (h2 q) := by
      rw [Function.update_noteq hqr]; simp
    have h4r : Function.update (Function.update h2 q (nzObj (h2 q))) r (nzObj (h2 r)) r =
        nzObj (h2 r) := by simp
    refine ⟨_, rfl, ?_, ?_, ?_, ?_, ?_, ?_, ?_, ?_, ?_⟩
    · intro p hpq hpr
      rw [Function.update_noteq hpr, Function.update_noteq hpq, hfr p hpq hpr, h1o p hpq hpr]
    · rw [h4q]; exact Wf_nzObj hwq2
    · rw [h4r]; exact Wf_nzObj hwr2
    · rw [h4q]; exact Normalized_nzObj _
    · rw [h4r]; exact Normalized_nzObj _
    · rw [h4q, if_neg hlt]
      show (h2 q).alloc_size = _
      rw [haq2, h1q, ensureObj_alloc, hzq_alloc, hLn]
    · rw [h4r, if_neg hlt]
      show (h2 r).alloc_size = _
      rw [har2, h1r, hzr_alloc]; simp
    · intro hc'; exact absurd hc' hlt
    · intro hvb hcapq hcapr
      obtain ⟨hs, hz0, _, Q, hQ, hQR, hR⟩ := hD ⟨hvb, hcapq, hcapr⟩
      rw [h1a, h1b, value_nzObj, value_nzObj] at hQR
      rw [h1b, value_nzObj] at hR
      rw [h1a, hL] at hs hz0 hQ
      rw [h4q, h4r, value_nzObj, value_nzObj]
      have hvq : value (h2 q) = Q := by
        rw [value_eq_valN, ← valN_extend hs hz0, hQ]; simp
      rw [hvq]
      simp only [pow_zero, Nat.div_one] at hQR
      exact ⟨hQR, hR⟩

/-! ### The wrappers `precn_div` and `precn_mod`, and `precn_set_u32` -/

theorem nlen_le_siz (x : precn_struct) : nlen x ≤ x.siz := normLen_le _ _

theorem siz_ne_zero_of_value {x : precn_struct} (hx : value x ≠ 0) : x.siz ≠ 0 :=
  fun h0 => hx (value_zero_siz h0)

theorem precn_new_obj (h : Heap) (p : Ptr) (s : Nat) :
    precn_new h p (s : Int) p = ⟨0, max s 1, List.replicate (max s 1) 0⟩ := by
  unfold precn_new
  simp only [Function.update_same]
  by_cases hs : 0 < s
  · have e : max s 1 = s := by omega
    rw [if_pos (by exact_mod_cast hs), e]
    simp
  · have e : max s 1 = 1 := by omega
    rw [if_neg (by omega), e]

theorem Wf_new (s : Nat) : Wf ⟨0, max s 1, List.replicate (max s 1) 0⟩ := by
  refine ⟨by simp, Nat.le_max_right _ _, Nat.zero_le _, ?_⟩
  intro w hw
  rw [List.eq_of_mem_replicate hw]
  positivity

theorem precn_new_other (h : Heap) {p t : Ptr} (size : Int) (hpt : p ≠ t) :
    precn_new h t size p = h p := by
  unfold precn_new
  exact Function.update_noteq hpt _ _

theorem precn_free_other (h : Heap) {p t : Ptr} (hpt : p ≠ t) : precn_free h t p = h p := by
  unfold precn_free
  exact Function.update_noteq hpt _ _

theorem euclid_unique {a b Q R : Nat} (h1 : Q * b + R = a) (h2 : R < b) :
    Q = a / b ∧ R = a % b := by
  have hb : 0 < b := by omega
  have := (Nat.div_mod_unique hb).2 ⟨show R + b * Q = a by rw [Nat.mul_comm]; omega, h2⟩
  exact ⟨this.1.symm, this.2.symm⟩

/-- `precn_div`: the scratch remainder made by `precn_new(dividend->siz)` is always large
enough for the long division. -/
theorem precn_div_spec (junk : Nat → Nat) (h : Heap) (tmp q a b : Ptr)
    (htq : tmp ≠ q) (hta : tmp ≠ a) (htb : tmp ≠ b) (hqa : q ≠ a) (hqb : q ≠ b)
    (hq : Wf (h q)) (ha : Wf (h a)) (hb : Wf (h b)) (hsiz : (h b).siz ≠ 0) :
    ∃ h2, precn_div junk h tmp q a b = some (h2, 0) ∧ Wf (h2 q) ∧ Normalized (h2 q) ∧
      h2 a = nzObj (h a) ∧ h2 b = nzObj (h b) ∧
      (value (h b) ≠ 0 → nlen (h a) ≤ (h q).alloc_size →
        value (h2 q) = value (h a) / value (h b)) := by
  unfold precn_div
  generalize hh1 : precn_new h tmp ((h a).siz : Int) = h1
  have h1t : h1 tmp = ⟨0, max (h a).siz 1, List.replicate (max (h a).siz 1) 0⟩ := by
    rw [← hh1]; exact precn_new_obj h tmp _
  have h1q : h1 q = h q := by rw [← hh1]; exact precn_new_other h _ (Ne.symm htq)
  have h1a : h1 a = h a := by rw [← hh1]; exact precn_new_other h _ (Ne.symm hta)
  have h1b : h1 b = h b := by rw [← hh1]; exact precn_new_other h _ (Ne.symm htb)
  obtain ⟨h2, he, hfr, hwq, _, hnq, _, _, _, _, hfun⟩ := precn_divmod_spec junk h1 q tmp a b
    (Ne.symm htq) hqa hqb hta htb (by rw [h1q]; exact hq) (by rw [h1t]; exact Wf_new _)
    (by rw [h1a]; exact ha) (by rw [h1b]; exact hb) (by rw [h1b]; exact hsiz)
  simp only [he, Option.bind_eq_bind, Option.some_bind, Option.pure_def]
  have hfq : precn_free h2 tmp q = h2 q := precn_free_other h2 (Ne.symm htq)
  refine ⟨_, rfl, by rw [hfq]; exact hwq, by rw [hfq]; exact hnq, ?_, ?_, ?_⟩
  · rw [precn_free_other h2 (Ne.symm hta), hfr a (Ne.symm hqa) (Ne.symm hta), cmpHeap_left, h1a]
  · rw [precn_free_other h2 (Ne.symm htb), hfr b (Ne.symm hqb) (Ne.symm htb), cmpHeap_right,
      h1b]
  · intro hvb hcap
    rw [h1a, h1b, h1q, h1t] at hfun
    obtain ⟨e1, e2⟩ := hfun hvb hcap (Or.inl (by
      show nlen (h a) ≤ max (h a).siz 1
      have := nlen_le_siz (h a); omega))
    rw [hfq]
    exact (euclid_unique e1 e2).1

/-- `precn_mod`: the scratch quotient made by `precn_new(dividend->siz)` is always large
enough; the remainder object is the caller's. -/
theorem precn_mod_spec (junk : Nat → Nat) (h : Heap) (tmp r a b : Ptr)
    (htr : tmp ≠ r) (hta : tmp ≠ a) (htb : tmp ≠ b) (hra : r ≠ a) (hrb : r ≠ b)
    (hr : Wf (h r)) (ha : Wf (h a)) (hb : Wf (h b)) (hsiz : (h b).siz ≠ 0) :
    ∃ h2, precn_mod junk h tmp r a b = some (h2, 0) ∧ Wf (h2 r) ∧ Normalized (h2 r) ∧
      h2 a = nzObj (h a) ∧ h2 b = nzObj (h b) ∧
      (value (h b) ≠ 0 →
        (nlen (h a) ≤ (h r).alloc_size ∨ nlen (h b) + 1 ≤ (h r).alloc_size) →
        value (h2 r) = value (h a) % value (h b)) := by
  unfold precn_mod
  generalize hh1 : precn_new h tmp ((h a).siz : Int) = h1
  have h1t : h1 tmp = ⟨0, max (h a).siz 1, List.replicate (max (h a).siz 1) 0⟩ := by
    rw [← hh1]; exact precn_new_obj h tmp _
  have h1r : h1 r = h r := by rw [← hh1]; exact precn_new_other h _ (Ne.symm htr)
  have h1a : h1 a = h a := by rw [← hh1]; exact precn_new_other h _ (Ne.symm hta)
  have h1b : h1 b = h b := by rw [← hh1]; exact precn_new_other h _ (Ne.symm htb)
  obtain ⟨h2, he, hfr, _, hwr, _, hnr, _, _, _, hfun⟩ := precn_divmod_spec junk h1 tmp r a b
    htr hta htb hra hrb (by rw [h1t]; exact Wf_new _) (by rw [h1r]; exact hr)
    (by rw [h1a]; exact ha) (by rw [h1b]; exact hb) (by rw [h1b]; exact hsiz)
  simp only [he, Option.bind_eq_bind, Option.some_bind, Option.pure_def]
  have hfq : precn_free h2 tmp r = h2 r := precn_free_other h2 (Ne.symm htr)
  refine ⟨_, rfl, by rw [hfq]; exact hwr, by rw [hfq]; exact hnr, ?_, ?_, ?_⟩
  · rw [precn_free_other h2 (Ne.symm hta), hfr a (Ne.symm hta) (Ne.symm hra), cmpHeap_left, h1a]
  · rw [precn_free_other h2 (Ne.symm htb), hfr b (Ne.symm htb) (Ne.symm hrb), cmpHeap_right,
      h1b]
  · intro hvb hcap
    rw [h1a, h1b, h1r, h1t] at hfun
    obtain ⟨e1, e2⟩ := hfun hvb (by
      show nlen (h a) ≤ max (h a).siz 1
      have := nlen_le_siz (h a); omega) hcap
    rw [hfq]
    exact (euclid_unique e1 e2).2

/-- `precn_set_u32` on a well-formed object. -/
theorem precn_set_u32_spec (h : Heap) (n : Ptr) (val : Nat) (hn : Wf (h n)) :
    ∃ o, precn_set_u32 h n val = some (Function.update h n o) ∧ Normalized o ∧
      o.alloc_size = (h n).alloc_size ∧ value o = val ∧ (val < 2 ^ 32 → Wf o) := by
  unfold precn_set_u32
  rw [precn_zero_eq h n hn.1]
  simp only [Option.bind_eq_bind, Option.some_bind]
  have hwz := Wf_zero hn
  by_cases hv : val = 0
  · subst hv
    refine ⟨{ clearObj (h n) (h n).alloc_size with siz := 0 }, by simp, Or.inl rfl, rfl,
      value_zero_siz rfl, fun _ => hwz⟩
  · have hlen : 0 < ({ clearObj (h n) (h n).alloc_size with siz := 0 } : precn_struct).a.length := by
      rw [hwz.1]; exact hwz.2.1
    rw [if_pos hv, store_eq val (by simpa using hlen)]
    simp only [Option.some_bind, Option.pure_def, set_siz_eq, Function.update_same,
      Function.update_idem]
    have hwd : ∀ j, wd (setWord { clearObj (h n) (h n).alloc_size with siz := 0 } 0 val) j =
        if j = 0 then val else 0 := by
      intro j
      rw [wd_setWord _ _ _ _ hlen, wd_zero hn.1]
    refine ⟨_, rfl, ?_, rfl, ?_, ?_⟩
    · right
      show wd (setWord { clearObj (h n) (h n).alloc_size with siz := 0 } 0 val) 0 ≠ 0
      rw [hwd 0, if_pos rfl]; exact hv
    · rw [value_eq_valN]
      show valN (wd (setWord { clearObj (h n) (h n).alloc_size with siz := 0 } 0 val)) 1 = val
      simp [valN, hwd]
    · intro hlt
      apply Wf_of
      · show (setWord _ 0 val).a.length = (h n).alloc_size
        rw [setWord_length]; exact hwz.1
      · exact hn.2.1
      · exact hn.2.1
      · intro j
        show wd (setWord { clearObj (h n) (h n).alloc_size with siz := 0 } 0 val) j < 2 ^ 32
        rw [hwd j]
        split
        · exact hlt
        · positivity

/-! ### Uniqueness of the normalized representation -/

theorem valN_inj {f g : Nat → Nat} (hf : ∀ i, f i < 2 ^ 32) (hg : ∀ i, g i < 2 ^ 32) :
    ∀ n, valN f n = valN g n → ∀ j, j < n → f j = g j := by
  intro n
  induction n with
  | zero => intro _ j hj; omega
  | succ n ih =>
    intro he j hj
    simp only [valN] at he
    have h1 := valN_lt hf n
    have h2 := valN_lt hg n
    have hp : 0 < 2 ^ (32 * n) := Nat.pow_pos (by norm_num)
    have hd : f n = g n := by
      have e1 : (valN f n + f n * 2 ^ (32 * n)) / 2 ^ (32 * n) = f n := by
        rw [Nat.add_mul_div_right _ _ hp, Nat.div_eq_of_lt h1, Nat.zero_add]
      have e2 : (valN g n + g n * 2 ^ (32 * n)) / 2 ^ (32 * n) = g n := by
        rw [Nat.add_mul_div_right _ _ hp, Nat.div_eq_of_lt h2, Nat.zero_add]
      rw [← e1, ← e2, he]
    rcases Nat.lt_succ_iff_lt_or_eq.1 hj with hlt | heq
    · apply ih _ j hlt
      rw [hd] at he
      omega
    · rw [heq]; exact hd

theorem take_eq_of_wd {x y : precn_struct} {s : Nat} (hx : s ≤ x.a.length)
    (hy : s ≤ y.a.length) (hw : ∀ j, j < s → wd x j = wd y j) : x.a.take s = y.a.take s := by
  apply List.ext_getElem
  · simp only [List.length_take]; omega
  · intro j h1 h2
    simp only [List.length_take] at h1 h2
    have hj : j < s := by omega
    have := hw j hj
    unfold wd at this
    rw [List.getD_eq_getElem x.a 0 (by omega), List.getD_eq_getElem y.a 0 (by omega)] at this
    simp only [List.getElem_take]
    exact this

/-- Two well-formed normalized objects of equal value have the same `siz` and the same
words below it. -/
theorem norm_unique {x y : precn_struct} (hx : Wf x) (hy : Wf y) (nx : Normalized x)
    (ny : Normalized y) (hv : value x = value y) :
    x.siz = y.siz ∧ (∀ j, j < x.siz → wd x j = wd y j) ∧ x.a.take x.siz = y.a.take y.siz := by
  have hs : x.siz = y.siz :=
    Nat.le_antisymm (siz_le_of_value_le hy nx (by omega)) (siz_le_of_value_le hx ny (by omega))
  have hw : ∀ j, j < x.siz → wd x j = wd y j := by
    rw [value_eq_valN, value_eq_valN, ← hs] at hv
    exact valN_inj (wd_lt_of_Wf hx) (wd_lt_of_Wf hy) _ hv
  refine ⟨hs, hw, ?_⟩
  rw [← hs]
  exact take_eq_of_wd (Wf_siz_le hx) (by rw [hs]; exact Wf_siz_le hy) hw

/-- A normalized object of value zero has `siz = 0`. -/
theorem siz_zero_of_value {x : precn_struct} (nx : Normalized x) (hv : value x = 0) :
    x.siz = 0 := by
  rcases nx with h0 | h1
  · exact h0
  · by_contra hne
    have := valN_top_le (f := wd x) (Nat.pos_of_ne_zero hne) h1
    rw [← value_eq_valN, hv] at this
    have : 0 < 2 ^ (32 * (x.siz - 1)) := Nat.pow_pos (by norm_num)
    omega

/-- The trimmed length is the least `s` with only zero words from `s` up to the old
length. -/
theorem normLen_least {f : Nat → Nat} {n s : Nat} (hz : ∀ j, s ≤ j → j < n → f j = 0) :
    normLen f n ≤ s := by
  by_contra hlt
  have hle := normLen_le f n
  rcases normLen_top f n with h0 | h1
  · omega
  · exact h1 (hz _ (by omega) (by omega))

/-! ### `precn_mul` with the result object among the operands -/

theorem forUp_fix {σ : Type} (body : Nat → σ → Option σ) (s : σ) :
    ∀ (n k : Nat), (∀ i, k ≤ i → i < k + n → body i s = some s) →
      forUp body n k s = some s := by
  intro n
  induction n with
  | zero => intro k _; rfl
  | succ n ih =>
    intro k hb
    simp only [forUp]
    rw [hb k (Nat.le_refl _) (by omega)]
    simp only [Option.some_bind]
    exact ih (k + 1) (fun i h1 h2 => hb i (by omega) (by omega))

theorem store_zero_self {h : Heap} {p : Ptr} {k : Nat} (hk : k < (h p).a.length)
    (hz : wd (h p) k = 0) : store h p k 0 = some h := by
  unfold store
  rw [if_pos hk]
  congr 1
  have hset : (h p).a.set k 0 = (h p).a := by
    unfold wd at hz
    rw [List.getD_eq_getElem _ _ hk] at hz
    apply List.ext_getElem
    · simp
    · intro j h1 h2
      rw [List.getElem_set]
      split
      · next e => subst e; exact hz.symm
      · rfl
  rw [hset]
  exact Function.update_eq_self p h

theorem precn_mul_inner_alias (res a b : Ptr) (h : Heap) (n m i j : Nat)
    (hal : res = a ∨ res = b) (hn : n ≤ (h a).a.length) (hm : m ≤ (h b).a.length)
    (hlen : n + m ≤ (h res).a.length) (hz : ∀ k, k < n + m → wd (h res) k = 0)
    (hi : i < n) (hj : j < m) :
    precn_mul_inner res a b i j (h, 0) = some (h, 0) := by
  unfold precn_mul_inner
  show (load h a i).bind _ = _
  rw [load_eq (by omega : i < (h a).a.length)]
  show (load h b j).bind _ = _
  rw [load_eq (by omega : j < (h b).a.length)]
  show (load h res (i + j)).bind _ = _
  rw [load_eq (by omega : i + j < (h res).a.length)]
  have hxy : wd (h a) i * wd (h b) j = 0 := by
    rcases hal with e | e
    · subst e; rw [hz i (by omega)]; simp
    · subst e; rw [hz j (by omega)]; simp
  simp only [Option.some_bind, Option.bind_eq_bind, hxy, hz (i + j) (by omega)]
  have h0 : u64 (u64 (u64 0 + 0) + 0) = 0 := by decide
  rw [h0]
  have h1 : u32 0 = 0 := by decide
  rw [h1, store_zero_self (by omega) (hz (i + j) (by omega))]
  rfl

/-- In `precn_mul(res, a, b)` with `res` one of the operands, the `memset` of the result
words clears that operand before the loops read it: every product word is zero and the
call leaves the value zero in `res`. -/
theorem precn_mul_alias (junk : Nat → Nat) (h : Heap) (res a b : Ptr)
    (hal : res = a ∨ res = b) (hr : Wf (h res)) (ha : Wf (h a)) (hb : Wf (h b)) :
    ∃ o, precn_mul junk h res a b = some (Function.update h res o) ∧ Wf o ∧ o.siz = 0 ∧
      value o = 0 ∧ o.alloc_size = max (h res).alloc_size ((h a).siz + (h b).siz) := by
  unfold precn_mul
  simp only [ensure_eq]
  generalize hsz : (h a).siz + (h b).siz = sz
  have hwe := Wf_ensureObj junk sz hr
  have hle := ensureObj_le junk (h res) sz hr.1
  rw [memset0_eq _ _ _ (by simpa using hle)]
  simp only [Function.update_same, Function.update_idem, Option.bind_eq_bind, Option.some_bind]
  generalize hh2 : Function.update h res (clearObj (ensureObj junk (h res) sz) sz) = h2
  have h2res : h2 res = clearObj (ensureObj junk (h res) sz) sz := by rw [← hh2]; simp
  have h2len : (h2 res).a.length = (ensureObj junk (h res) sz).a.length := by
    rw [h2res]; exact clearObj_length _ _ hle
  have h2alloc : (h2 res).alloc_size = max (h res).alloc_size sz := by
    rw [h2res]; exact ensureObj_alloc junk _ _
  have h2z : ∀ k, k < (h a).siz + (h b).siz → wd (h2 res) k = 0 := by
    intro k hk; rw [h2res, wd_clearObj, if_pos (by omega)]
  have h2l : (h a).siz + (h b).siz ≤ (h2 res).a.length := by rw [h2len, hsz]; exact hle
  have h2o : ∀ p, Wf (h p) → (h p).siz ≤ (h a).siz + (h b).siz → (h p).siz ≤ (h2 p).a.length := by
    intro p hp hps
    by_cases e : p = res
    · subst e; omega
    · rw [← hh2, Function.update_noteq e]; exact Wf_siz_le hp
  have h2w : ∀ j, wd (h2 res) j < 2 ^ 32 := by
    intro j
    rw [h2res, wd_clearObj]
    split
    · positivity
    · exact wd_lt_of_Wf hwe j
  have hloop : forUp (precn_mul_outer res a b (h b).siz) (h a).siz 0 h2 = some h2 := by
    apply forUp_fix
    intro i _ hi
    unfold precn_mul_outer
    rw [forUp_fix (precn_mul_inner res a b i) (h2, 0) (h b).siz 0 (fun j _ hj =>
      precn_mul_inner_alias res a b h2 _ _ i j hal (h2o a ha (by omega)) (h2o b hb (by omega))
        h2l h2z (by omega) (by omega))]
    simp only [Option.bind_eq_bind, Option.some_bind]
    have h1 : u32 0 = 0 := by decide
    rw [h1]
    exact store_zero_self (by omega) (h2z _ (by omega))
  rw [hloop]
  obtain ⟨hwf, hnorm⟩ := frame_finish (Frame_refl h2 res)
    (by rw [h2len, h2alloc, hwe.1, ensureObj_alloc])
    (by rw [h2alloc]; exact Nat.le_trans hr.2.1 (Nat.le_max_left _ _)) h2w sz
    (by rw [h2alloc]; exact Nat.le_max_right _ _)
  have hupd : ∀ o, Function.update h2 res o = Function.update h res o := by
    intro o; rw [← hh2, Function.update_idem]
  have hs0 : (nzObj { h2 res with siz := sz }).siz = 0 := by
    show normLen (wd { h2 res with siz := sz }) sz = 0
    have := normLen_least (f := wd { h2 res with siz := sz }) (n := sz) (s := 0)
      (fun j _ hj => h2z j (by omega))
    omega
  refine ⟨nzObj { h2 res with siz := sz }, ?_, Wf_nzObj hwf, hs0, value_zero_siz hs0, ?_⟩
  · simp only [Option.some_bind, hnorm, hupd]
  · show (h2 res).alloc_size = _
    rw [h2alloc]

/-! ### The wrappers `precn_div` and `precn_mod` on a divisor with `siz = 0` -/

theorem precn_div_zero_siz (junk : Nat → Nat) (h : Heap) (tmp q a b : Ptr)
    (htb : tmp ≠ b) (hb : (h b).siz = 0) :
    precn_div junk h tmp q a b =
      some (precn_free (precn_new h tmp ((h a).siz : Int)) tmp, -1) := by
  have hnew : (precn_new h tmp ((h a).siz : Int) b).siz = 0 := by
    rw [precn_new_other h _ (Ne.symm htb)]; exact hb
  unfold precn_div precn_divmod
  simp only [hnew, if_true, Option.pure_def, Option.bind_eq_bind, Option.some_bind]

theorem precn_mod_zero_siz (junk : Nat → Nat) (h : Heap) (tmp r a b : Ptr)
    (htb : tmp ≠ b) (hb : (h b).siz = 0) :
    precn_mod junk h tmp r a b =
      some (precn_free (precn_new h tmp ((h a).siz : Int)) tmp, -1) := by
  have hnew : (precn_new h tmp ((h a).siz : Int) b).siz = 0 := by
    rw [precn_new_other h _ (Ne.symm htb)]; exact hb
  unfold precn_mod precn_divmod
  simp only [hnew, if_true, Option.pure_def, Option.bind_eq_bind, Option.some_bind]

theorem free_new_other (h : Heap) {p t : Ptr} (size : Int) (hpt : p ≠ t) :
    precn_free (precn_new h t size) t p = h p := by
  rw [precn_free_other _ hpt, precn_new_other _ _ hpt]

/-- The object `precn_new` makes is well-formed for every capacity hint. -/
theorem Wf_precn_new (h : Heap) (p : Ptr) (size : Int) : Wf (precn_new h p size p) := by
  unfold precn_new
  simp only [Function.update_same]
  have hn : 1 ≤ (if size > 0 then size.toNat else 1) := by
    split
    · omega
    · exact Nat.le_refl _
  generalize (if size > 0 then size.toNat else 1) = n at hn
  refine ⟨by simp, hn, Nat.zero_le _, fun w hw => ?_⟩
  rw [List.eq_of_mem_replicate hw]
  positivity

/-- An object that `precn_sub`, `precn_divmod`, ... only normalized or left alone is still
well-formed. -/
theorem Wf_update_cmpHeap {h : Heap} (a b res : Ptr) {o : precn_struct} (ho : Wf o) {p : Ptr}
    (hp : Wf (h p)) : Wf (Function.update (cmpHeap h a b) res o p) := by
  by_cases e : p = res
  · subst e; simp only [Function.update_same]; exact ho
  · rw [Function.update_noteq e]; exact Wf_cmpHeap a b hp

theorem Wf_update {h : Heap} (res : Ptr) {o : precn_struct} (ho : Wf o) {p : Ptr}
    (hp : Wf (h p)) : Wf (Function.update h res o p) := by
  by_cases e : p = res
  · subst e; simp only [Function.update_same]; exact ho
  · rw [Function.update_noteq e]; exact hp

/-! ### The 64-bit accumulators of `precn_mul` and `precn_add` -/

/-- One step of the inner loop of `precn_mul` on 32-bit words and a 32-bit carry: the
three `u64` truncations of the model change nothing. -/
theorem precn_mul_inner_eq (res a b : Ptr) (h : Heap) (i j x y z k : Nat)
    (hx : x < 2 ^ 32) (hy : y < 2 ^ 32) (hz : z < 2 ^ 32) (hk : k < 2 ^ 32)
    (h1 : load h a i = some x) (h2 : load h b j = some y) (h3 : load h res (i + j) = some z) :
    precn_mul_inner res a b i j (h, k) =
      (store h res (i + j) ((x * y + z + k) % 2 ^ 32)).map
        (fun g => (g, (x * y + z + k) / 2 ^ 32)) := by
  unfold precn_mul_inner
  show (load h a i).bind _ = _
  rw [h1]
  show (load h b j).bind _ = _
  rw [h2]
  show (load h res (i + j)).bind _ = _
  rw [h3]
  simp only [Option.some_bind, Option.bind_eq_bind, (mul_column x y z k hx hy hz hk).1,
    Nat.shiftRight_eq_div_pow]
  unfold u32
  cases store h res (i + j) ((x * y + z + k) % 2 ^ 32) <;> rfl

/-- One column of `precn_add` on 32-bit words and a carry of 0 or 1: the two `u64`
truncations of the model change nothing. -/
theorem precn_add_body_eq (res a b : Ptr) (h : Heap) (i av bv c : Nat)
    (hav : av < 2 ^ 32) (hbv : bv < 2 ^ 32) (hc : c ≤ 1)
    (h1 : (if i < (h a).siz then load h a i else some 0) = some av)
    (h2 : (if i < (h b).siz then load h b i else some 0) = some bv) :
    precn_add_body res a b i (h, c) =
      (store h res i ((av + bv + c) % 2 ^ 32)).map (fun g => (g, (av + bv + c) / 2 ^ 32)) := by
  unfold precn_add_body
  show (if i < (h a).siz then load h a i else some 0).bind _ = _
  rw [h1]
  show (if i < (h b).siz then load h b i else some 0).bind _ = _
  rw [h2]
  simp only [Option.some_bind, Option.bind_eq_bind, (add_column av bv c hav hbv hc).1,
    Nat.shiftRight_eq_div_pow]
  unfold u32
  cases store h res i ((av + bv + c) % 2 ^ 32) <;> rfl

/-- The carry that leaves the inner loop of `precn_mul` is a 32-bit number, whatever the
aliasing of `res` with `a` and `b`. -/
theorem precn_mul_inner_carry (res a b : Ptr) (h : Heap) (i m : Nat)
    (hw : ∀ p j, wd (h p) j < 2 ^ 32)
    (hia : i < (h a).a.length) (hmb : m ≤ (h b).a.length) (hlen : i + m ≤ (h res).a.length) :
    ∃ s, forUp (precn_mul_inner res a b i) m 0 (h, 0) = some s ∧ s.2 < 2 ^ 32 ∧
      u32 s.2 = s.2 := by
  have key := forUp_inv (precn_mul_inner res a b i)
    (fun _ s => (∀ p, (s.1 p).a.length = (h p).a.length) ∧ (∀ p j, wd (s.1 p) j < 2 ^ 32) ∧
      s.2 < 2 ^ 32)
    m 0 (h, 0) ⟨fun _ => rfl, hw, by positivity⟩ ?_
  · obtain ⟨s, hs, _, _, hc⟩ := key
    exact ⟨s, hs, hc, Nat.mod_eq_of_lt hc⟩
  · rintro j ⟨g, k⟩ _ hj ⟨hl, hg, hk⟩
    simp only at hl hg hk
    have hjm : j < m := by omega
    have la : i < (g a).a.length := by rw [hl]; exact hia
    have lb : j < (g b).a.length := by rw [hl]; omega
    have lr : i + j < (g res).a.length := by rw [hl]; omega
    rw [precn_mul_inner_eq res a b g i j _ _ _ k (hg a i) (hg b j) (hg res (i + j)) hk
      (load_eq la) (load_eq lb) (load_eq lr), store_eq _ lr]
    refine ⟨_, rfl, ?_, ?_, ?_⟩
    · intro p
      by_cases e : p = res
      · subst e; simp only [Function.update_same, setWord_length]; exact hl p
      · simp only [Function.update_noteq e]; exact hl p
    · intro p t
      by_cases e : p = res
      · subst e
        simp only [Function.update_same]
        rw [wd_setWord _ _ _ _ lr]
        split
        · exact Nat.mod_lt _ (by positivity)
        · exact hg p t
      · simp only [Function.update_noteq e]; exact hg p t
    · have := (mul_column _ _ _ k (hg a i) (hg b j) (hg res (i + j)) hk).2.1
      rw [Nat.shiftRight_eq_div_pow] at this
      exact this

/-! ## The operations compute what they should -/

/-- C4: for well-formed `a`, `b` and a result object distinct from both, `precn_add`
returns and leaves `value(res) = value(a) + value(b)` (the carry out of the top column
included). -/
theorem precn_add_value (junk : Nat → Nat) (h : Heap) (res a b : Ptr)
    (hra : res ≠ a) (hrb : res ≠ b) (hr : Wf (h res)) (ha : Wf (h a)) (hb : Wf (h b)) :
    (precn_add junk h res a b).map (fun h1 => (value (h1 res), h1 a, h1 b)) =
      some (value (h a) + value (h b), h a, h b) := by
  obtain ⟨o, he, _, _, hv, _⟩ := precn_add_spec junk h res a b hr ha hb
  rw [he]
  simp [hv, Function.update_noteq (Ne.symm hra), Function.update_noteq (Ne.symm hrb)]

/-- C4, the example `0xFFFFFFFF + 1 = [0x00000000, 0x00000001]`, with a result object of
capacity 1 that has to grow. -/
theorem precn_add_value_witness :
    (Wf (heapOf [⟨0, 1, [7]⟩, ⟨1, 1, [0xFFFFFFFF]⟩, ⟨1, 1, [1]⟩] 0) ∧
      (precn_add (fun _ => 5) (heapOf [⟨0, 1, [7]⟩, ⟨1, 1, [0xFFFFFFFF]⟩, ⟨1, 1, [1]⟩]) 0 1 2).map
        (fun h1 => ((h1 0).siz, (h1 0).a)) = some (2, [0, 1])) ∧
    (precn_add (fun _ => 5) (heapOf [⟨0, 1, [7]⟩, ⟨1, 1, [0xFFFFFFFF]⟩, ⟨1, 1, [1]⟩]) 0 1 2).map
        (fun h1 => (value (h1 0), h1 1, h1 2)) =
      some (value (heapOf [⟨0, 1, [7]⟩, ⟨1, 1, [0xFFFFFFFF]⟩, ⟨1, 1, [1]⟩] 1) +
        value (heapOf [⟨0, 1, [7]⟩, ⟨1, 1, [0xFFFFFFFF]⟩, ⟨1, 1, [1]⟩] 2),
        heapOf [⟨0, 1, [7]⟩, ⟨1, 1, [0xFFFFFFFF]⟩, ⟨1, 1, [1]⟩] 1,
        heapOf [⟨0, 1, [7]⟩, ⟨1, 1, [0xFFFFFFFF]⟩, ⟨1, 1, [1]⟩] 2) :=
  ⟨⟨by decide, by decide⟩,
    precn_add_value _ _ 0 1 2 (by decide) (by decide) (by decide) (by decide) (by decide)⟩

/-- C5: for well-formed `a` and `b`, in either order of magnitude and whatever the
aliasing, `precn_sub` returns and leaves `value(res) = |value(a) - value(b)|`. -/
theorem precn_sub_value (junk : Nat → Nat) (h : Heap) (res a b : Ptr)
    (hr : Wf (h res)) (ha : Wf (h a)) (hb : Wf (h b)) :
    (precn_sub junk h res a b).map (fun h1 => (value (h1 res) : Int)) =
      some |(value (h a) : Int) - (value (h b) : Int)| := by
  obtain ⟨o, he, _, _, hv, _⟩ := precn_sub_spec junk h res a b hr ha hb
  rw [he]
  simp [hv]

/-- C5, the example `[1] - [0,0,1] = [0xFFFFFFFF, 0xFFFFFFFF]`: the smaller operand comes
first and the borrow crosses two word boundaries. -/
theorem precn_sub_value_witness :
    (Wf (heapOf [⟨0, 1, [7]⟩, ⟨1, 1, [1]⟩, ⟨3, 3, [0, 0, 1]⟩] 2) ∧
      (precn_sub (fun _ => 5) (heapOf [⟨0, 1, [7]⟩, ⟨1, 1, [1]⟩, ⟨3, 3, [0, 0, 1]⟩]) 0 1 2).map
        (fun h1 => ((h1 0).siz, (h1 0).a.take 2)) = some (2, [0xFFFFFFFF, 0xFFFFFFFF])) ∧
    (precn_sub (fun _ => 5) (heapOf [⟨0, 1, [7]⟩, ⟨1, 1, [1]⟩, ⟨3, 3, [0, 0, 1]⟩]) 0 1 2).map
        (fun h1 => (value (h1 0) : Int)) =
      some |(value (heapOf [⟨0, 1, [7]⟩, ⟨1, 1, [1]⟩, ⟨3, 3, [0, 0, 1]⟩] 1) : Int) -
        (value (heapOf [⟨0, 1, [7]⟩, ⟨1, 1, [1]⟩, ⟨3, 3, [0, 0, 1]⟩] 2) : Int)| :=
  ⟨⟨by decide, by decide⟩, precn_sub_value _ _ 0 1 2 (by decide) (by decide) (by decide)⟩

/-- C6: for well-formed `a`, `b` and a result object distinct from both, `precn_mul`
returns and leaves `value(res) = value(a) * value(b)`. -/
theorem precn_mul_value (junk : Nat → Nat) (h : Heap) (res a b : Ptr)
    (hra : res ≠ a) (hrb : res ≠ b) (hr : Wf (h res)) (ha : Wf (h a)) (hb : Wf (h b)) :
    (precn_mul junk h res a b).map (fun h1 => (value (h1 res), h1 a, h1 b)) =
      some (value (h a) * value (h b), h a, h b) := by
  obtain ⟨o, he, _, _, hv, _⟩ := precn_mul_spec junk h res a b hra hrb hr ha hb
  rw [he]
  simp [hv, Function.update_noteq (Ne.symm hra), Function.update_noteq (Ne.symm hrb)]

/-- C6, the example `42 * 17 = 714`. -/
theorem precn_mul_value_witness :
    ((0 : Ptr) ≠ 1 ∧
      (precn_mul (fun _ => 5) (heapOf [⟨0, 1, [7]⟩, ⟨1, 1, [42]⟩, ⟨1, 1, [17]⟩]) 0 1 2).map
        (fun h1 => ((h1 0).siz, (h1 0).a.take 1)) = some (1, [714])) ∧
    (precn_mul (fun _ => 5) (heapOf [⟨0, 1, [7]⟩, ⟨1, 1, [42]⟩, ⟨1, 1, [17]⟩]) 0 1 2).map
        (fun h1 => (value (h1 0), h1 1, h1 2)) =
      some (value (heapOf [⟨0, 1, [7]⟩, ⟨1, 1, [42]⟩, ⟨1, 1, [17]⟩] 1) *
        value (heapOf [⟨0, 1, [7]⟩, ⟨1, 1, [42]⟩, ⟨1, 1, [17]⟩] 2),
        heapOf [⟨0, 1, [7]⟩, ⟨1, 1, [42]⟩, ⟨1, 1, [17]⟩] 1,
        heapOf [⟨0, 1, [7]⟩, ⟨1, 1, [42]⟩, ⟨1, 1, [17]⟩] 2) :=
  ⟨⟨by decide, by decide⟩,
    precn_mul_value _ _ 0 1 2 (by decide) (by decide) (by decide) (by decide) (by decide)⟩

/-- C7: for well-formed `a` and `b`, normalized or not, `precn_cmp` returns -1 when
`value(a) < value(b)`, 0 when the values are equal, 1 when `value(a) > value(b)`. -/
theorem precn_cmp_result (h : Heap) (a b : Ptr) (ha : Wf (h a)) (hb : Wf (h b)) :
    (precn_cmp h a b).map Prod.snd =
      some (if value (h a) < value (h b) then -1
        else if value (h a) = value (h b) then 0 else 1) := by
  rw [precn_cmp_eq h a b ha hb]
  simp only [Option.map_some', cmp3]
  congr 1
  by_cases h1 : value (h a) < value (h b)
  · rw [if_pos h1, if_pos h1]
  · rw [if_neg h1, if_neg h1]
    by_cases h2 : value (h a) = value (h b)
    · rw [if_pos h2, if_neg (by omega)]
    · rw [if_neg h2, if_pos (by omega)]

/-- C7, the example of `[5, 0]` with `siz = 2` against `[6]`: the zero word at the top
does not make the first operand the larger one. -/
theorem precn_cmp_result_witness :
    Wf (heapOf [⟨2, 2, [5, 0]⟩, ⟨1, 1, [6]⟩] 0) ∧
    (precn_cmp (heapOf [⟨2, 2, [5, 0]⟩, ⟨1, 1, [6]⟩]) 0 1).map Prod.snd =
      some (if value (heapOf [⟨2, 2, [5, 0]⟩, ⟨1, 1, [6]⟩] 0) <
          value (heapOf [⟨2, 2, [5, 0]⟩, ⟨1, 1, [6]⟩] 1) then -1
        else if value (heapOf [⟨2, 2, [5, 0]⟩, ⟨1, 1, [6]⟩] 0) =
          value (heapOf [⟨2, 2, [5, 0]⟩, ⟨1, 1, [6]⟩] 1) then 0 else 1) :=
  ⟨by decide, precn_cmp_result _ 0 1 (by decide) (by decide)⟩

theorem copyObj_take (junk : Nat → Nat) {d s : precn_struct} (hs : Wf s) :
    (copyObj junk d s).a.take (copyObj junk d s).siz = s.a.take s.siz := by
  have hlen : (s.a.take s.siz).length = s.siz := by
    rw [List.length_take]; have := Wf_siz_le hs; omega
  show (s.a.take s.siz ++ (ensureObj junk d s.siz).a.drop s.siz).take s.siz = _
  rw [List.take_append_of_le_length (by omega), List.take_take]
  simp

/-- C8: for a well-formed `a`, a result object distinct from it and every bit count `n`
(zero, a multiple of 32 or not), `precn_shl` returns and leaves
`value(res) = value(a) * 2^n`, `a` unchanged; for `n = 0` the result has the `siz` and the
significant words of `a`. -/
theorem precn_shl_value (junk : Nat → Nat) (h : Heap) (res a : Ptr) (n : Nat)
    (hra : res ≠ a) (hr : Wf (h res)) (ha : Wf (h a)) :
    (precn_shl junk h res a n).map (fun h1 => (value (h1 res), h1 a)) =
        some (value (h a) * 2 ^ n, h a) ∧
      (precn_shl junk h res a 0).map (fun h1 => ((h1 res).siz, (h1 res).a.take (h1 res).siz)) =
        some ((h a).siz, (h a).a.take (h a).siz) := by
  constructor
  · obtain ⟨o, he, _, _, hv, _⟩ := precn_shl_spec junk h res a n hra hr ha
    rw [he]
    simp [hv, Function.update_noteq (Ne.symm hra)]
  · obtain ⟨o, he, _, _, _, ho, _⟩ := precn_shl_spec junk h res a 0 hra hr ha
    rw [he, ho rfl]
    have := copyObj_take junk (d := h res) ha
    rw [copyObj_siz] at this
    simp [copyObj_siz, this]

/-- C8, the example `[0x80000001, 0xF0000000] << 36 = [0, 0x10, 0x8, 0xF]`: one whole word
and four bits. -/
theorem precn_shl_value_witness :
    ((0 : Ptr) ≠ 1 ∧
      (precn_shl (fun _ => 5) (heapOf [⟨0, 1, [7]⟩, ⟨2, 2, [0x80000001, 0xF0000000]⟩]) 0 1 36).map
        (fun h1 => ((h1 0).siz, (h1 0).a)) = some (4, [0, 0x10, 0x8, 0xF])) ∧
    ((precn_shl (fun _ => 5) (heapOf [⟨0, 1, [7]⟩, ⟨2, 2, [0x80000001, 0xF0000000]⟩]) 0 1 36).map
        (fun h1 => (value (h1 0), h1 1)) =
        some (value (heapOf [⟨0, 1, [7]⟩, ⟨2, 2, [0x80000001, 0xF0000000]⟩] 1) * 2 ^ 36,
          heapOf [⟨0, 1, [7]⟩, ⟨2, 2, [0x80000001, 0xF0000000]⟩] 1) ∧
      (precn_shl (fun _ => 5) (heapOf [⟨0, 1, [7]⟩, ⟨2, 2, [0x80000001, 0xF0000000]⟩]) 0 1 0).map
        (fun h1 => ((h1 0).siz, (h1 0).a.take (h1 0).siz)) =
        some ((heapOf [⟨0, 1, [7]⟩, ⟨2, 2, [0x80000001, 0xF0000000]⟩] 1).siz,
          (heapOf [⟨0, 1, [7]⟩, ⟨2, 2, [0x80000001, 0xF0000000]⟩] 1).a.take
            (heapOf [⟨0, 1, [7]⟩, ⟨2, 2, [0x80000001, 0xF0000000]⟩] 1).siz)) :=
  ⟨⟨by decide, by decide⟩, precn_shl_value _ _ 0 1 36 (by decide) (by decide) (by decide)⟩

/-! ## Division -/

/-- C1: for well-formed operands, a divisor whose value is not zero, quotient and
remainder objects distinct from each other and from the operands, a quotient capacity
of at least `len(a)` words and a remainder capacity of at least `len(a) + 1` words
(`len(a)` the normalized length, which the stored `siz` is never below), `precn_divmod`
returns 0 and leaves `value(q) * value(b) + value(r) = value(a)` and
`value(r) < value(b)`; the values of `a` and `b` are unchanged. -/
theorem precn_divmod_correct (junk : Nat → Nat) (h : Heap) (q r a b : Ptr)
    (hqr : q ≠ r) (hqa : q ≠ a) (hqb : q ≠ b) (hra : r ≠ a) (hrb : r ≠ b)
    (hq : Wf (h q)) (hr : Wf (h r)) (ha : Wf (h a)) (hb : Wf (h b))
    (hvb : value (h b) ≠ 0) (hcq : nlen (h a) ≤ (h q).alloc_size)
    (hcr : nlen (h a) + 1 ≤ (h r).alloc_size) :
    ∃ h2, precn_divmod junk h q r a b = some (h2, 0) ∧
      value (h2 q) * value (h b) + value (h2 r) = value (h a) ∧
      value (h2 r) < value (h b) ∧
      value (h2 a) = value (h a) ∧ value (h2 b) = value (h b) := by
  obtain ⟨h2, he, hfr, _, _, _, _, _, _, _, hfun⟩ := precn_divmod_spec junk h q r a b hqr hqa hqb
    hra hrb hq hr ha hb (siz_ne_zero_of_value hvb)
  obtain ⟨e1, e2⟩ := hfun hvb hcq (Or.inl (by omega))
  refine ⟨h2, he, e1, e2, ?_, ?_⟩
  · rw [hfr a (Ne.symm hqa) (Ne.symm hra), value_cmpHeap]
  · rw [hfr b (Ne.symm hqb) (Ne.symm hrb), value_cmpHeap]

/-- C1, the example `100 divmod 7`: quotient 14, remainder 2. -/
theorem precn_divmod_correct_witness :
    (value (heapOf [⟨0, 1, [9]⟩, ⟨0, 2, [9, 9]⟩, ⟨1, 1, [100]⟩, ⟨1, 1, [7]⟩] 3) ≠ 0 ∧
      nlen (heapOf [⟨0, 1, [9]⟩, ⟨0, 2, [9, 9]⟩, ⟨1, 1, [100]⟩, ⟨1, 1, [7]⟩] 2) + 1 ≤
        (heapOf [⟨0, 1, [9]⟩, ⟨0, 2, [9, 9]⟩, ⟨1, 1, [100]⟩, ⟨1, 1, [7]⟩] 1).alloc_size ∧
      (precn_divmod (fun _ => 5)
          (heapOf [⟨0, 1, [9]⟩, ⟨0, 2, [9, 9]⟩, ⟨1, 1, [100]⟩, ⟨1, 1, [7]⟩]) 0 1 2 3).map
        (fun s => (s.2, (s.1 0).siz, (s.1 0).a, (s.1 1).siz, (s.1 1).a)) =
        some (0, 1, [14], 1, [2, 0])) ∧
    ∃ h2, precn_divmod (fun _ => 5)
        (heapOf [⟨0, 1, [9]⟩, ⟨0, 2, [9, 9]⟩, ⟨1, 1, [100]⟩, ⟨1, 1, [7]⟩]) 0 1 2 3 =
          some (h2, 0) ∧
      value (h2 0) * value (heapOf [⟨0, 1, [9]⟩, ⟨0, 2, [9, 9]⟩, ⟨1, 1, [100]⟩, ⟨1, 1, [7]⟩] 3) +
          value (h2 1) =
        value (heapOf [⟨0, 1, [9]⟩, ⟨0, 2, [9, 9]⟩, ⟨1, 1, [100]⟩, ⟨1, 1, [7]⟩] 2) ∧
      value (h2 1) < value (heapOf [⟨0, 1, [9]⟩, ⟨0, 2, [9, 9]⟩, ⟨1, 1, [100]⟩, ⟨1, 1, [7]⟩] 3) ∧
      value (h2 2) = value (heapOf [⟨0, 1, [9]⟩, ⟨0, 2, [9, 9]⟩, ⟨1, 1, [100]⟩, ⟨1, 1, [7]⟩] 2) ∧
      value (h2 3) = value (heapOf [⟨0, 1, [9]⟩, ⟨0, 2, [9, 9]⟩, ⟨1, 1, [100]⟩, ⟨1, 1, [7]⟩] 3) :=
  ⟨⟨by decide, by decide, by decide⟩,
    precn_divmod_correct _ _ 0 1 2 3 (by decide) (by decide) (by decide) (by decide) (by decide)
      (by decide) (by decide) (by decide) (by decide) (by decide) (by decide) (by decide)⟩

set_option maxRecDepth 100000 in
/-- C2 fails as stated: with a two-word dividend `2^32`, the divisor `2^32 - 1` and a
remainder object of capacity 1, `precn_div` and `precn_mod` both return 0, the quotient
is 1 and the remainder written by `precn_mod` is 0, so `q * b + r = 2^32 - 1`, not
the dividend (the carry out of the one-word remainder was dropped). -/
theorem precn_mod_small_capacity :
    Wf (heapOf [⟨0, 2, [0, 0]⟩, ⟨0, 1, [0]⟩, ⟨2, 2, [0, 1]⟩, ⟨1, 1, [0xFFFFFFFF]⟩] 1) ∧
    value (heapOf [⟨0, 2, [0, 0]⟩, ⟨0, 1, [0]⟩, ⟨2, 2, [0, 1]⟩, ⟨1, 1, [0xFFFFFFFF]⟩] 2) =
      4294967296 ∧
    value (heapOf [⟨0, 2, [0, 0]⟩, ⟨0, 1, [0]⟩, ⟨2, 2, [0, 1]⟩, ⟨1, 1, [0xFFFFFFFF]⟩] 3) =
      4294967295 ∧
    (precn_div (fun _ => 5)
        (heapOf [⟨0, 2, [0, 0]⟩, ⟨0, 1, [0]⟩, ⟨2, 2, [0, 1]⟩, ⟨1, 1, [0xFFFFFFFF]⟩]) 4 0 2 3).map
      (fun s => (s.2, value (s.1 0))) = some (0, 1) ∧
    (precn_mod (fun _ => 5)
        (heapOf [⟨0, 2, [0, 0]⟩, ⟨0, 1, [0]⟩, ⟨2, 2, [0, 1]⟩, ⟨1, 1, [0xFFFFFFFF]⟩]) 4 1 2 3).map
      (fun s => (s.2, value (s.1 1))) = some (0, 0) ∧
    1 * 4294967295 + 0 ≠ 4294967296 := by
  decide

/-- C2, amended: for well-formed operands, a divisor whose value is not zero, a quotient
object and a remainder object distinct from the operands, a quotient capacity of at
least `len(a)` words and a remainder capacity of at least `min(len(a), len(b) + 1)`
words (normalized lengths), `precn_div` and `precn_mod` both return 0 and the quotient
`q` of the one and the remainder `r` of the other satisfy
`value(q) * value(b) + value(r) = value(a)` and `value(r) < value(b)`. -/
theorem precn_div_mod_correct (junk : Nat → Nat) (h : Heap) (tmp q r a b : Ptr)
    (htq : tmp ≠ q) (htr : tmp ≠ r) (hta : tmp ≠ a) (htb : tmp ≠ b)
    (hqa : q ≠ a) (hqb : q ≠ b) (hra : r ≠ a) (hrb : r ≠ b)
    (hq : Wf (h q)) (hr : Wf (h r)) (ha : Wf (h a)) (hb : Wf (h b))
    (hvb : value (h b) ≠ 0) (hcq : nlen (h a) ≤ (h q).alloc_size)
    (hcr : nlen (h a) ≤ (h r).alloc_size ∨ nlen (h b) + 1 ≤ (h r).alloc_size) :
    ∃ hq2 hr2, precn_div junk h tmp q a b = some (hq2, 0) ∧
      precn_mod junk h tmp r a b = some (hr2, 0) ∧
      value (hq2 q) * value (h b) + value (hr2 r) = value (h a) ∧
      value (hr2 r) < value (h b) := by
  obtain ⟨hq2, e1, _, _, _, _, hvq⟩ := precn_div_spec junk h tmp q a b htq hta htb hqa hqb hq ha hb
    (siz_ne_zero_of_value hvb)
  obtain ⟨hr2, e2, _, _, _, _, hvr⟩ := precn_mod_spec junk h tmp r a b htr hta htb hra hrb hr ha hb
    (siz_ne_zero_of_value hvb)
  refine ⟨hq2, hr2, e1, e2, ?_, ?_⟩
  · rw [hvq hvb hcq, hvr hvb hcr]
    exact Nat.div_add_mod' _ _
  · rw [hvr hvb hcr]
    exact Nat.mod_lt _ (Nat.pos_of_ne_zero hvb)

/-- C2 amended, an example with the capacities of the tests: a two-word dividend, a
one-word divisor, a remainder object of `len(b) + 1 = 2` words. -/
theorem precn_div_mod_correct_witness :
    (value (heapOf [⟨0, 2, [0, 0]⟩, ⟨0, 2, [0, 0]⟩, ⟨2, 2, [0, 1]⟩, ⟨1, 1, [0xFFFFFFFF]⟩] 3) ≠ 0 ∧
      nlen (heapOf [⟨0, 2, [0, 0]⟩, ⟨0, 2, [0, 0]⟩, ⟨2, 2, [0, 1]⟩, ⟨1, 1, [0xFFFFFFFF]⟩] 3) + 1 ≤
        (heapOf [⟨0, 2, [0, 0]⟩, ⟨0, 2, [0, 0]⟩, ⟨2, 2, [0, 1]⟩, ⟨1, 1, [0xFFFFFFFF]⟩] 1).alloc_size) ∧
    ∃ hq2 hr2,
      precn_div (fun _ => 5)
        (heapOf [⟨0, 2, [0, 0]⟩, ⟨0, 2, [0, 0]⟩, ⟨2, 2, [0, 1]⟩, ⟨1, 1, [0xFFFFFFFF]⟩]) 4 0 2 3 =
          some (hq2, 0) ∧
      precn_mod (fun _ => 5)
        (heapOf [⟨0, 2, [0, 0]⟩, ⟨0, 2, [0, 0]⟩, ⟨2, 2, [0, 1]⟩, ⟨1, 1, [0xFFFFFFFF]⟩]) 4 1 2 3 =
          some (hr2, 0) ∧
      value (hq2 0) *
          value (heapOf [⟨0, 2, [0, 0]⟩, ⟨0, 2, [0, 0]⟩, ⟨2, 2, [0, 1]⟩, ⟨1, 1, [0xFFFFFFFF]⟩] 3) +
          value (hr2 1) =
        value (heapOf [⟨0, 2, [0, 0]⟩, ⟨0, 2, [0, 0]⟩, ⟨2, 2, [0, 1]⟩, ⟨1, 1, [0xFFFFFFFF]⟩] 2) ∧
      value (hr2 1) <
        value (heapOf [⟨0, 2, [0, 0]⟩, ⟨0, 2, [0, 0]⟩, ⟨2, 2, [0, 1]⟩, ⟨1, 1, [0xFFFFFFFF]⟩] 3) :=
  ⟨⟨by decide, by decide⟩,
    precn_div_mod_correct _ _ 4 0 1 2 3 (by decide) (by decide) (by decide) (by decide)
      (by decide) (by decide) (by decide) (by decide) (by decide) (by decide) (by decide)
      (by decide) (by decide) (by decide) (Or.inr (by decide))⟩

set_option maxRecDepth 100000 in
/-- C3, where the code departs from it: a divisor with `siz = 1` and the single word 0
has normalized length 0 and value 0, yet `precn_divmod`, `precn_div` and `precn_mod`
return 0 and not -1; `precn_divmod` leaves the quotient `0xFFFFFFFF` for the
dividend 100. -/
theorem precn_divmod_unnormalized_zero_divisor :
    Wf (heapOf [⟨0, 1, [0]⟩, ⟨0, 2, [0, 0]⟩, ⟨1, 1, [100]⟩, ⟨1, 1, [0]⟩] 3) ∧
    nlen (heapOf [⟨0, 1, [0]⟩, ⟨0, 2, [0, 0]⟩, ⟨1, 1, [100]⟩, ⟨1, 1, [0]⟩] 3) = 0 ∧
    value (heapOf [⟨0, 1, [0]⟩, ⟨0, 2, [0, 0]⟩, ⟨1, 1, [100]⟩, ⟨1, 1, [0]⟩] 3) = 0 ∧
    (precn_divmod (fun _ => 5)
        (heapOf [⟨0, 1, [0]⟩, ⟨0, 2, [0, 0]⟩, ⟨1, 1, [100]⟩, ⟨1, 1, [0]⟩]) 0 1 2 3).map
      (fun s => (s.2, (s.1 0).siz, (s.1 0).a, value (s.1 1))) =
      some (0, 1, [0xFFFFFFFF], 100) ∧
    (precn_div (fun _ => 5)
        (heapOf [⟨0, 1, [0]⟩, ⟨0, 2, [0, 0]⟩, ⟨1, 1, [100]⟩, ⟨1, 1, [0]⟩]) 4 0 2 3).map
      Prod.snd = some 0 ∧
    (precn_mod (fun _ => 5)
        (heapOf [⟨0, 1, [0]⟩, ⟨0, 2, [0, 0]⟩, ⟨1, 1, [100]⟩, ⟨1, 1, [0]⟩]) 4 1 2 3).map
      Prod.snd = some 0 := by
  decide

/-- The zero-divisor check as the code makes it: when the stored `siz` of the divisor is 0,
the three functions return -1, and `precn_divmod` leaves the heap as it was. -/
theorem precn_divmod_zero_siz (junk : Nat → Nat) (h : Heap) (tmp q r a b : Ptr)
    (htb : tmp ≠ b) (hb : (h b).siz = 0) :
    precn_divmod junk h q r a b = some (h, -1) ∧
    (precn_div junk h tmp q a b).map Prod.snd = some (-1) ∧
    (precn_mod junk h tmp r a b).map Prod.snd = some (-1) := by
  have hnew : (precn_new h tmp ((h a).siz : Int) b).siz = 0 := by
    rw [precn_new_other h _ (Ne.symm htb)]; exact hb
  refine ⟨?_, ?_, ?_⟩
  · unfold precn_divmod
    rw [if_pos hb]; rfl
  · unfold precn_div precn_divmod
    simp only [hnew, if_true, Option.pure_def, Option.bind_eq_bind, Option.some_bind,
      Option.map_some']
  · unfold precn_mod precn_divmod
    simp only [hnew, if_true, Option.pure_def, Option.bind_eq_bind, Option.some_bind,
      Option.map_some']

/-- C9: for well-formed operands with `value(a) < value(b)` and quotient and remainder
objects distinct from each other and from the operands, `precn_divmod` returns 0, leaves
the quotient zero (`siz = 0`) and leaves the remainder with the significant words and
the value of `a`. -/
theorem precn_divmod_small (junk : Nat → Nat) (h : Heap) (q r a b : Ptr)
    (hqr : q ≠ r) (hqa : q ≠ a) (hqb : q ≠ b) (hra : r ≠ a) (hrb : r ≠ b)
    (hq : Wf (h q)) (hr : Wf (h r)) (ha : Wf (h a)) (hb : Wf (h b))
    (hlt : value (h a) < value (h b)) :
    ∃ h2, precn_divmod junk h q r a b = some (h2, 0) ∧
      (h2 q).siz = 0 ∧ value (h2 q) = 0 ∧
      (h2 r).siz = nlen (h a) ∧ (h2 r).a.take (h2 r).siz = (h a).a.take (nlen (h a)) ∧
      value (h2 r) = value (h a) := by
  obtain ⟨h2, he, _, _, _, _, _, _, _, hfast, _⟩ := precn_divmod_spec junk h q r a b hqr hqa hqb
    hra hrb hq hr ha hb (siz_ne_zero_of_value (by omega))
  obtain ⟨e1, e2⟩ := hfast hlt
  refine ⟨h2, he, by rw [e1], by rw [e1]; exact value_zero_siz rfl, by rw [e2]; rfl, ?_, ?_⟩
  · rw [e2, copyObj_take junk (Wf_nzObj ha)]
    rfl
  · rw [e2, value_copyObj junk (Wf_nzObj ha), value_nzObj]

/-- C9, the example `5 divmod 10`: quotient 0, remainder 5. -/
theorem precn_divmod_small_witness :
    (value (heapOf [⟨1, 1, [9]⟩, ⟨0, 2, [9, 9]⟩, ⟨1, 1, [5]⟩, ⟨1, 1, [10]⟩] 2) <
        value (heapOf [⟨1, 1, [9]⟩, ⟨0, 2, [9, 9]⟩, ⟨1, 1, [5]⟩, ⟨1, 1, [10]⟩] 3) ∧
      (precn_divmod (fun _ => 5)
          (heapOf [⟨1, 1, [9]⟩, ⟨0, 2, [9, 9]⟩, ⟨1, 1, [5]⟩, ⟨1, 1, [10]⟩]) 0 1 2 3).map
        (fun s => (s.2, (s.1 0).siz, (s.1 1).siz, (s.1 1).a.take 1)) = some (0, 0, 1, [5])) ∧
    ∃ h2, precn_divmod (fun _ => 5)
        (heapOf [⟨1, 1, [9]⟩, ⟨0, 2, [9, 9]⟩, ⟨1, 1, [5]⟩, ⟨1, 1, [10]⟩]) 0 1 2 3 = some (h2, 0) ∧
      (h2 0).siz = 0 ∧ value (h2 0) = 0 ∧
      (h2 1).siz = nlen (heapOf [⟨1, 1, [9]⟩, ⟨0, 2, [9, 9]⟩, ⟨1, 1, [5]⟩, ⟨1, 1, [10]⟩] 2) ∧
      (h2 1).a.take (h2 1).siz =
        (heapOf [⟨1, 1, [9]⟩, ⟨0, 2, [9, 9]⟩, ⟨1, 1, [5]⟩, ⟨1, 1, [10]⟩] 2).a.take
          (nlen (heapOf [⟨1, 1, [9]⟩, ⟨0, 2, [9, 9]⟩, ⟨1, 1, [5]⟩, ⟨1, 1, [10]⟩] 2)) ∧
      value (h2 1) = value (heapOf [⟨1, 1, [9]⟩, ⟨0, 2, [9, 9]⟩, ⟨1, 1, [5]⟩, ⟨1, 1, [10]⟩] 2) :=
  ⟨⟨by decide, by decide⟩,
    precn_divmod_small _ _ 0 1 2 3 (by decide) (by decide) (by decide) (by decide) (by decide)
      (by decide) (by decide) (by decide) (by decide) (by decide)⟩

/-! ## Normalized form -/

theorem Normalized_new (h : Heap) (p : Ptr) (size : Int) : Normalized (precn_new h p size p) := by
  unfold precn_new
  simp only [Function.update_same]
  exact Or.inl rfl

/-- The copy of a well-formed source is normalized only if the source is. -/
theorem Normalized_of_copyObj (junk : Nat → Nat) {d s : precn_struct} (hs : Wf s)
    (hn : Normalized (copyObj junk d s)) : Normalized s := by
  unfold Normalized at hn ⊢
  rw [copyObj_siz] at hn
  by_cases hz : s.siz = 0
  · exact Or.inl hz
  · right
    rcases hn with h0 | h1
    · exact absurd h0 hz
    · have := wd_copyObj junk (d := d) hs (s.siz - 1)
      rw [if_pos (by omega)] at this
      unfold wd at this
      rw [← this]
      exact h1

theorem Normalized_copyObj_iff (junk : Nat → Nat) {d s : precn_struct} (hs : Wf s) :
    Normalized (copyObj junk d s) ↔ Normalized s :=
  ⟨Normalized_of_copyObj junk hs, Normalized_copyObj junk hs⟩

/-- After `precn_sub`, which runs `precn_cmp` on its operands and then writes `res`, the
operands and the result are normalized. -/
theorem Normalized_update_cmpHeap (h : Heap) (a b res : Ptr) {o : precn_struct}
    (ho : Normalized o) {p : Ptr} (hp : p = a ∨ p = b ∨ p = res) :
    Normalized (Function.update (cmpHeap h a b) res o p) := by
  by_cases e : p = res
  · subst e; simp only [Function.update_same]; exact ho
  · rw [Function.update_noteq e]
    rcases hp with hp | hp | hp
    · subst hp; rw [cmpHeap_left]; exact Normalized_nzObj _
    · subst hp; rw [cmpHeap_right]; exact Normalized_nzObj _
    · exact absurd hp e

set_option maxRecDepth 100000 in
/-- C10, the claim fails for `precn_copy` and for `precn_shl` by 0 bits: from the
well-formed source `[7, 1, 0]` with `siz = 3`, whose top word is zero, both calls leave
the destination with `siz = 3` and the words `[7, 1, 0]`, which is not normalized. -/
theorem precn_copy_keeps_unnormalized :
    Wf (heapOf [⟨0, 1, [0]⟩, ⟨3, 3, [7, 1, 0]⟩] 0) ∧
    Wf (heapOf [⟨0, 1, [0]⟩, ⟨3, 3, [7, 1, 0]⟩] 1) ∧
    (precn_copy (fun _ => 5) (heapOf [⟨0, 1, [0]⟩, ⟨3, 3, [7, 1, 0]⟩]) 0 1).map
        (fun h1 => h1 0) = some ⟨3, 3, [7, 1, 0]⟩ ∧
    (precn_shl (fun _ => 5) (heapOf [⟨0, 1, [0]⟩, ⟨3, 3, [7, 1, 0]⟩]) 0 1 0).map
        (fun h1 => h1 0) = some ⟨3, 3, [7, 1, 0]⟩ ∧
    ¬ Normalized ⟨3, 3, [7, 1, 0]⟩ ∧
    (precn_copy (fun _ => 5) (heapOf [⟨0, 1, [0]⟩, ⟨3, 3, [7, 1, 0]⟩]) 0 1).map
        (fun h1 => decide (Normalized (h1 0))) = some false ∧
    (precn_shl (fun _ => 5) (heapOf [⟨0, 1, [0]⟩, ⟨3, 3, [7, 1, 0]⟩]) 0 1 0).map
        (fun h1 => decide (Normalized (h1 0))) = some false := by
  decide

/-- C10 as amended: every operation trims what it writes, except the copy. `precn_new`
yields a normalized object. On well-formed arguments each of `precn_zero`,
`precn_set_u32`, `precn_normalize`, `precn_cmp`, `precn_add`, `precn_sub`, `precn_mul`
(these three for any aliasing of the result with the operands), `precn_divmod`,
`precn_div`, `precn_mod` (with output objects distinct from the operands) and `precn_shl`
by `n > 0` bits returns and leaves every object it wrote with `siz = 0` or
`a[siz-1] ≠ 0`, whether the operands were normalized or not; a division that returns -1
wrote nothing. `precn_copy`, and `precn_shl` by 0 bits, which is that copy, hand on the
`siz` and the words of the source without trimming: the destination is normalized if and
only if the source is. -/
theorem normalized_invariant (junk : Nat → Nat) (h : Heap) (tmp res a b q r : Ptr)
    (n val : Nat) (size : Int)
    (hres : Wf (h res)) (ha : Wf (h a)) (hb : Wf (h b)) (hq : Wf (h q)) (hr : Wf (h r)) :
    Normalized (precn_new h res size res) ∧
    (∃ h1, precn_zero h res = some h1 ∧ Normalized (h1 res)) ∧
    (∃ h1, precn_set_u32 h res val = some h1 ∧ Normalized (h1 res)) ∧
    (res ≠ a → ∃ h1, precn_copy junk h res a = some h1 ∧
      (Normalized (h1 res) ↔ Normalized (h a))) ∧
    (∃ h1, precn_normalize h res = some h1 ∧ Normalized (h1 res)) ∧
    (∃ s, precn_cmp h a b = some s ∧ Normalized (s.1 a) ∧ Normalized (s.1 b)) ∧
    (∃ h1, precn_add junk h res a b = some h1 ∧ Normalized (h1 res)) ∧
    (∃ h1, precn_sub junk h res a b = some h1 ∧ Normalized (h1 res) ∧ Normalized (h1 a) ∧
      Normalized (h1 b)) ∧
    (∃ h1, precn_mul junk h res a b = some h1 ∧ Normalized (h1 res)) ∧
    (q ≠ r → q ≠ a → q ≠ b → r ≠ a → r ≠ b →
      ∃ s, precn_divmod junk h q r a b = some s ∧
        ((s.2 = -1 ∧ s.1 = h) ∨
          (s.2 = 0 ∧ Normalized (s.1 q) ∧ Normalized (s.1 r) ∧ Normalized (s.1 a) ∧
            Normalized (s.1 b)))) ∧
    (tmp ≠ q → tmp ≠ a → tmp ≠ b → q ≠ a → q ≠ b →
      ∃ s, precn_div junk h tmp q a b = some s ∧
        ((s.2 = -1 ∧ s.1 q = h q ∧ s.1 a = h a ∧ s.1 b = h b) ∨
          (s.2 = 0 ∧ Normalized (s.1 q) ∧ Normalized (s.1 a) ∧ Normalized (s.1 b)))) ∧
    (tmp ≠ r → tmp ≠ a → tmp ≠ b → r ≠ a → r ≠ b →
      ∃ s, precn_mod junk h tmp r a b = some s ∧
        ((s.2 = -1 ∧ s.1 r = h r ∧ s.1 a = h a ∧ s.1 b = h b) ∨
          (s.2 = 0 ∧ Normalized (s.1 r) ∧ Normalized (s.1 a) ∧ Normalized (s.1 b)))) ∧
    (res ≠ a → ∃ h1, precn_shl junk h res a n = some h1 ∧
      (n ≠ 0 → Normalized (h1 res)) ∧
      (n = 0 → (Normalized (h1 res) ↔ Normalized (h a)))) := by
  refine ⟨Normalized_new h res size, ?_, ?_, ?_, ?_, ?_, ?_, ?_, ?_, ?_, ?_, ?_, ?_⟩
  · exact ⟨_, precn_zero_eq h res hres.1, by simp only [Function.update_same]; exact Or.inl rfl⟩
  · obtain ⟨o, he, hn, _⟩ := precn_set_u32_spec h res val hres
    exact ⟨_, he, by simp only [Function.update_same]; exact hn⟩
  · intro hra
    refine ⟨_, precn_copy_eq junk h res a hra hres ha, ?_⟩
    simp only [Function.update_same]
    exact Normalized_copyObj_iff junk ha
  · exact ⟨_, precn_normalize_eq h res (Wf_siz_le hres), by
      simp only [Function.update_same]; exact Normalized_nzObj _⟩
  · refine ⟨_, precn_cmp_eq h a b ha hb, ?_, ?_⟩
    · show Normalized (cmpHeap h a b a)
      rw [cmpHeap_left]; exact Normalized_nzObj _
    · show Normalized (cmpHeap h a b b)
      rw [cmpHeap_right]; exact Normalized_nzObj _
  · obtain ⟨o, he, _, hn, _⟩ := precn_add_spec junk h res a b hres ha hb
    exact ⟨_, he, by simp only [Function.update_same]; exact hn⟩
  · obtain ⟨o, he, _, hn, _⟩ := precn_sub_spec junk h res a b hres ha hb
    exact ⟨_, he, Normalized_update_cmpHeap h a b res hn (Or.inr (Or.inr rfl)),
      Normalized_update_cmpHeap h a b res hn (Or.inl rfl),
      Normalized_update_cmpHeap h a b res hn (Or.inr (Or.inl rfl))⟩
  · by_cases hal : res = a ∨ res = b
    · obtain ⟨o, he, _, hs, _⟩ := precn_mul_alias junk h res a b hal hres ha hb
      exact ⟨_, he, by simp only [Function.update_same]; exact Or.inl hs⟩
    · obtain ⟨o, he, _, hn, _⟩ := precn_mul_spec junk h res a b (fun e => hal (Or.inl e))
        (fun e => hal (Or.inr e)) hres ha hb
      exact ⟨_, he, by simp only [Function.update_same]; exact hn⟩
  · intro hqr hqa hqb hr_a hr_b
    by_cases hs : (h b).siz = 0
    · exact ⟨(h, -1), by unfold precn_divmod; rw [if_pos hs]; rfl, Or.inl ⟨rfl, rfl⟩⟩
    · obtain ⟨h2, he, hfr, _, _, hnq, hnr, _⟩ := precn_divmod_spec junk h q r a b hqr hqa hqb
        hr_a hr_b hq hr ha hb hs
      refine ⟨(h2, 0), he, Or.inr ⟨rfl, hnq, hnr, ?_, ?_⟩⟩
      · show Normalized (h2 a)
        rw [hfr a (Ne.symm hqa) (Ne.symm hr_a), cmpHeap_left]; exact Normalized_nzObj _
      · show Normalized (h2 b)
        rw [hfr b (Ne.symm hqb) (Ne.symm hr_b), cmpHeap_right]; exact Normalized_nzObj _
  · intro htq hta htb hqa hqb
    by_cases hs : (h b).siz = 0
    · refine ⟨_, precn_div_zero_siz junk h tmp q a b htb hs, Or.inl ⟨rfl, ?_, ?_, ?_⟩⟩
      · exact free_new_other h _ (Ne.symm htq)
      · exact free_new_other h _ (Ne.symm hta)
      · exact free_new_other h _ (Ne.symm htb)
    · obtain ⟨h2, he, _, hnq, e1, e2, _⟩ := precn_div_spec junk h tmp q a b htq hta htb hqa hqb
        hq ha hb hs
      refine ⟨(h2, 0), he, Or.inr ⟨rfl, hnq, ?_, ?_⟩⟩
      · show Normalized (h2 a)
        rw [e1]; exact Normalized_nzObj _
      · show Normalized (h2 b)
        rw [e2]; exact Normalized_nzObj _
  · intro htr hta htb hr_a hr_b
    by_cases hs : (h b).siz = 0
    · refine ⟨_, precn_mod_zero_siz junk h tmp r a b htb hs, Or.inl ⟨rfl, ?_, ?_, ?_⟩⟩
      · exact free_new_other h _ (Ne.symm htr)
      · exact free_new_other h _ (Ne.symm hta)
      · exact free_new_other h _ (Ne.symm htb)
    · obtain ⟨h2, he, _, hnr, e1, e2, _⟩ := precn_mod_spec junk h tmp r a b htr hta htb hr_a hr_b
        hr ha hb hs
      refine ⟨(h2, 0), he, Or.inr ⟨rfl, hnr, ?_, ?_⟩⟩
      · show Normalized (h2 a)
        rw [e1]; exact Normalized_nzObj _
      · show Normalized (h2 b)
        rw [e2]; exact Normalized_nzObj _
  · intro hra
    obtain ⟨o, he, _, hn, _, ho, _⟩ := precn_shl_spec junk h res a n hra hres ha
    refine ⟨_, he, ?_, ?_⟩
    · intro hn0; simp only [Function.update_same]; exact hn (Or.inl hn0)
    · intro hn0; simp only [Function.update_same]
      rw [ho hn0]; exact Normalized_copyObj_iff junk ha

/-- C10 as amended, on a concrete heap with the normalized `a = [7, 1]` (`siz = 2` in a
block of 3 words) and the unnormalized `b = [3, 0, 0]` (`siz = 3`): `precn_copy` from `a`
leaves a normalized destination, the in-place `precn_sub(b, b, a)` leaves both objects
normalized, and so does the in-place `precn_mul(b, b, a)`. -/
theorem normalized_invariant_witness :
    (Wf (heapOf [⟨0, 1, [0]⟩, ⟨2, 3, [7, 1, 0]⟩, ⟨3, 3, [3, 0, 0]⟩] 0) ∧
      Wf (heapOf [⟨0, 1, [0]⟩, ⟨2, 3, [7, 1, 0]⟩, ⟨3, 3, [3, 0, 0]⟩] 1) ∧
      Wf (heapOf [⟨0, 1, [0]⟩, ⟨2, 3, [7, 1, 0]⟩, ⟨3, 3, [3, 0, 0]⟩] 2) ∧
      Normalized (heapOf [⟨0, 1, [0]⟩, ⟨2, 3, [7, 1, 0]⟩, ⟨3, 3, [3, 0, 0]⟩] 1) ∧
      ¬ Normalized (heapOf [⟨0, 1, [0]⟩, ⟨2, 3, [7, 1, 0]⟩, ⟨3, 3, [3, 0, 0]⟩] 2)) ∧
    (∃ h1, precn_copy (fun _ => 5) (heapOf [⟨0, 1, [0]⟩, ⟨2, 3, [7, 1, 0]⟩, ⟨3, 3, [3, 0, 0]⟩]) 0 1 = some h1 ∧
      Normalized (h1 0)) ∧
    (∃ h1, precn_sub (fun _ => 5) (heapOf [⟨0, 1, [0]⟩, ⟨2, 3, [7, 1, 0]⟩, ⟨3, 3, [3, 0, 0]⟩]) 2 2 1 = some h1 ∧
      Normalized (h1 2) ∧ Normalized (h1 2) ∧ Normalized (h1 1)) ∧
    (∃ h1, precn_mul (fun _ => 5) (heapOf [⟨0, 1, [0]⟩, ⟨2, 3, [7, 1, 0]⟩, ⟨3, 3, [3, 0, 0]⟩]) 2 2 1 = some h1 ∧
      Normalized (h1 2)) ∧
    (precn_copy (fun _ => 5) (heapOf [⟨0, 1, [0]⟩, ⟨2, 3, [7, 1, 0]⟩, ⟨3, 3, [3, 0, 0]⟩]) 0 1).map
        (fun h1 => h1 0) = some ⟨2, 2, [7, 1]⟩ ∧
    (precn_sub (fun _ => 5) (heapOf [⟨0, 1, [0]⟩, ⟨2, 3, [7, 1, 0]⟩, ⟨3, 3, [3, 0, 0]⟩]) 2 2 1).map
        (fun h1 => (h1 2, h1 1)) = some (⟨2, 3, [4, 1, 0]⟩, ⟨2, 3, [7, 1, 0]⟩) :=
  ⟨⟨by decide, by decide, by decide, by decide, by decide⟩,
    Exists.elim
      ((normalized_invariant (fun _ => 5) (heapOf [⟨0, 1, [0]⟩, ⟨2, 3, [7, 1, 0]⟩, ⟨3, 3, [3, 0, 0]⟩])
        5 0 1 2 3 4 36 7 3 (by decide) (by decide) (by decide) (by decide) (by decide)).2.2.2.1
        (by decide))
      (fun h1 hh => ⟨h1, hh.1, hh.2.mpr (by decide)⟩),
    (normalized_invariant (fun _ => 5) (heapOf [⟨0, 1, [0]⟩, ⟨2, 3, [7, 1, 0]⟩, ⟨3, 3, [3, 0, 0]⟩])
        5 2 2 1 3 4 36 7 3 (by decide) (by decide) (by decide) (by decide) (by decide)).2.2.2.2.2.2.2.1,
    (normalized_invariant (fun _ => 5) (heapOf [⟨0, 1, [0]⟩, ⟨2, 3, [7, 1, 0]⟩, ⟨3, 3, [3, 0, 0]⟩])
        5 2 2 1 3 4 36 7 3 (by decide) (by decide) (by decide) (by decide) (by decide)).2.2.2.2.2.2.2.2.1,
    by decide, by decide⟩

/-! ## Well-formedness -/

/-- C11: well-formedness is an invariant. `Wf x` says that the block of `x` has exactly
`alloc_size` words, that `1 ≤ alloc_size`, that `siz ≤ alloc_size` and that the words
are 32-bit words. It holds of the object `precn_new` makes for every capacity hint
`size`, also when `size ≤ 0`. On well-formed arguments each of `precn_zero`,
`precn_set_u32` (with a 32-bit `val`), `precn_copy`, `precn_normalize`, `precn_cmp`,
`precn_add`, `precn_sub`, `precn_mul`, `precn_divmod`, `precn_div`, `precn_mod` and
`precn_shl` returns, which in this model means that every load and every store of the
call, the store to `a[0]` in `precn_set_u32` and in the remainder of `precn_divmod`
included, was at an index below the length `alloc_size` of its block, and each leaves
every argument well-formed. `precn_add`, `precn_sub` and `precn_mul` are covered for any
aliasing of the result with the operands; the source of `precn_copy` and of `precn_shl`
and the four arguments of `precn_divmod` are distinct from the objects written. -/
theorem wf_invariant (junk : Nat → Nat) (h : Heap) (tmp res a b q r : Ptr)
    (n val : Nat) (size : Int)
    (hres : Wf (h res)) (ha : Wf (h a)) (hb : Wf (h b)) (hq : Wf (h q)) (hr : Wf (h r)) :
    Wf (precn_new h res size res) ∧
    (∃ h1, precn_zero h res = some h1 ∧ Wf (h1 res)) ∧
    (val < 2 ^ 32 → ∃ h1, precn_set_u32 h res val = some h1 ∧ Wf (h1 res)) ∧
    (res ≠ a → ∃ h1, precn_copy junk h res a = some h1 ∧ Wf (h1 res) ∧ Wf (h1 a)) ∧
    (∃ h1, precn_normalize h res = some h1 ∧ Wf (h1 res)) ∧
    (∃ s, precn_cmp h a b = some s ∧ Wf (s.1 a) ∧ Wf (s.1 b)) ∧
    (∃ h1, precn_add junk h res a b = some h1 ∧ Wf (h1 res) ∧ Wf (h1 a) ∧ Wf (h1 b)) ∧
    (∃ h1, precn_sub junk h res a b = some h1 ∧ Wf (h1 res) ∧ Wf (h1 a) ∧ Wf (h1 b)) ∧
    (∃ h1, precn_mul junk h res a b = some h1 ∧ Wf (h1 res) ∧ Wf (h1 a) ∧ Wf (h1 b)) ∧
    (q ≠ r → q ≠ a → q ≠ b → r ≠ a → r ≠ b →
      ∃ s, precn_divmod junk h q r a b = some s ∧ Wf (s.1 q) ∧ Wf (s.1 r) ∧ Wf (s.1 a) ∧
        Wf (s.1 b)) ∧
    (tmp ≠ q → tmp ≠ a → tmp ≠ b → q ≠ a → q ≠ b →
      ∃ s, precn_div junk h tmp q a b = some s ∧ Wf (s.1 q) ∧ Wf (s.1 a) ∧ Wf (s.1 b)) ∧
    (tmp ≠ r → tmp ≠ a → tmp ≠ b → r ≠ a → r ≠ b →
      ∃ s, precn_mod junk h tmp r a b = some s ∧ Wf (s.1 r) ∧ Wf (s.1 a) ∧ Wf (s.1 b)) ∧
    (res ≠ a → ∃ h1, precn_shl junk h res a n = some h1 ∧ Wf (h1 res) ∧ Wf (h1 a)) := by
  refine ⟨Wf_precn_new h res size, ?_, ?_, ?_, ?_, ?_, ?_, ?_, ?_, ?_, ?_, ?_, ?_⟩
  · exact ⟨_, precn_zero_eq h res hres.1, by simp only [Function.update_same]; exact Wf_zero hres⟩
  · intro hval
    obtain ⟨o, he, _, _, _, hw⟩ := precn_set_u32_spec h res val hres
    exact ⟨_, he, by simp only [Function.update_same]; exact hw hval⟩
  · intro hra
    exact ⟨_, precn_copy_eq junk h res a hra hres ha,
      Wf_update res (Wf_copyObj junk hres ha) hres, Wf_update res (Wf_copyObj junk hres ha) ha⟩
  · exact ⟨_, precn_normalize_eq h res (Wf_siz_le hres), by
      simp only [Function.update_same]; exact Wf_nzObj hres⟩
  · exact ⟨_, precn_cmp_eq h a b ha hb, Wf_cmpHeap a b ha, Wf_cmpHeap a b hb⟩
  · obtain ⟨o, he, hw, _⟩ := precn_add_spec junk h res a b hres ha hb
    exact ⟨_, he, Wf_update res hw hres, Wf_update res hw ha, Wf_update res hw hb⟩
  · obtain ⟨o, he, hw, _⟩ := precn_sub_spec junk h res a b hres ha hb
    exact ⟨_, he, Wf_update_cmpHeap a b res hw hres, Wf_update_cmpHeap a b res hw ha,
      Wf_update_cmpHeap a b res hw hb⟩
  · by_cases hal : res = a ∨ res = b
    · obtain ⟨o, he, hw, _⟩ := precn_mul_alias junk h res a b hal hres ha hb
      exact ⟨_, he, Wf_update res hw hres, Wf_update res hw ha, Wf_update res hw hb⟩
    · obtain ⟨o, he, hw, _⟩ := precn_mul_spec junk h res a b (fun e => hal (Or.inl e))
        (fun e => hal (Or.inr e)) hres ha hb
      exact ⟨_, he, Wf_update res hw hres, Wf_update res hw ha, Wf_update res hw hb⟩
  · intro hqr hqa hqb hr_a hr_b
    by_cases hs : (h b).siz = 0
    · exact ⟨(h, -1), by unfold precn_divmod; rw [if_pos hs]; rfl, hq, hr, ha, hb⟩
    · obtain ⟨h2, he, hfr, hwq, hwr, _⟩ := precn_divmod_spec junk h q r a b hqr hqa hqb
        hr_a hr_b hq hr ha hb hs
      refine ⟨(h2, 0), he, hwq, hwr, ?_, ?_⟩
      · show Wf (h2 a)
        rw [hfr a (Ne.symm hqa) (Ne.symm hr_a)]; exact Wf_cmpHeap a b ha
      · show Wf (h2 b)
        rw [hfr b (Ne.symm hqb) (Ne.symm hr_b)]; exact Wf_cmpHeap a b hb
  · intro htq hta htb hqa hqb
    by_cases hs : (h b).siz = 0
    · refine ⟨_, precn_div_zero_siz junk h tmp q a b htb hs, ?_, ?_, ?_⟩
      · show Wf (precn_free _ tmp q)
        rw [free_new_other h _ (Ne.symm htq)]; exact hq
      · show Wf (precn_free _ tmp a)
        rw [free_new_other h _ (Ne.symm hta)]; exact ha
      · show Wf (precn_free _ tmp b)
        rw [free_new_other h _ (Ne.symm htb)]; exact hb
    · obtain ⟨h2, he, hwq, _, e1, e2, _⟩ := precn_div_spec junk h tmp q a b htq hta htb hqa hqb
        hq ha hb hs
      refine ⟨(h2, 0), he, hwq, ?_, ?_⟩
      · show Wf (h2 a)
        rw [e1]; exact Wf_nzObj ha
      · show Wf (h2 b)
        rw [e2]; exact Wf_nzObj hb
  · intro htr hta htb hr_a hr_b
    by_cases hs : (h b).siz = 0
    · refine ⟨_, precn_mod_zero_siz junk h tmp r a b htb hs, ?_, ?_, ?_⟩
      · show Wf (precn_free _ tmp r)
        rw [free_new_other h _ (Ne.symm htr)]; exact hr
      · show Wf (precn_free _ tmp a)
        rw [free_new_other h _ (Ne.symm hta)]; exact ha
      · show Wf (precn_free _ tmp b)
        rw [free_new_other h _ (Ne.symm htb)]; exact hb
    · obtain ⟨h2, he, hwr, _, e1, e2, _⟩ := precn_mod_spec junk h tmp r a b htr hta htb hr_a hr_b
        hr ha hb hs
      refine ⟨(h2, 0), he, hwr, ?_, ?_⟩
      · show Wf (h2 a)
        rw [e1]; exact Wf_nzObj ha
      · show Wf (h2 b)
        rw [e2]; exact Wf_nzObj hb
  · intro hra
    obtain ⟨o, he, hw, _⟩ := precn_shl_spec junk h res a n hra hres ha
    exact ⟨_, he, Wf_update res hw hres, Wf_update res hw ha⟩

/-- C11, on a concrete heap: the object made with the capacity hint -3 is well-formed,
and the division of `[0, 1]` by `[4294967295]` with a remainder object of capacity 1
returns and leaves the four objects well-formed. -/
theorem wf_invariant_witness :
    (Wf (heapOf [⟨0, 1, [0]⟩, ⟨2, 2, [0, 1]⟩, ⟨1, 1, [4294967295]⟩, ⟨0, 2, [0, 0]⟩, ⟨0, 1, [0]⟩] 0) ∧
      Wf (heapOf [⟨0, 1, [0]⟩, ⟨2, 2, [0, 1]⟩, ⟨1, 1, [4294967295]⟩, ⟨0, 2, [0, 0]⟩, ⟨0, 1, [0]⟩] 1) ∧
      Wf (heapOf [⟨0, 1, [0]⟩, ⟨2, 2, [0, 1]⟩, ⟨1, 1, [4294967295]⟩, ⟨0, 2, [0, 0]⟩, ⟨0, 1, [0]⟩] 2) ∧
      Wf (heapOf [⟨0, 1, [0]⟩, ⟨2, 2, [0, 1]⟩, ⟨1, 1, [4294967295]⟩, ⟨0, 2, [0, 0]⟩, ⟨0, 1, [0]⟩] 3) ∧
      Wf (heapOf [⟨0, 1, [0]⟩, ⟨2, 2, [0, 1]⟩, ⟨1, 1, [4294967295]⟩, ⟨0, 2, [0, 0]⟩, ⟨0, 1, [0]⟩] 4)) ∧
    Wf (precn_new (heapOf [⟨0, 1, [0]⟩, ⟨2, 2, [0, 1]⟩, ⟨1, 1, [4294967295]⟩, ⟨0, 2, [0, 0]⟩, ⟨0, 1, [0]⟩]) 0 (-3) 0) ∧
    (∃ s, precn_divmod (fun _ => 5)
        (heapOf [⟨0, 1, [0]⟩, ⟨2, 2, [0, 1]⟩, ⟨1, 1, [4294967295]⟩, ⟨0, 2, [0, 0]⟩, ⟨0, 1, [0]⟩]) 3 4 1 2 = some s ∧
      Wf (s.1 3) ∧ Wf (s.1 4) ∧ Wf (s.1 1) ∧ Wf (s.1 2)) :=
  ⟨⟨by decide, by decide, by decide, by decide, by decide⟩,
    (wf_invariant (fun _ => 5)
      (heapOf [⟨0, 1, [0]⟩, ⟨2, 2, [0, 1]⟩, ⟨1, 1, [4294967295]⟩, ⟨0, 2, [0, 0]⟩, ⟨0, 1, [0]⟩])
      5 0 1 2 3 4 36 7 (-3) (by decide) (by decide) (by decide) (by decide) (by decide)).1,
    (wf_invariant (fun _ => 5)
      (heapOf [⟨0, 1, [0]⟩, ⟨2, 2, [0, 1]⟩, ⟨1, 1, [4294967295]⟩, ⟨0, 2, [0, 0]⟩, ⟨0, 1, [0]⟩])
      5 0 1 2 3 4 36 7 (-3) (by decide) (by decide) (by decide) (by decide) (by decide)).2.2.2.2.2.2.2.2.2.1
      (by decide) (by decide) (by decide) (by decide) (by decide)⟩

/-! ## In-place calls -/

/-- C12: `precn_add` is correct when the result object is an operand. For well-formed
`a` and `b` the in-place call `precn_add(a, a, b)` returns and leaves in `a` the old
value of `a` plus the value of `b`, every other object (so `b`, when it is another
object) untouched; the call `precn_add(a, a, a)` leaves twice the old value of `a`. -/
theorem precn_add_in_place (junk : Nat → Nat) (h : Heap) (a b : Ptr)
    (ha : Wf (h a)) (hb : Wf (h b)) :
    (∃ h1, precn_add junk h a a b = some h1 ∧ value (h1 a) = value (h a) + value (h b) ∧
      (∀ p, p ≠ a → h1 p = h p)) ∧
    (∃ h1, precn_add junk h a a a = some h1 ∧ value (h1 a) = 2 * value (h a) ∧
      (∀ p, p ≠ a → h1 p = h p)) := by
  constructor
  · obtain ⟨o, he, _, _, hv, _⟩ := precn_add_spec junk h a a b ha ha hb
    refine ⟨_, he, ?_, fun p hp => Function.update_noteq hp _ _⟩
    simp only [Function.update_same]; exact hv
  · obtain ⟨o, he, _, _, hv, _⟩ := precn_add_spec junk h a a a ha ha ha
    refine ⟨_, he, ?_, fun p hp => Function.update_noteq hp _ _⟩
    simp only [Function.update_same]; omega

/-- C12, on a concrete heap: `a = 4294967295` of capacity 1 and `b = 1`; the in-place
sum is `[0, 1]`, and doubling `a` in place gives `[4294967294, 1]`. -/
theorem precn_add_in_place_witness :
    (Wf (heapOf [⟨1, 1, [4294967295]⟩, ⟨1, 1, [1]⟩] 0) ∧
      Wf (heapOf [⟨1, 1, [4294967295]⟩, ⟨1, 1, [1]⟩] 1)) ∧
    (∃ h1, precn_add (fun _ => 5) (heapOf [⟨1, 1, [4294967295]⟩, ⟨1, 1, [1]⟩]) 0 0 1 = some h1 ∧
      value (h1 0) = value (heapOf [⟨1, 1, [4294967295]⟩, ⟨1, 1, [1]⟩] 0) +
        value (heapOf [⟨1, 1, [4294967295]⟩, ⟨1, 1, [1]⟩] 1) ∧
      (∀ p, p ≠ 0 → h1 p = heapOf [⟨1, 1, [4294967295]⟩, ⟨1, 1, [1]⟩] p)) ∧
    (precn_add (fun _ => 5) (heapOf [⟨1, 1, [4294967295]⟩, ⟨1, 1, [1]⟩]) 0 0 1).map
        (fun h1 => h1 0) = some ⟨2, 2, [0, 1]⟩ ∧
    (precn_add (fun _ => 5) (heapOf [⟨1, 1, [4294967295]⟩, ⟨1, 1, [1]⟩]) 0 0 0).map
        (fun h1 => h1 0) = some ⟨2, 2, [4294967294, 1]⟩ :=
  ⟨⟨by decide, by decide⟩,
    (precn_add_in_place (fun _ => 5) (heapOf [⟨1, 1, [4294967295]⟩, ⟨1, 1, [1]⟩]) 0 1
      (by decide) (by decide)).1,
    by decide, by decide⟩

/-- C13, the claim fails: with `a = 42` and `b = 17` the in-place call
`precn_mul(a, a, b)` returns and leaves `a` with `siz = 0`, the value 0, while the
product of the old values is 714. -/
theorem precn_mul_in_place_counterexample :
    Wf (heapOf [⟨1, 2, [42, 0]⟩, ⟨1, 1, [17]⟩] 0) ∧
    Wf (heapOf [⟨1, 2, [42, 0]⟩, ⟨1, 1, [17]⟩] 1) ∧
    (precn_mul (fun _ => 5) (heapOf [⟨1, 2, [42, 0]⟩, ⟨1, 1, [17]⟩]) 0 0 1).map
        (fun h1 => h1 0) = some ⟨0, 2, [0, 0]⟩ ∧
    (precn_mul (fun _ => 5) (heapOf [⟨1, 2, [42, 0]⟩, ⟨1, 1, [17]⟩]) 0 0 1).map
        (fun h1 => value (h1 0)) = some 0 ∧
    value (heapOf [⟨1, 2, [42, 0]⟩, ⟨1, 1, [17]⟩] 0) *
      value (heapOf [⟨1, 2, [42, 0]⟩, ⟨1, 1, [17]⟩] 1) = 714 := by
  decide

/-- C13, as the code has it: `precn_mul` clears the words of the result before it reads
the operands, so it needs a result object distinct from both. For well-formed `a` and
`b` the in-place call `precn_mul(a, a, b)` returns, stays inside the block of `a` and
leaves `a` with `siz = 0`, the value 0, whatever the old values were, every other object
untouched; with a well-formed result object `res` distinct from `a` and from `b` the
call leaves the product of the values in `res`. -/
theorem precn_mul_in_place (junk : Nat → Nat) (h : Heap) (res a b : Ptr)
    (ha : Wf (h a)) (hb : Wf (h b)) :
    (∃ h1, precn_mul junk h a a b = some h1 ∧ (h1 a).siz = 0 ∧ value (h1 a) = 0 ∧
      (∀ p, p ≠ a → h1 p = h p)) ∧
    (res ≠ a → res ≠ b → Wf (h res) →
      ∃ h1, precn_mul junk h res a b = some h1 ∧
        value (h1 res) = value (h a) * value (h b)) := by
  constructor
  · obtain ⟨o, he, _, hs, hv, _⟩ := precn_mul_alias junk h a a b (Or.inl rfl) ha ha hb
    refine ⟨_, he, ?_, ?_, fun p hp => Function.update_noteq hp _ _⟩
    · simp only [Function.update_same]; exact hs
    · simp only [Function.update_same]; exact hv
  · intro hra hrb hres
    obtain ⟨o, he, _, _, hv, _⟩ := precn_mul_spec junk h res a b hra hrb hres ha hb
    refine ⟨_, he, ?_⟩
    simp only [Function.update_same]; exact hv

/-- C13 as amended, on the heap of the counterexample: the in-place product of 42 and 17
is 0, and the product into a third object is 714. -/
theorem precn_mul_in_place_witness :
    (Wf (heapOf [⟨1, 2, [42, 0]⟩, ⟨1, 1, [17]⟩, ⟨0, 1, [0]⟩] 0) ∧
      Wf (heapOf [⟨1, 2, [42, 0]⟩, ⟨1, 1, [17]⟩, ⟨0, 1, [0]⟩] 1)) ∧
    (∃ h1, precn_mul (fun _ => 5) (heapOf [⟨1, 2, [42, 0]⟩, ⟨1, 1, [17]⟩, ⟨0, 1, [0]⟩]) 0 0 1 =
        some h1 ∧ (h1 0).siz = 0 ∧ value (h1 0) = 0 ∧
      (∀ p, p ≠ 0 → h1 p = heapOf [⟨1, 2, [42, 0]⟩, ⟨1, 1, [17]⟩, ⟨0, 1, [0]⟩] p)) ∧
    (precn_mul (fun _ => 5) (heapOf [⟨1, 2, [42, 0]⟩, ⟨1, 1, [17]⟩, ⟨0, 1, [0]⟩]) 2 0 1).map
        (fun h1 => h1 2) = some ⟨1, 2, [714, 0]⟩ :=
  ⟨⟨by decide, by decide⟩,
    (precn_mul_in_place (fun _ => 5) (heapOf [⟨1, 2, [42, 0]⟩, ⟨1, 1, [17]⟩, ⟨0, 1, [0]⟩]) 2 0 1
      (by decide) (by decide)).1,
    by decide⟩

/-! ## Order of the operands -/

/-- C14: `precn_sub(r1, a, b)` followed by `precn_sub(r2, b, a)` leaves equal results.
For well-formed objects, with `r1` distinct from `r2`, `a` and `b`, both calls return,
and afterwards `r1` and `r2` have the same `siz`, the same words below `siz` and the
same value, and `precn_cmp(r1, r2)` returns 0. -/
theorem precn_sub_symm (junk1 junk2 : Nat → Nat) (h : Heap) (r1 r2 a b : Ptr)
    (h12 : r1 ≠ r2) (h1a : r1 ≠ a) (h1b : r1 ≠ b)
    (hr1 : Wf (h r1)) (hr2 : Wf (h r2)) (ha : Wf (h a)) (hb : Wf (h b)) :
    ∃ h1 h2, precn_sub junk1 h r1 a b = some h1 ∧ precn_sub junk2 h1 r2 b a = some h2 ∧
      (h2 r1).siz = (h2 r2).siz ∧
      (h2 r1).a.take (h2 r1).siz = (h2 r2).a.take (h2 r2).siz ∧
      value (h2 r1) = value (h2 r2) ∧
      (precn_cmp h2 r1 r2).map Prod.snd = some 0 := by
  obtain ⟨o1, he1, hw1, hn1, hv1, _⟩ := precn_sub_spec junk1 h r1 a b hr1 ha hb
  generalize hh1 : Function.update (cmpHeap h a b) r1 o1 = h1 at he1
  have e1 : h1 r1 = o1 := by rw [← hh1]; simp
  have ea : value (h1 a) = value (h a) := by
    rw [← hh1, Function.update_noteq (Ne.symm h1a), value_cmpHeap]
  have eb : value (h1 b) = value (h b) := by
    rw [← hh1, Function.update_noteq (Ne.symm h1b), value_cmpHeap]
  have hw : ∀ p, Wf (h p) → Wf (h1 p) := by
    intro p hp; rw [← hh1]; exact Wf_update_cmpHeap a b r1 hw1 hp
  obtain ⟨o2, he2, hw2, hn2, hv2, _⟩ := precn_sub_spec junk2 h1 r2 b a (hw r2 hr2) (hw b hb)
    (hw a ha)
  generalize hh2 : Function.update (cmpHeap h1 b a) r2 o2 = h2 at he2
  have e2 : h2 r2 = o2 := by rw [← hh2]; simp
  have e3 : h2 r1 = o1 := by
    rw [← hh2, Function.update_noteq h12, cmpHeap_other h1 h1b h1a, e1]
  have hv : value o1 = value o2 := by
    rw [ea, eb] at hv2
    have : (value o1 : Int) = (value o2 : Int) := by rw [hv1, hv2, abs_sub_comm]
    exact_mod_cast this
  obtain ⟨hs, _, ht⟩ := norm_unique hw1 hw2 hn1 hn2 hv
  refine ⟨h1, h2, he1, he2, ?_, ?_, ?_, ?_⟩
  · rw [e3, e2]; exact hs
  · rw [e3, e2]; exact ht
  · rw [e3, e2]; exact hv
  · rw [precn_cmp_eq h2 r1 r2 (by rw [e3]; exact hw1) (by rw [e2]; exact hw2), e3, e2, hv]
    simp [cmp3]

/-- C14, on the values of the test: `a = 1000`, `b = 1`; both differences are `[999]`. -/
theorem precn_sub_symm_witness :
    (Wf (heapOf [⟨0, 1, [0]⟩, ⟨0, 1, [0]⟩, ⟨1, 1, [1000]⟩, ⟨1, 1, [1]⟩] 2) ∧
      Wf (heapOf [⟨0, 1, [0]⟩, ⟨0, 1, [0]⟩, ⟨1, 1, [1000]⟩, ⟨1, 1, [1]⟩] 3)) ∧
    (∃ h1 h2,
      precn_sub (fun _ => 5) (heapOf [⟨0, 1, [0]⟩, ⟨0, 1, [0]⟩, ⟨1, 1, [1000]⟩, ⟨1, 1, [1]⟩])
        0 2 3 = some h1 ∧
      precn_sub (fun _ => 6) h1 1 3 2 = some h2 ∧
      (h2 0).siz = (h2 1).siz ∧ (h2 0).a.take (h2 0).siz = (h2 1).a.take (h2 1).siz ∧
      value (h2 0) = value (h2 1) ∧ (precn_cmp h2 0 1).map Prod.snd = some 0) ∧
    (precn_sub (fun _ => 5) (heapOf [⟨0, 1, [0]⟩, ⟨0, 1, [0]⟩, ⟨1, 1, [1000]⟩, ⟨1, 1, [1]⟩])
        0 2 3).map (fun h1 => h1 0) = some ⟨1, 1, [999]⟩ :=
  ⟨⟨by decide, by decide⟩,
    precn_sub_symm (fun _ => 5) (fun _ => 6)
      (heapOf [⟨0, 1, [0]⟩, ⟨0, 1, [0]⟩, ⟨1, 1, [1000]⟩, ⟨1, 1, [1]⟩]) 0 1 2 3
      (by decide) (by decide) (by decide) (by decide) (by decide) (by decide) (by decide),
    by decide⟩

/-- C15: `precn_add(r1, a, b)` followed by `precn_add(r2, b, a)` leaves equal results.
For well-formed objects, with `r1` distinct from `r2`, `a` and `b`, both calls return,
and afterwards `r1` and `r2` have the same `siz`, the same words below `siz` and the
same value. -/
theorem precn_add_comm (junk1 junk2 : Nat → Nat) (h : Heap) (r1 r2 a b : Ptr)
    (h12 : r1 ≠ r2) (h1a : r1 ≠ a) (h1b : r1 ≠ b)
    (hr1 : Wf (h r1)) (hr2 : Wf (h r2)) (ha : Wf (h a)) (hb : Wf (h b)) :
    ∃ h1 h2, precn_add junk1 h r1 a b = some h1 ∧ precn_add junk2 h1 r2 b a = some h2 ∧
      (h2 r1).siz = (h2 r2).siz ∧
      (h2 r1).a.take (h2 r1).siz = (h2 r2).a.take (h2 r2).siz ∧
      value (h2 r1) = value (h2 r2) := by
  obtain ⟨o1, he1, hw1, hn1, hv1, _⟩ := precn_add_spec junk1 h r1 a b hr1 ha hb
  generalize hh1 : Function.update h r1 o1 = h1 at he1
  have e1 : h1 r1 = o1 := by rw [← hh1]; simp
  have ea : h1 a = h a := by rw [← hh1, Function.update_noteq (Ne.symm h1a)]
  have eb : h1 b = h b := by rw [← hh1, Function.update_noteq (Ne.symm h1b)]
  have hw : ∀ p, Wf (h p) → Wf (h1 p) := by
    intro p hp; rw [← hh1]; exact Wf_update r1 hw1 hp
  obtain ⟨o2, he2, hw2, hn2, hv2, _⟩ := precn_add_spec junk2 h1 r2 b a (hw r2 hr2) (hw b hb)
    (hw a ha)
  generalize hh2 : Function.update h1 r2 o2 = h2 at he2
  have e2 : h2 r2 = o2 := by rw [← hh2]; simp
  have e3 : h2 r1 = o1 := by rw [← hh2, Function.update_noteq h12, e1]
  have hv : value o1 = value o2 := by rw [hv1, hv2, ea, eb, Nat.add_comm]
  obtain ⟨hs, _, ht⟩ := norm_unique hw1 hw2 hn1 hn2 hv
  refine ⟨h1, h2, he1, he2, ?_, ?_, ?_⟩
  · rw [e3, e2]; exact hs
  · rw [e3, e2]; exact ht
  · rw [e3, e2]; exact hv

/-- C15, on a concrete heap: `a = [4294967295, 7]` and `b = [1]` in result objects of
capacity 1 and 4; both sums have the significant words `[0, 8]`. -/
theorem precn_add_comm_witness :
    (Wf (heapOf [⟨0, 1, [0]⟩, ⟨0, 4, [9, 9, 9, 9]⟩, ⟨2, 2, [4294967295, 7]⟩, ⟨1, 1, [1]⟩] 2) ∧
      Wf (heapOf [⟨0, 1, [0]⟩, ⟨0, 4, [9, 9, 9, 9]⟩, ⟨2, 2, [4294967295, 7]⟩, ⟨1, 1, [1]⟩] 3)) ∧
    (∃ h1 h2,
      precn_add (fun _ => 5)
        (heapOf [⟨0, 1, [0]⟩, ⟨0, 4, [9, 9, 9, 9]⟩, ⟨2, 2, [4294967295, 7]⟩, ⟨1, 1, [1]⟩])
        0 2 3 = some h1 ∧
      precn_add (fun _ => 6) h1 1 3 2 = some h2 ∧
      (h2 0).siz = (h2 1).siz ∧ (h2 0).a.take (h2 0).siz = (h2 1).a.take (h2 1).siz ∧
      value (h2 0) = value (h2 1)) ∧
    (precn_add (fun _ => 5)
        (heapOf [⟨0, 1, [0]⟩, ⟨0, 4, [9, 9, 9, 9]⟩, ⟨2, 2, [4294967295, 7]⟩, ⟨1, 1, [1]⟩])
        0 2 3).map (fun h1 => (h1 0).a.take (h1 0).siz) = some [0, 8] ∧
    (precn_add (fun _ => 5)
        (heapOf [⟨0, 1, [0]⟩, ⟨0, 4, [9, 9, 9, 9]⟩, ⟨2, 2, [4294967295, 7]⟩, ⟨1, 1, [1]⟩])
        1 3 2).map (fun h1 => (h1 1).a.take (h1 1).siz) = some [0, 8] :=
  ⟨⟨by decide, by decide⟩,
    precn_add_comm (fun _ => 5) (fun _ => 6)
      (heapOf [⟨0, 1, [0]⟩, ⟨0, 4, [9, 9, 9, 9]⟩, ⟨2, 2, [4294967295, 7]⟩, ⟨1, 1, [1]⟩]) 0 1 2 3
      (by decide) (by decide) (by decide) (by decide) (by decide) (by decide) (by decide),
    by decide, by decide⟩

/-! ## Multiplication by one and by zero -/

theorem value_one {x : precn_struct} (hs : x.siz = 1) (hw : x.a.getD 0 0 = 1) :
    value x = 1 := by
  rw [value_eq_valN, hs]
  show (0 : Nat) + wd x 0 * 2 ^ (32 * 0) = 1
  unfold wd
  rw [hw]
  norm_num

/-- A well-formed normalized object that has the value of `x` has the `siz` and the
significant words of the normalized `x`. -/
theorem same_as_normalized {o x : precn_struct} (ho : Wf o) (hn : Normalized o) (hx : Wf x)
    (hv : value o = value x) :
    o.siz = nlen x ∧ o.a.take o.siz = x.a.take (nlen x) := by
  obtain ⟨hs, _, ht⟩ := norm_unique ho (Wf_nzObj hx) hn (Normalized_nzObj x)
    (by rw [value_nzObj]; exact hv)
  exact ⟨hs, ht⟩

/-- C16: one and zero in `precn_mul`. For a well-formed `a`, a well-formed scalar object
`s` and a well-formed result object distinct from both: when `s` is the one-word value 1
(`siz = 1`, `a[0] = 1`), `precn_mul(res, a, s)` and `precn_mul(res, s, a)` return and
leave in `res` the value of `a`, with the `siz` and the significant words of the
normalized `a`; when `s` is zero (`siz = 0`), both calls leave `res` zero, with
`siz = 0`. -/
theorem precn_mul_one_zero (junk : Nat → Nat) (h : Heap) (res a s : Ptr)
    (hra : res ≠ a) (hrs : res ≠ s)
    (hres : Wf (h res)) (ha : Wf (h a)) (hs : Wf (h s)) :
    ((h s).siz = 1 → (h s).a.getD 0 0 = 1 →
      (∃ h1, precn_mul junk h res a s = some h1 ∧ value (h1 res) = value (h a) ∧
        (h1 res).siz = nlen (h a) ∧
        (h1 res).a.take (h1 res).siz = (h a).a.take (nlen (h a))) ∧
      (∃ h1, precn_mul junk h res s a = some h1 ∧ value (h1 res) = value (h a) ∧
        (h1 res).siz = nlen (h a) ∧
        (h1 res).a.take (h1 res).siz = (h a).a.take (nlen (h a)))) ∧
    ((h s).siz = 0 →
      (∃ h1, precn_mul junk h res a s = some h1 ∧ (h1 res).siz = 0 ∧ value (h1 res) = 0) ∧
      (∃ h1, precn_mul junk h res s a = some h1 ∧ (h1 res).siz = 0 ∧ value (h1 res) = 0)) := by
  obtain ⟨o1, he1, hw1, hn1, hv1, _⟩ := precn_mul_spec junk h res a s hra hrs hres ha hs
  obtain ⟨o2, he2, hw2, hn2, hv2, _⟩ := precn_mul_spec junk h res s a hrs hra hres hs ha
  constructor
  · intro h1 h2
    have hone := value_one h1 h2
    rw [hone, Nat.mul_one] at hv1
    rw [hone, Nat.one_mul] at hv2
    obtain ⟨a1, a2⟩ := same_as_normalized hw1 hn1 ha hv1
    obtain ⟨b1, b2⟩ := same_as_normalized hw2 hn2 ha hv2
    refine ⟨⟨_, he1, ?_, ?_, ?_⟩, ⟨_, he2, ?_, ?_, ?_⟩⟩ <;>
      simp only [Function.update_same] <;> assumption
  · intro h0
    have hz := value_zero_siz h0
    rw [hz, Nat.mul_zero] at hv1
    rw [hz, Nat.zero_mul] at hv2
    have s1 := siz_zero_of_value hn1 hv1
    have s2 := siz_zero_of_value hn2 hv2
    refine ⟨⟨_, he1, ?_, ?_⟩, ⟨_, he2, ?_, ?_⟩⟩ <;>
      simp only [Function.update_same] <;> assumption

/-- C16, on a concrete heap: `a = [7, 9, 0]` with `siz = 3` (one zero word at the top),
the scalar `[1]`; the product has `siz = 2`, the normalized length of `a`, and the words
`[7, 9]`. -/
theorem precn_mul_one_zero_witness :
    (Wf (heapOf [⟨0, 1, [0]⟩, ⟨3, 3, [7, 9, 0]⟩, ⟨1, 1, [1]⟩] 1) ∧
      (heapOf [⟨0, 1, [0]⟩, ⟨3, 3, [7, 9, 0]⟩, ⟨1, 1, [1]⟩] 2).siz = 1 ∧
      (heapOf [⟨0, 1, [0]⟩, ⟨3, 3, [7, 9, 0]⟩, ⟨1, 1, [1]⟩] 2).a.getD 0 0 = 1) ∧
    (∃ h1, precn_mul (fun _ => 5) (heapOf [⟨0, 1, [0]⟩, ⟨3, 3, [7, 9, 0]⟩, ⟨1, 1, [1]⟩]) 0 1 2 =
        some h1 ∧
      value (h1 0) = value (heapOf [⟨0, 1, [0]⟩, ⟨3, 3, [7, 9, 0]⟩, ⟨1, 1, [1]⟩] 1) ∧
      (h1 0).siz = nlen (heapOf [⟨0, 1, [0]⟩, ⟨3, 3, [7, 9, 0]⟩, ⟨1, 1, [1]⟩] 1) ∧
      (h1 0).a.take (h1 0).siz =
        (heapOf [⟨0, 1, [0]⟩, ⟨3, 3, [7, 9, 0]⟩, ⟨1, 1, [1]⟩] 1).a.take
          (nlen (heapOf [⟨0, 1, [0]⟩, ⟨3, 3, [7, 9, 0]⟩, ⟨1, 1, [1]⟩] 1))) ∧
    (precn_mul (fun _ => 5) (heapOf [⟨0, 1, [0]⟩, ⟨3, 3, [7, 9, 0]⟩, ⟨1, 1, [1]⟩]) 0 1 2).map
        (fun h1 => ((h1 0).siz, (h1 0).a.take (h1 0).siz)) = some (2, [7, 9]) :=
  ⟨⟨by decide, by decide, by decide⟩,
    ((precn_mul_one_zero (fun _ => 5) (heapOf [⟨0, 1, [0]⟩, ⟨3, 3, [7, 9, 0]⟩, ⟨1, 1, [1]⟩]) 0 1 2
      (by decide) (by decide) (by decide) (by decide) (by decide)).1 (by decide) (by decide)).1,
    by decide⟩

/-! ## Copy and normalize -/

/-- C17: `precn_copy(dst, src)` for well-formed distinct objects returns and leaves
`dst.siz = src.siz` and `dst.a[i] = src.a[i]` for every `i < src.siz`; `src` and every
object other than `dst` is unchanged; the capacity of `dst` is the maximum of its old
capacity and `src.siz`, so it becomes exactly `src.siz` when it was smaller and stays
the same otherwise. -/
theorem precn_copy_result (junk : Nat → Nat) (h : Heap) (dst src : Ptr) (hne : dst ≠ src)
    (hd : Wf (h dst)) (hs : Wf (h src)) :
    ∃ h1, precn_copy junk h dst src = some h1 ∧ (h1 dst).siz = (h src).siz ∧
      (∀ i, i < (h src).siz → (h1 dst).a.getD i 0 = (h src).a.getD i 0) ∧
      h1 src = h src ∧ (∀ p, p ≠ dst → h1 p = h p) ∧
      (h1 dst).alloc_size = max (h dst).alloc_size (h src).siz ∧
      ((h dst).alloc_size < (h src).siz → (h1 dst).alloc_size = (h src).siz) ∧
      ((h src).siz ≤ (h dst).alloc_size → (h1 dst).alloc_size = (h dst).alloc_size) := by
  have hal : (copyObj junk (h dst) (h src)).alloc_size = max (h dst).alloc_size (h src).siz :=
    copyObj_alloc junk _ _
  refine ⟨_, precn_copy_eq junk h dst src hne hd hs, ?_, ?_, ?_, ?_, ?_, ?_, ?_⟩
  · simp only [Function.update_same]; rfl
  · intro i hi
    simp only [Function.update_same]
    have := wd_copyObj junk (d := h dst) hs i
    rw [if_pos hi] at this
    exact this
  · exact Function.update_noteq (Ne.symm hne) _ _
  · intro p hp; exact Function.update_noteq hp _ _
  · simp only [Function.update_same]; exact hal
  · intro hlt; simp only [Function.update_same]; rw [hal]; omega
  · intro hle; simp only [Function.update_same]; rw [hal]; omega

/-- C17, on a concrete heap: a destination of capacity 1 takes the two significant
words of `[7, 9, 0]` with `siz = 2` and its capacity becomes 2. -/
theorem precn_copy_result_witness :
    (Wf (heapOf [⟨1, 1, [3]⟩, ⟨2, 3, [7, 9, 0]⟩] 0) ∧
      Wf (heapOf [⟨1, 1, [3]⟩, ⟨2, 3, [7, 9, 0]⟩] 1)) ∧
    (∃ h1, precn_copy (fun _ => 5) (heapOf [⟨1, 1, [3]⟩, ⟨2, 3, [7, 9, 0]⟩]) 0 1 = some h1 ∧
      (h1 0).siz = (heapOf [⟨1, 1, [3]⟩, ⟨2, 3, [7, 9, 0]⟩] 1).siz ∧
      (∀ i, i < (heapOf [⟨1, 1, [3]⟩, ⟨2, 3, [7, 9, 0]⟩] 1).siz →
        (h1 0).a.getD i 0 = (heapOf [⟨1, 1, [3]⟩, ⟨2, 3, [7, 9, 0]⟩] 1).a.getD i 0) ∧
      h1 1 = heapOf [⟨1, 1, [3]⟩, ⟨2, 3, [7, 9, 0]⟩] 1 ∧
      (∀ p, p ≠ 0 → h1 p = heapOf [⟨1, 1, [3]⟩, ⟨2, 3, [7, 9, 0]⟩] p) ∧
      (h1 0).alloc_size = max (heapOf [⟨1, 1, [3]⟩, ⟨2, 3, [7, 9, 0]⟩] 0).alloc_size
        (heapOf [⟨1, 1, [3]⟩, ⟨2, 3, [7, 9, 0]⟩] 1).siz ∧
      ((heapOf [⟨1, 1, [3]⟩, ⟨2, 3, [7, 9, 0]⟩] 0).alloc_size <
          (heapOf [⟨1, 1, [3]⟩, ⟨2, 3, [7, 9, 0]⟩] 1).siz →
        (h1 0).alloc_size = (heapOf [⟨1, 1, [3]⟩, ⟨2, 3, [7, 9, 0]⟩] 1).siz) ∧
      ((heapOf [⟨1, 1, [3]⟩, ⟨2, 3, [7, 9, 0]⟩] 1).siz ≤
          (heapOf [⟨1, 1, [3]⟩, ⟨2, 3, [7, 9, 0]⟩] 0).alloc_size →
        (h1 0).alloc_size = (heapOf [⟨1, 1, [3]⟩, ⟨2, 3, [7, 9, 0]⟩] 0).alloc_size)) ∧
    (precn_copy (fun _ => 5) (heapOf [⟨1, 1, [3]⟩, ⟨2, 3, [7, 9, 0]⟩]) 0 1).map
        (fun h1 => h1 0) = some ⟨2, 2, [7, 9]⟩ :=
  ⟨⟨by decide, by decide⟩,
    precn_copy_result (fun _ => 5) (heapOf [⟨1, 1, [3]⟩, ⟨2, 3, [7, 9, 0]⟩]) 0 1
      (by decide) (by decide) (by decide),
    by decide⟩

/-- C18: `precn_normalize(n)` on an object whose `siz` words lie in its block returns,
leaves the words, the capacity and the value of `n` and every other object unchanged,
and sets `siz` to the least `s ≤ old siz` such that the words at the indices
`s .. old siz - 1` are all zero; afterwards `siz = 0` or `a[siz-1] ≠ 0`, and a second
call changes nothing. -/
theorem precn_normalize_result (h : Heap) (n : Ptr) (hs : (h n).siz ≤ (h n).a.length) :
    ∃ h1, precn_normalize h n = some h1 ∧ (h1 n).a = (h n).a ∧
      (h1 n).alloc_size = (h n).alloc_size ∧ (∀ p, p ≠ n → h1 p = h p) ∧
      value (h1 n) = value (h n) ∧ (h1 n).siz ≤ (h n).siz ∧
      (∀ j, (h1 n).siz ≤ j → j < (h n).siz → (h n).a.getD j 0 = 0) ∧
      (∀ s, (∀ j, s ≤ j → j < (h n).siz → (h n).a.getD j 0 = 0) → (h1 n).siz ≤ s) ∧
      Normalized (h1 n) ∧ precn_normalize h1 n = some h1 := by
  have e : Function.update h n (nzObj (h n)) n = nzObj (h n) := by simp
  refine ⟨_, precn_normalize_eq h n hs, ?_, ?_, ?_, ?_, ?_, ?_, ?_, ?_, ?_⟩
  · rw [e]; rfl
  · rw [e]; rfl
  · intro p hp; exact Function.update_noteq hp _ _
  · rw [e]; exact value_nzObj _
  · rw [e]; exact normLen_le _ _
  · rw [e]; intro j h1 h2; exact normLen_above (f := wd (h n)) j h1 h2
  · rw [e]; intro s hz; exact normLen_least (f := wd (h n)) hz
  · rw [e]; exact Normalized_nzObj _
  · rw [precn_normalize_eq _ n (by rw [e]; exact Nat.le_trans (normLen_le _ _) hs), e,
      nzObj_of_Normalized (Normalized_nzObj _), Function.update_idem]

/-- C18, on a concrete heap: `[7, 0, 9, 0, 0]` with `siz = 5` is trimmed to `siz = 3`;
the zero word at index 1 is below a non-zero word and stays significant. -/
theorem precn_normalize_result_witness :
    (heapOf [⟨5, 5, [7, 0, 9, 0, 0]⟩] 0).siz ≤ (heapOf [⟨5, 5, [7, 0, 9, 0, 0]⟩] 0).a.length ∧
    (∃ h1, precn_normalize (heapOf [⟨5, 5, [7, 0, 9, 0, 0]⟩]) 0 = some h1 ∧
      (h1 0).a = (heapOf [⟨5, 5, [7, 0, 9, 0, 0]⟩] 0).a ∧
      (h1 0).alloc_size = (heapOf [⟨5, 5, [7, 0, 9, 0, 0]⟩] 0).alloc_size ∧
      (∀ p, p ≠ 0 → h1 p = heapOf [⟨5, 5, [7, 0, 9, 0, 0]⟩] p) ∧
      value (h1 0) = value (heapOf [⟨5, 5, [7, 0, 9, 0, 0]⟩] 0) ∧
      (h1 0).siz ≤ (heapOf [⟨5, 5, [7, 0, 9, 0, 0]⟩] 0).siz ∧
      (∀ j, (h1 0).siz ≤ j → j < (heapOf [⟨5, 5, [7, 0, 9, 0, 0]⟩] 0).siz →
        (heapOf [⟨5, 5, [7, 0, 9, 0, 0]⟩] 0).a.getD j 0 = 0) ∧
      (∀ s, (∀ j, s ≤ j → j < (heapOf [⟨5, 5, [7, 0, 9, 0, 0]⟩] 0).siz →
        (heapOf [⟨5, 5, [7, 0, 9, 0, 0]⟩] 0).a.getD j 0 = 0) → (h1 0).siz ≤ s) ∧
      Normalized (h1 0) ∧ precn_normalize h1 0 = some h1) ∧
    (precn_normalize (heapOf [⟨5, 5, [7, 0, 9, 0, 0]⟩]) 0).map (fun h1 => h1 0) =
      some ⟨3, 5, [7, 0, 9, 0, 0]⟩ :=
  ⟨by decide, precn_normalize_result (heapOf [⟨5, 5, [7, 0, 9, 0, 0]⟩]) 0 (by decide),
    by decide⟩

/-! ## Capacity -/

set_option maxRecDepth 100000 in
/-- C19, the claim fails in its second half: the capacity of a result object can change
although the result does not need more words than were allocated. `precn_add` of `[1]`
and `[1]` into a result object of capacity 1 leaves the one-word sum `[2]` and the
capacity 2. `precn_divmod` of `[0, 2]` by `[1, 1]` with a quotient object of capacity 1
leaves the one-word quotient `[1]` and the capacity 2. -/
theorem capacity_grows_without_need :
    (Wf (heapOf [⟨0, 1, [0]⟩, ⟨1, 1, [1]⟩, ⟨1, 1, [1]⟩] 0) ∧
      (heapOf [⟨0, 1, [0]⟩, ⟨1, 1, [1]⟩, ⟨1, 1, [1]⟩] 0).alloc_size = 1 ∧
      (precn_add (fun _ => 5) (heapOf [⟨0, 1, [0]⟩, ⟨1, 1, [1]⟩, ⟨1, 1, [1]⟩]) 0 1 2).map
        (fun h1 => h1 0) = some ⟨1, 2, [2, 5]⟩) ∧
    (Wf (heapOf [⟨0, 1, [0]⟩, ⟨0, 3, [0, 0, 0]⟩, ⟨2, 2, [0, 2]⟩, ⟨2, 2, [1, 1]⟩] 0) ∧
      (heapOf [⟨0, 1, [0]⟩, ⟨0, 3, [0, 0, 0]⟩, ⟨2, 2, [0, 2]⟩, ⟨2, 2, [1, 1]⟩] 0).alloc_size = 1 ∧
      (precn_divmod (fun _ => 0)
          (heapOf [⟨0, 1, [0]⟩, ⟨0, 3, [0, 0, 0]⟩, ⟨2, 2, [0, 2]⟩, ⟨2, 2, [1, 1]⟩]) 0 1 2 3).map
        (fun s => (s.1 0, s.1 1, s.2)) =
          some (⟨1, 2, [1, 0]⟩, ⟨1, 3, [4294967295, 0, 0]⟩, 0)) := by
  decide

/-- C19 as amended: no operation lowers a capacity, and a capacity changes only where the
operation reserves room for its result. On well-formed arguments `precn_zero`,
`precn_set_u32`, `precn_normalize` and `precn_cmp` leave every `alloc_size` as it was.
`precn_copy`, `precn_add`, `precn_sub`, `precn_mul` and `precn_shl` leave every
`alloc_size` but that of `res` as it was, and that of `res` becomes the maximum of its
old value and the length the operation reserves before it computes: `a.siz` for
`precn_copy`, `max(a.siz, b.siz) + 1` for `precn_add`, the larger normalized length for
`precn_sub`, `a.siz + b.siz` for `precn_mul`, `a.siz + n / 32` plus one when
`n % 32 > 0` for `precn_shl` by `n > 0` bits. `precn_divmod` either returns -1 and
changes nothing, or returns 0, leaves the capacities of dividend and divisor as they
were and raises that of the quotient (when `value a ≥ value b`) or of the remainder
(when `value a < value b`) to the normalized length of the dividend when it is below.
The result itself may need fewer words than the reserved length. -/
theorem capacity_monotone (junk : Nat → Nat) (h : Heap) (res a b q r : Ptr) (n val : Nat)
    (hres : Wf (h res)) (ha : Wf (h a)) (hb : Wf (h b)) (hq : Wf (h q)) (hr : Wf (h r)) :
    (∃ h1, precn_zero h res = some h1 ∧ ∀ p, (h1 p).alloc_size = (h p).alloc_size) ∧
    (∃ h1, precn_set_u32 h res val = some h1 ∧ ∀ p, (h1 p).alloc_size = (h p).alloc_size) ∧
    (res ≠ a → ∃ h1, precn_copy junk h res a = some h1 ∧
      (h1 res).alloc_size = max (h res).alloc_size (h a).siz ∧
      ∀ p, p ≠ res → (h1 p).alloc_size = (h p).alloc_size) ∧
    (∃ h1, precn_normalize h res = some h1 ∧ ∀ p, (h1 p).alloc_size = (h p).alloc_size) ∧
    (∃ s, precn_cmp h a b = some s ∧ ∀ p, (s.1 p).alloc_size = (h p).alloc_size) ∧
    (∃ h1, precn_add junk h res a b = some h1 ∧
      (h1 res).alloc_size = max (h res).alloc_size (max (h a).siz (h b).siz + 1) ∧
      ∀ p, p ≠ res → (h1 p).alloc_size = (h p).alloc_size) ∧
    (∃ h1, precn_sub junk h res a b = some h1 ∧
      (h1 res).alloc_size = max (h res).alloc_size (max (nlen (h a)) (nlen (h b))) ∧
      ∀ p, p ≠ res → (h1 p).alloc_size = (h p).alloc_size) ∧
    (∃ h1, precn_mul junk h res a b = some h1 ∧
      (h1 res).alloc_size = max (h res).alloc_size ((h a).siz + (h b).siz) ∧
      ∀ p, p ≠ res → (h1 p).alloc_size = (h p).alloc_size) ∧
    (q ≠ r → q ≠ a → q ≠ b → r ≠ a → r ≠ b →
      ∃ s, precn_divmod junk h q r a b = some s ∧
        ((s.2 = -1 ∧ s.1 = h) ∨
          (s.2 = 0 ∧
            (s.1 q).alloc_size =
              max (h q).alloc_size (if value (h a) < value (h b) then 0 else nlen (h a)) ∧
            (s.1 r).alloc_size =
              max (h r).alloc_size (if value (h a) < value (h b) then nlen (h a) else 0) ∧
            ∀ p, p ≠ q → p ≠ r → (s.1 p).alloc_size = (h p).alloc_size))) ∧
    (res ≠ a → ∃ h1, precn_shl junk h res a n = some h1 ∧
      (h1 res).alloc_size = max (h res).alloc_size
        (if n = 0 then (h a).siz else (h a).siz + n / 32 + (if n % 32 > 0 then 1 else 0)) ∧
      ∀ p, p ≠ res → (h1 p).alloc_size = (h p).alloc_size) := by
  have hupd : ∀ (g : Heap) (o : precn_struct), o.alloc_size = (g res).alloc_size →
      ∀ p, (Function.update g res o p).alloc_size = (g p).alloc_size := by
    intro g o ho p
    by_cases e : p = res
    · subst e; simp only [Function.update_same]; exact ho
    · rw [Function.update_noteq e]
  refine ⟨?_, ?_, ?_, ?_, ?_, ?_, ?_, ?_, ?_, ?_⟩
  · exact ⟨_, precn_zero_eq h res hres.1, hupd h _ rfl⟩
  · obtain ⟨o, he, _, hal, _⟩ := precn_set_u32_spec h res val hres
    exact ⟨_, he, hupd h o hal⟩
  · intro hra
    refine ⟨_, precn_copy_eq junk h res a hra hres ha, ?_, fun p hp => by
      rw [Function.update_noteq hp]⟩
    simp only [Function.update_same]; exact copyObj_alloc junk _ _
  · exact ⟨_, precn_normalize_eq h res (Wf_siz_le hres), hupd h _ rfl⟩
  · exact ⟨_, precn_cmp_eq h a b ha hb, fun p => alloc_cmpHeap h a b p⟩
  · obtain ⟨o, he, _, _, _, hal⟩ := precn_add_spec junk h res a b hres ha hb
    refine ⟨_, he, ?_, fun p hp => by rw [Function.update_noteq hp]⟩
    simp only [Function.update_same]; exact hal
  · obtain ⟨o, he, _, _, _, hal⟩ := precn_sub_spec junk h res a b hres ha hb
    refine ⟨_, he, ?_, fun p hp => by rw [Function.update_noteq hp, alloc_cmpHeap]⟩
    simp only [Function.update_same]; exact hal
  · by_cases hal : res = a ∨ res = b
    · obtain ⟨o, he, _, _, _, hal⟩ := precn_mul_alias junk h res a b hal hres ha hb
      refine ⟨_, he, ?_, fun p hp => by rw [Function.update_noteq hp]⟩
      simp only [Function.update_same]; exact hal
    · obtain ⟨o, he, _, _, _, hal⟩ := precn_mul_spec junk h res a b (fun e => hal (Or.inl e))
        (fun e => hal (Or.inr e)) hres ha hb
      refine ⟨_, he, ?_, fun p hp => by rw [Function.update_noteq hp]⟩
      simp only [Function.update_same]; exact hal
  · intro hqr hqa hqb hr_a hr_b
    by_cases hs : (h b).siz = 0
    · exact ⟨(h, -1), by unfold precn_divmod; rw [if_pos hs]; rfl, Or.inl ⟨rfl, rfl⟩⟩
    · obtain ⟨h2, he, hfr, _, _, _, _, haq, har, _⟩ := precn_divmod_spec junk h q r a b hqr hqa
        hqb hr_a hr_b hq hr ha hb hs
      refine ⟨(h2, 0), he, Or.inr ⟨rfl, haq, har, fun p hpq hpr => ?_⟩⟩
      show (h2 p).alloc_size = _
      rw [hfr p hpq hpr, alloc_cmpHeap]
  · intro hra
    obtain ⟨o, he, _, _, _, _, hal⟩ := precn_shl_spec junk h res a n hra hres ha
    refine ⟨_, he, ?_, fun p hp => by rw [Function.update_noteq hp]⟩
    simp only [Function.update_same]; exact hal

/-- C19 as amended, on the heap of the counterexample: `precn_add` of `[1]` and `[1]`
raises the capacity 1 of the result object to the reserved length 2 and leaves the
other capacities as they were. -/
theorem capacity_monotone_witness :
    (Wf (heapOf [⟨0, 1, [0]⟩, ⟨1, 1, [1]⟩, ⟨1, 1, [1]⟩] 0) ∧ Wf (heapOf [⟨0, 1, [0]⟩, ⟨1, 1, [1]⟩, ⟨1, 1, [1]⟩] 1) ∧
      Wf (heapOf [⟨0, 1, [0]⟩, ⟨1, 1, [1]⟩, ⟨1, 1, [1]⟩] 2)) ∧
    (∃ h1, precn_add (fun _ => 5) (heapOf [⟨0, 1, [0]⟩, ⟨1, 1, [1]⟩, ⟨1, 1, [1]⟩]) 0 1 2 = some h1 ∧
      (h1 0).alloc_size = max (heapOf [⟨0, 1, [0]⟩, ⟨1, 1, [1]⟩, ⟨1, 1, [1]⟩] 0).alloc_size
        (max (heapOf [⟨0, 1, [0]⟩, ⟨1, 1, [1]⟩, ⟨1, 1, [1]⟩] 1).siz
          (heapOf [⟨0, 1, [0]⟩, ⟨1, 1, [1]⟩, ⟨1, 1, [1]⟩] 2).siz + 1) ∧
      ∀ p, p ≠ 0 → (h1 p).alloc_size = (heapOf [⟨0, 1, [0]⟩, ⟨1, 1, [1]⟩, ⟨1, 1, [1]⟩] p).alloc_size) ∧
    max (heapOf [⟨0, 1, [0]⟩, ⟨1, 1, [1]⟩, ⟨1, 1, [1]⟩] 0).alloc_size
      (max (heapOf [⟨0, 1, [0]⟩, ⟨1, 1, [1]⟩, ⟨1, 1, [1]⟩] 1).siz
        (heapOf [⟨0, 1, [0]⟩, ⟨1, 1, [1]⟩, ⟨1, 1, [1]⟩] 2).siz + 1) = 2 :=
  ⟨⟨by decide, by decide, by decide⟩,
    (capacity_monotone (fun _ => 5) (heapOf [⟨0, 1, [0]⟩, ⟨1, 1, [1]⟩, ⟨1, 1, [1]⟩]) 0 1 2 0 0 5 7
      (by decide) (by decide) (by decide) (by decide) (by decide)).2.2.2.2.2.1,
    by decide⟩

/-! ## The remainder of `precn_divmod` in an object that is too small -/

set_option maxRecDepth 100000 in
/-- C20: `precn_divmod` drops the bit shifted out of a remainder whose capacity is
exhausted and still returns 0. Dividend `[5, 3]` (3 * 2^32 + 5), divisor `[1, 1]`
(2^32 + 1), a quotient object of capacity 2 and a remainder object of capacity 1, all
well-formed: the call returns 0 with the quotient 0 and the remainder `[5]`, so that
`value q * value b + value r = 5`, not the dividend 12884901893. With a remainder object
of capacity 2 the same call gives the quotient 3 and the remainder 2. -/
theorem precn_divmod_drops_carry :
    (Wf (heapOf [⟨0, 2, [0, 0]⟩, ⟨0, 1, [0]⟩, ⟨2, 2, [5, 3]⟩, ⟨2, 2, [1, 1]⟩] 0) ∧
      Wf (heapOf [⟨0, 2, [0, 0]⟩, ⟨0, 1, [0]⟩, ⟨2, 2, [5, 3]⟩, ⟨2, 2, [1, 1]⟩] 1) ∧
      Wf (heapOf [⟨0, 2, [0, 0]⟩, ⟨0, 1, [0]⟩, ⟨2, 2, [5, 3]⟩, ⟨2, 2, [1, 1]⟩] 2) ∧
      Wf (heapOf [⟨0, 2, [0, 0]⟩, ⟨0, 1, [0]⟩, ⟨2, 2, [5, 3]⟩, ⟨2, 2, [1, 1]⟩] 3)) ∧
    value (heapOf [⟨0, 2, [0, 0]⟩, ⟨0, 1, [0]⟩, ⟨2, 2, [5, 3]⟩, ⟨2, 2, [1, 1]⟩] 3) ≠ 0 ∧
    (heapOf [⟨0, 2, [0, 0]⟩, ⟨0, 1, [0]⟩, ⟨2, 2, [5, 3]⟩, ⟨2, 2, [1, 1]⟩] 1).alloc_size = 1 ∧
    (precn_divmod (fun _ => 0)
        (heapOf [⟨0, 2, [0, 0]⟩, ⟨0, 1, [0]⟩, ⟨2, 2, [5, 3]⟩, ⟨2, 2, [1, 1]⟩]) 0 1 2 3).map
      (fun s => (s.2, s.1 0, s.1 1)) = some (0, ⟨0, 2, [0, 0]⟩, ⟨1, 1, [5]⟩) ∧
    (precn_divmod (fun _ => 0)
        (heapOf [⟨0, 2, [0, 0]⟩, ⟨0, 1, [0]⟩, ⟨2, 2, [5, 3]⟩, ⟨2, 2, [1, 1]⟩]) 0 1 2 3).map
      (fun s => (s.2, value (s.1 0) *
        value (heapOf [⟨0, 2, [0, 0]⟩, ⟨0, 1, [0]⟩, ⟨2, 2, [5, 3]⟩, ⟨2, 2, [1, 1]⟩] 3) +
          value (s.1 1))) = some (0, 5) ∧
    value (heapOf [⟨0, 2, [0, 0]⟩, ⟨0, 1, [0]⟩, ⟨2, 2, [5, 3]⟩, ⟨2, 2, [1, 1]⟩] 2) = 12884901893 ∧
    (precn_divmod (fun _ => 0)
        (heapOf [⟨0, 2, [0, 0]⟩, ⟨0, 2, [0, 0]⟩, ⟨2, 2, [5, 3]⟩, ⟨2, 2, [1, 1]⟩]) 0 1 2 3).map
      (fun s => (s.2, s.1 0, s.1 1)) = some (0, ⟨1, 2, [3, 0]⟩, ⟨1, 2, [2, 0]⟩) := by
  decide

/-! ## The quotient of `precn_divmod` in an object that is too small -/

set_option maxRecDepth 100000 in
/-- C21: the quotient `precn_divmod` leaves depends on the prior state of the quotient
object. Dividend `[0, 1]` (2^32), divisor `[1]`, a remainder object of capacity 2, and
two heaps that differ only in the quotient object: capacity 2 in the one, capacity 1
(`siz = 1`, word 7) in the other, where `realloc` hands out the word 5 for the new index
1. Both calls return 0 with the remainder 0; the first leaves the quotient `[0, 1]`, the
value 2^32, the second leaves `[0, 5]`, the value 5 * 2^32: the quotient bit 32 was
set by `|=` in the word that `realloc` had not cleared. -/
theorem precn_divmod_quotient_junk :
    (Wf (heapOf [⟨0, 2, [0, 0]⟩, ⟨0, 2, [0, 0]⟩, ⟨2, 2, [0, 1]⟩, ⟨1, 1, [1]⟩] 0) ∧
      Wf (heapOf [⟨1, 1, [7]⟩, ⟨0, 2, [0, 0]⟩, ⟨2, 2, [0, 1]⟩, ⟨1, 1, [1]⟩] 0) ∧
      Wf (heapOf [⟨1, 1, [7]⟩, ⟨0, 2, [0, 0]⟩, ⟨2, 2, [0, 1]⟩, ⟨1, 1, [1]⟩] 1) ∧
      Wf (heapOf [⟨1, 1, [7]⟩, ⟨0, 2, [0, 0]⟩, ⟨2, 2, [0, 1]⟩, ⟨1, 1, [1]⟩] 2) ∧
      Wf (heapOf [⟨1, 1, [7]⟩, ⟨0, 2, [0, 0]⟩, ⟨2, 2, [0, 1]⟩, ⟨1, 1, [1]⟩] 3)) ∧
    (∀ p, p ≠ 0 →
      heapOf [⟨1, 1, [7]⟩, ⟨0, 2, [0, 0]⟩, ⟨2, 2, [0, 1]⟩, ⟨1, 1, [1]⟩] p =
        heapOf [⟨0, 2, [0, 0]⟩, ⟨0, 2, [0, 0]⟩, ⟨2, 2, [0, 1]⟩, ⟨1, 1, [1]⟩] p) ∧
    value (heapOf [⟨1, 1, [7]⟩, ⟨0, 2, [0, 0]⟩, ⟨2, 2, [0, 1]⟩, ⟨1, 1, [1]⟩] 3) ≠ 0 ∧
    (precn_divmod (fun _ => 5)
        (heapOf [⟨0, 2, [0, 0]⟩, ⟨0, 2, [0, 0]⟩, ⟨2, 2, [0, 1]⟩, ⟨1, 1, [1]⟩]) 0 1 2 3).map
      (fun s => (s.2, s.1 0, value (s.1 0), value (s.1 1))) =
        some (0, ⟨2, 2, [0, 1]⟩, 4294967296, 0) ∧
    (precn_divmod (fun _ => 5)
        (heapOf [⟨1, 1, [7]⟩, ⟨0, 2, [0, 0]⟩, ⟨2, 2, [0, 1]⟩, ⟨1, 1, [1]⟩]) 0 1 2 3).map
      (fun s => (s.2, s.1 0, value (s.1 0), value (s.1 1))) =
        some (0, ⟨2, 2, [0, 5]⟩, 21474836480, 0) := by
  refine ⟨by decide, ?_, by decide, by decide, by decide⟩
  · intro p hp
    rcases p with _ | _ | _ | _ | p
    · exact absurd rfl hp
    all_goals rfl

/-! ## The scratch remainder of `precn_div` -/

/-- A remainder object of `len(dividend)` words (normalized length) is enough for
`precn_divmod`: with a quotient object of at least as many words, the call returns 0 with
`value q * value b + value r = value a` and `value r < value b`, so no carry of the
one-bit shift was dropped; and `precn_div`, whose scratch remainder has `dividend->siz`
words, then leaves `value a / value b` in the quotient. -/
theorem remainder_len_suffices (junk : Nat → Nat) (h : Heap) (tmp q r a b : Ptr)
    (hqr : q ≠ r) (hqa : q ≠ a) (hqb : q ≠ b) (hra : r ≠ a) (hrb : r ≠ b)
    (htq : tmp ≠ q) (hta : tmp ≠ a) (htb : tmp ≠ b)
    (hq : Wf (h q)) (hr : Wf (h r)) (ha : Wf (h a)) (hb : Wf (h b))
    (hvb : value (h b) ≠ 0) (hcq : nlen (h a) ≤ (h q).alloc_size) :
    (nlen (h a) ≤ (h r).alloc_size →
      ∃ h2, precn_divmod junk h q r a b = some (h2, 0) ∧
        value (h2 q) * value (h b) + value (h2 r) = value (h a) ∧
        value (h2 r) < value (h b)) ∧
    (∃ h2, precn_div junk h tmp q a b = some (h2, 0) ∧
      value (h2 q) = value (h a) / value (h b)) := by
  constructor
  · intro hcr
    obtain ⟨h2, he, _, _, _, _, _, _, _, _, hfun⟩ := precn_divmod_spec junk h q r a b hqr hqa hqb
      hra hrb hq hr ha hb (siz_ne_zero_of_value hvb)
    exact ⟨h2, he, hfun hvb hcq (Or.inl hcr)⟩
  · obtain ⟨h2, he, _, _, _, _, hfun⟩ := precn_div_spec junk h tmp q a b htq hta htb hqa hqb
      hq ha hb (siz_ne_zero_of_value hvb)
    exact ⟨h2, he, hfun hvb hcq⟩

set_option maxRecDepth 100000 in
/-- C22: `precn_div` does not compute the quotient for every `a` and non-zero `b`. The
scratch remainder of capacity `dividend->siz` is large enough: with a quotient object of
capacity 2 the call on `a = [0, 1]` (2^32) and `b = [1]` returns 0 and leaves the
quotient `[0, 1]`, which is `a / b`. With a well-formed quotient object of capacity 1,
which `precn_divmod` grows after clearing it, and the word 5 handed out by `realloc`,
the call returns 0 and leaves the quotient `[0, 5]`, the value 5 * 2^32. -/
theorem precn_div_quotient_junk :
    (Wf (heapOf [⟨0, 1, [0]⟩, ⟨2, 2, [0, 1]⟩, ⟨1, 1, [1]⟩] 0) ∧
      Wf (heapOf [⟨0, 1, [0]⟩, ⟨2, 2, [0, 1]⟩, ⟨1, 1, [1]⟩] 1) ∧
      Wf (heapOf [⟨0, 1, [0]⟩, ⟨2, 2, [0, 1]⟩, ⟨1, 1, [1]⟩] 2)) ∧
    value (heapOf [⟨0, 1, [0]⟩, ⟨2, 2, [0, 1]⟩, ⟨1, 1, [1]⟩] 1) /
      value (heapOf [⟨0, 1, [0]⟩, ⟨2, 2, [0, 1]⟩, ⟨1, 1, [1]⟩] 2) = 4294967296 ∧
    (precn_div (fun _ => 5) (heapOf [⟨0, 1, [0]⟩, ⟨2, 2, [0, 1]⟩, ⟨1, 1, [1]⟩]) 3 0 1 2).map
      (fun s => (s.2, s.1 0, value (s.1 0))) = some (0, ⟨2, 2, [0, 5]⟩, 21474836480) ∧
    (precn_div (fun _ => 5) (heapOf [⟨0, 2, [0, 0]⟩, ⟨2, 2, [0, 1]⟩, ⟨1, 1, [1]⟩]) 3 0 1 2).map
      (fun s => (s.2, s.1 0, value (s.1 0))) = some (0, ⟨2, 2, [0, 1]⟩, 4294967296) := by
  decide

/-! ## Width of the accumulators -/

/-- C23: the 64-bit accumulators never wrap. In the inner loop of `precn_mul`, for 32-bit
words `x = a[i]`, `y = b[j]`, `z = res[i+j]` and a running carry `k < 2^32`, the sum
`x * y + z + k` is at most `2^64 - 1`, its high half is again below `2^32` (so its
truncation to 32 bits is itself), and the step of the model, which truncates to 64 bits
wherever C computes in `uint64_t`, stores exactly the low half and hands on exactly the
high half; started with carry 0 on a heap of 32-bit words, the inner loop ends with a
carry below `2^32`, so the `(uint32_t)carry` deposited at column `i + len(b)` loses
nothing. In `precn_add`, for 32-bit `av`, `bv` and a carry `c` of 0 or 1, the column sum
`av + bv + c` is below `2^64`, the step stores its low half and hands on a carry of 0
or 1, and the loop started with carry 0 ends with a carry of 0 or 1. -/
theorem accumulators_never_wrap (res a b : Ptr) (h : Heap) (i j m n x y z k av bv c : Nat)
    (hx : x < 2 ^ 32) (hy : y < 2 ^ 32) (hz : z < 2 ^ 32) (hk : k < 2 ^ 32)
    (hav : av < 2 ^ 32) (hbv : bv < 2 ^ 32) (hc : c ≤ 1) :
    (x * y + z + k ≤ 2 ^ 64 - 1 ∧ (x * y + z + k) / 2 ^ 32 < 2 ^ 32 ∧
      u32 ((x * y + z + k) / 2 ^ 32) = (x * y + z + k) / 2 ^ 32 ∧
      (load h a i = some x → load h b j = some y → load h res (i + j) = some z →
        precn_mul_inner res a b i j (h, k) =
          (store h res (i + j) ((x * y + z + k) % 2 ^ 32)).map
            (fun g => (g, (x * y + z + k) / 2 ^ 32)))) ∧
    ((∀ p t, wd (h p) t < 2 ^ 32) → i < (h a).a.length → m ≤ (h b).a.length →
      i + m ≤ (h res).a.length →
      ∃ s, forUp (precn_mul_inner res a b i) m 0 (h, 0) = some s ∧ s.2 < 2 ^ 32 ∧
        u32 s.2 = s.2) ∧
    (av + bv + c < 2 ^ 64 ∧ (av + bv + c) / 2 ^ 32 ≤ 1 ∧
      ((if i < (h a).siz then load h a i else some 0) = some av →
        (if i < (h b).siz then load h b i else some 0) = some bv →
        precn_add_body res a b i (h, c) =
          (store h res i ((av + bv + c) % 2 ^ 32)).map
            (fun g => (g, (av + bv + c) / 2 ^ 32)))) ∧
    (Wf (h a) → Wf (h b) → n ≤ (h res).a.length →
      ∃ s, forUp (precn_add_body res a b) n 0 (h, 0) = some s ∧ s.2 ≤ 1) := by
  have h64 : (2 : Nat) ^ 64 = 18446744073709551616 := by norm_num
  have h32 : (2 : Nat) ^ 32 = 4294967296 := by norm_num
  have hcar := (mul_column x y z k hx hy hz hk).2.1
  rw [Nat.shiftRight_eq_div_pow] at hcar
  have hac := (add_column av bv c hav hbv hc).2.1
  rw [Nat.shiftRight_eq_div_pow] at hac
  refine ⟨⟨?_, hcar, Nat.mod_eq_of_lt hcar, ?_⟩, ?_, ⟨?_, hac, ?_⟩, ?_⟩
  · have hxy : x * y ≤ 4294967295 * 4294967295 :=
      Nat.mul_le_mul (by omega) (by omega)
    rw [h64]; omega
  · exact precn_mul_inner_eq res a b h i j x y z k hx hy hz hk
  · exact precn_mul_inner_carry res a b h i m
  · rw [h64]; omega
  · exact precn_add_body_eq res a b h i av bv c hav hbv hc
  · intro ha hb hn
    obtain ⟨s, hs, _, _, hc1, _⟩ := precn_add_loop res a b h n (Wf_siz_le ha) (Wf_siz_le hb)
      (wd_lt_of_Wf ha) (wd_lt_of_Wf hb) hn
    exact ⟨s, hs, hc1⟩

/-- C23 at the largest inputs: with `x = y = z = k = 2^32 - 1` the sum is exactly
`2^64 - 1` and the carry `2^32 - 1`; with `av = bv = 2^32 - 1` and carry 1 the column
sum is `2^33 - 1` and the carry 1. -/
theorem accumulators_never_wrap_witness :
    (4294967295 * 4294967295 + 4294967295 + 4294967295 ≤ 2 ^ 64 - 1 ∧
      (4294967295 * 4294967295 + 4294967295 + 4294967295) / 2 ^ 32 < 2 ^ 32 ∧
      u32 ((4294967295 * 4294967295 + 4294967295 + 4294967295) / 2 ^ 32) =
        (4294967295 * 4294967295 + 4294967295 + 4294967295) / 2 ^ 32 ∧
      (load (heapOf [⟨1, 2, [4294967295, 0]⟩, ⟨1, 1, [4294967295]⟩, ⟨1, 1, [4294967295]⟩])
          1 0 = some 4294967295 →
        load (heapOf [⟨1, 2, [4294967295, 0]⟩, ⟨1, 1, [4294967295]⟩, ⟨1, 1, [4294967295]⟩])
          2 0 = some 4294967295 →
        load (heapOf [⟨1, 2, [4294967295, 0]⟩, ⟨1, 1, [4294967295]⟩, ⟨1, 1, [4294967295]⟩])
          0 (0 + 0) = some 4294967295 →
        precn_mul_inner 0 1 2 0 0
            (heapOf [⟨1, 2, [4294967295, 0]⟩, ⟨1, 1, [4294967295]⟩, ⟨1, 1, [4294967295]⟩],
              4294967295) =
          (store (heapOf [⟨1, 2, [4294967295, 0]⟩, ⟨1, 1, [4294967295]⟩, ⟨1, 1, [4294967295]⟩])
              0 (0 + 0) ((4294967295 * 4294967295 + 4294967295 + 4294967295) % 2 ^ 32)).map
            (fun g => (g, (4294967295 * 4294967295 + 4294967295 + 4294967295) / 2 ^ 32)))) ∧
    (4294967295 + 4294967295 + 1 < 2 ^ 64 ∧ (4294967295 + 4294967295 + 1) / 2 ^ 32 ≤ 1) ∧
    4294967295 * 4294967295 + 4294967295 + 4294967295 = 2 ^ 64 - 1 ∧
    (precn_mul_inner 0 1 2 0 0
        (heapOf [⟨1, 2, [4294967295, 0]⟩, ⟨1, 1, [4294967295]⟩, ⟨1, 1, [4294967295]⟩],
          4294967295)).map (fun s => (s.1 0, s.2)) =
      some (⟨1, 2, [4294967295, 0]⟩, 4294967295) ∧
    (precn_add_body 0 1 2 0
        (heapOf [⟨1, 2, [4294967295, 0]⟩, ⟨1, 1, [4294967295]⟩, ⟨1, 1, [4294967295]⟩],
          1)).map (fun s => (s.1 0, s.2)) =
      some (⟨1, 2, [4294967295, 0]⟩, 1) :=
  ⟨(accumulators_never_wrap 0 1 2
      (heapOf [⟨1, 2, [4294967295, 0]⟩, ⟨1, 1, [4294967295]⟩, ⟨1, 1, [4294967295]⟩])
      0 0 1 1 4294967295 4294967295 4294967295 4294967295 4294967295 4294967295 1
      (by decide) (by decide) (by decide) (by decide) (by decide) (by decide) (by decide)).1,
    ⟨(accumulators_never_wrap 0 1 2
      (heapOf [⟨1, 2, [4294967295, 0]⟩, ⟨1, 1, [4294967295]⟩, ⟨1, 1, [4294967295]⟩])
      0 0 1 1 4294967295 4294967295 4294967295 4294967295 4294967295 4294967295 1
      (by decide) (by decide) (by decide) (by decide) (by decide) (by decide)
      (by decide)).2.2.1.1,
    (accumulators_never_wrap 0 1 2
      (heapOf [⟨1, 2, [4294967295, 0]⟩, ⟨1, 1, [4294967295]⟩, ⟨1, 1, [4294967295]⟩])
      0 0 1 1 4294967295 4294967295 4294967295 4294967295 4294967295 4294967295 1
      (by decide) (by decide) (by decide) (by decide) (by decide) (by decide)
      (by decide)).2.2.1.2.1⟩,
    by decide, by decide, by decide⟩

/-! ## What `precn_cmp` changes -/

/-- C24: `precn_cmp(a, b)` only trims `siz`. For well-formed operands the call returns,
and in the heap it leaves each operand has `siz` equal to its normalized length and the
words, the capacity and the value it had; every other object is untouched, and an operand
that was normalized is the same object as before. The returned number is the three-way
comparison of the values. -/
theorem precn_cmp_frame (h : Heap) (a b : Ptr) (ha : Wf (h a)) (hb : Wf (h b)) :
    ∃ s, precn_cmp h a b = some s ∧ s.2 = cmp3 (value (h a)) (value (h b)) ∧
      ((s.1 a).siz = nlen (h a) ∧ (s.1 a).a = (h a).a ∧
        (s.1 a).alloc_size = (h a).alloc_size ∧ value (s.1 a) = value (h a)) ∧
      ((s.1 b).siz = nlen (h b) ∧ (s.1 b).a = (h b).a ∧
        (s.1 b).alloc_size = (h b).alloc_size ∧ value (s.1 b) = value (h b)) ∧
      (∀ p, p ≠ a → p ≠ b → s.1 p = h p) ∧
      (Normalized (h a) → s.1 a = h a) ∧ (Normalized (h b) → s.1 b = h b) := by
  refine ⟨_, precn_cmp_eq h a b ha hb, rfl, ?_, ?_, ?_, ?_, ?_⟩
  · show (cmpHeap h a b a).siz = _ ∧ (cmpHeap h a b a).a = _ ∧
      (cmpHeap h a b a).alloc_size = _ ∧ value (cmpHeap h a b a) = _
    rw [cmpHeap_left]
    exact ⟨rfl, rfl, rfl, value_nzObj _⟩
  · show (cmpHeap h a b b).siz = _ ∧ (cmpHeap h a b b).a = _ ∧
      (cmpHeap h a b b).alloc_size = _ ∧ value (cmpHeap h a b b) = _
    rw [cmpHeap_right]
    exact ⟨rfl, rfl, rfl, value_nzObj _⟩
  · intro p hpa hpb
    exact cmpHeap_other h hpa hpb
  · intro hn
    show cmpHeap h a b a = h a
    rw [cmpHeap_left, nzObj_of_Normalized hn]
  · intro hn
    show cmpHeap h a b b = h b
    rw [cmpHeap_right, nzObj_of_Normalized hn]

/-- C24, on a concrete heap: `a = [7, 0, 0]` with `siz = 3` and the normalized `b = [9]`;
after the call `a` has `siz = 1` and the same words and capacity, `b` is unchanged. -/
theorem precn_cmp_frame_witness :
    (Wf (heapOf [⟨3, 3, [7, 0, 0]⟩, ⟨1, 2, [9, 4]⟩] 0) ∧
      Wf (heapOf [⟨3, 3, [7, 0, 0]⟩, ⟨1, 2, [9, 4]⟩] 1)) ∧
    (∃ s, precn_cmp (heapOf [⟨3, 3, [7, 0, 0]⟩, ⟨1, 2, [9, 4]⟩]) 0 1 = some s ∧
      s.2 = cmp3 (value (heapOf [⟨3, 3, [7, 0, 0]⟩, ⟨1, 2, [9, 4]⟩] 0))
        (value (heapOf [⟨3, 3, [7, 0, 0]⟩, ⟨1, 2, [9, 4]⟩] 1)) ∧
      ((s.1 0).siz = nlen (heapOf [⟨3, 3, [7, 0, 0]⟩, ⟨1, 2, [9, 4]⟩] 0) ∧
        (s.1 0).a = (heapOf [⟨3, 3, [7, 0, 0]⟩, ⟨1, 2, [9, 4]⟩] 0).a ∧
        (s.1 0).alloc_size = (heapOf [⟨3, 3, [7, 0, 0]⟩, ⟨1, 2, [9, 4]⟩] 0).alloc_size ∧
        value (s.1 0) = value (heapOf [⟨3, 3, [7, 0, 0]⟩, ⟨1, 2, [9, 4]⟩] 0)) ∧
      ((s.1 1).siz = nlen (heapOf [⟨3, 3, [7, 0, 0]⟩, ⟨1, 2, [9, 4]⟩] 1) ∧
        (s.1 1).a = (heapOf [⟨3, 3, [7, 0, 0]⟩, ⟨1, 2, [9, 4]⟩] 1).a ∧
        (s.1 1).alloc_size = (heapOf [⟨3, 3, [7, 0, 0]⟩, ⟨1, 2, [9, 4]⟩] 1).alloc_size ∧
        value (s.1 1) = value (heapOf [⟨3, 3, [7, 0, 0]⟩, ⟨1, 2, [9, 4]⟩] 1)) ∧
      (∀ p, p ≠ 0 → p ≠ 1 → s.1 p = heapOf [⟨3, 3, [7, 0, 0]⟩, ⟨1, 2, [9, 4]⟩] p) ∧
      (Normalized (heapOf [⟨3, 3, [7, 0, 0]⟩, ⟨1, 2, [9, 4]⟩] 0) →
        s.1 0 = heapOf [⟨3, 3, [7, 0, 0]⟩, ⟨1, 2, [9, 4]⟩] 0) ∧
      (Normalized (heapOf [⟨3, 3, [7, 0, 0]⟩, ⟨1, 2, [9, 4]⟩] 1) →
        s.1 1 = heapOf [⟨3, 3, [7, 0, 0]⟩, ⟨1, 2, [9, 4]⟩] 1)) ∧
    (precn_cmp (heapOf [⟨3, 3, [7, 0, 0]⟩, ⟨1, 2, [9, 4]⟩]) 0 1).map
        (fun s => (s.1 0, s.1 1, s.2)) = some (⟨1, 3, [7, 0, 0]⟩, ⟨1, 2, [9, 4]⟩, -1) :=
  ⟨⟨by decide, by decide⟩,
    precn_cmp_frame (heapOf [⟨3, 3, [7, 0, 0]⟩, ⟨1, 2, [9, 4]⟩]) 0 1 (by decide) (by decide),
    by decide⟩

/-! ## Division by zero -/

/-- C25: a failing `precn_divmod` changes nothing. Whenever the call returns -1, the heap
it leaves is the heap it was given, so the quotient, the remainder, the dividend and the
divisor have the `siz`, the capacity and the words they had; and the divisor had
`siz = 0`. -/
theorem precn_divmod_error_atomic (junk : Nat → Nat) (h h1 : Heap) (q r a b : Ptr)
    (hret : precn_divmod junk h q r a b = some (h1, -1)) :
    h1 = h ∧ h1 q = h q ∧ h1 r = h r ∧ h1 a = h a ∧ h1 b = h b ∧ (h b).siz = 0 := by
  unfold precn_divmod at hret
  by_cases hs : (h b).siz = 0
  · rw [if_pos hs] at hret
    have e : h1 = h := by
      have := Option.some.inj hret
      exact (congrArg Prod.fst this).symm
    subst e
    exact ⟨rfl, rfl, rfl, rfl, rfl, hs⟩
  · exfalso
    rw [if_neg hs] at hret
    simp only [Option.bind_eq_bind, Option.bind_eq_some, Option.pure_def] at hret
    obtain ⟨c, _, hret⟩ := hret
    split_ifs at hret
    · simp only [Option.bind_eq_some] at hret
      obtain ⟨_, _, _, _, he⟩ := hret
      have := congrArg Prod.snd (Option.some.inj he)
      simp at this
    · simp only [Option.bind_eq_some] at hret
      obtain ⟨_, _, _, _, _, _, _, _, _, _, he⟩ := hret
      have := congrArg Prod.snd (Option.some.inj he)
      simp at this

/-- C25, on a concrete heap: the divisor has `siz = 0`, the call returns -1 and the
quotient object `[3]` and the remainder object `[4, 8]` keep their contents. -/
theorem precn_divmod_error_atomic_witness :
    precn_divmod (fun _ => 5)
        (heapOf [⟨1, 1, [3]⟩, ⟨1, 2, [4, 8]⟩, ⟨1, 1, [100]⟩, ⟨0, 1, [0]⟩]) 0 1 2 3 =
      some (heapOf [⟨1, 1, [3]⟩, ⟨1, 2, [4, 8]⟩, ⟨1, 1, [100]⟩, ⟨0, 1, [0]⟩], -1) ∧
    (heapOf [⟨1, 1, [3]⟩, ⟨1, 2, [4, 8]⟩, ⟨1, 1, [100]⟩, ⟨0, 1, [0]⟩] =
        heapOf [⟨1, 1, [3]⟩, ⟨1, 2, [4, 8]⟩, ⟨1, 1, [100]⟩, ⟨0, 1, [0]⟩] ∧
      heapOf [⟨1, 1, [3]⟩, ⟨1, 2, [4, 8]⟩, ⟨1, 1, [100]⟩, ⟨0, 1, [0]⟩] 0 =
        heapOf [⟨1, 1, [3]⟩, ⟨1, 2, [4, 8]⟩, ⟨1, 1, [100]⟩, ⟨0, 1, [0]⟩] 0 ∧
      heapOf [⟨1, 1, [3]⟩, ⟨1, 2, [4, 8]⟩, ⟨1, 1, [100]⟩, ⟨0, 1, [0]⟩] 1 =
        heapOf [⟨1, 1, [3]⟩, ⟨1, 2, [4, 8]⟩, ⟨1, 1, [100]⟩, ⟨0, 1, [0]⟩] 1 ∧
      heapOf [⟨1, 1, [3]⟩, ⟨1, 2, [4, 8]⟩, ⟨1, 1, [100]⟩, ⟨0, 1, [0]⟩] 2 =
        heapOf [⟨1, 1, [3]⟩, ⟨1, 2, [4, 8]⟩, ⟨1, 1, [100]⟩, ⟨0, 1, [0]⟩] 2 ∧
      heapOf [⟨1, 1, [3]⟩, ⟨1, 2, [4, 8]⟩, ⟨1, 1, [100]⟩, ⟨0, 1, [0]⟩] 3 =
        heapOf [⟨1, 1, [3]⟩, ⟨1, 2, [4, 8]⟩, ⟨1, 1, [100]⟩, ⟨0, 1, [0]⟩] 3 ∧
      (heapOf [⟨1, 1, [3]⟩, ⟨1, 2, [4, 8]⟩, ⟨1, 1, [100]⟩, ⟨0, 1, [0]⟩] 3).siz = 0) ∧
    (precn_divmod (fun _ => 5)
        (heapOf [⟨1, 1, [3]⟩, ⟨1, 2, [4, 8]⟩, ⟨1, 1, [100]⟩, ⟨0, 1, [0]⟩]) 0 1 2 3).map
      (fun s => (s.2, s.1 0, s.1 1, s.1 2, s.1 3)) =
        some (-1, ⟨1, 1, [3]⟩, ⟨1, 2, [4, 8]⟩, ⟨1, 1, [100]⟩, ⟨0, 1, [0]⟩) :=
  ⟨rfl,
    precn_divmod_error_atomic (fun _ => 5)
      (heapOf [⟨1, 1, [3]⟩, ⟨1, 2, [4, 8]⟩, ⟨1, 1, [100]⟩, ⟨0, 1, [0]⟩])
      (heapOf [⟨1, 1, [3]⟩, ⟨1, 2, [4, 8]⟩, ⟨1, 1, [100]⟩, ⟨0, 1, [0]⟩]) 0 1 2 3 rfl,
    by decide⟩

end Precn
